import Mathlib

/-!
# Imagelyn: the file interpreter

A shallow embedding of `FileInterpreter.cpp` (`Load`, `IsAlphanumeric`, `ParseKeyword`,
`ParseString`, `HandleKeyword`).  Bytes are natural numbers, `std::string` is a list of bytes,
`std::ifstream` is the list of bytes not yet extracted together with its eof flag, and the static
members and manager classes are fields of one explicit `World` value that is passed through.
-/

namespace Imagelyn

/-- A `std::string`: its bytes in order. -/
abbrev Str := List Nat

/-- The bytes of a string literal of the source. -/
def str (s : String) : Str := s.toList.map Char.toNat

/-! ## `std::ifstream` -/

/-- A `std::ifstream` that was opened: the bytes not extracted yet and the eof flag, which a read
sets (with the fail flag) when it finds no byte left. -/
structure IfStream where
  rest : Str
  eof : Bool
deriving DecidableEq, Repr

/-- The call `file.read(&byte, 1)`: extracts one byte into `byte`; at the end of the input it sets
the eof flag and leaves `byte` as it was; on a stream that has already failed it does nothing. -/
def IfStream.read (file : IfStream) (byte : Nat) : IfStream × Nat :=
  if file.eof then (file, byte)
  else
    match file.rest with
    | [] => ({ file with eof := true }, byte)
    | b :: r => ({ file with rest := r }, b)

/-- The loop `while (!file.eof() && cont(byte)) file.read(&byte, 1);` entered with the eof flag
clear, by recursion on the bytes left. -/
def skipLoop (cont : Nat → Bool) : Str → Nat → IfStream × Nat
  | [], byte => if cont byte then (⟨[], true⟩, byte) else (⟨[], false⟩, byte)
  | b :: r, byte => if cont byte then skipLoop cont r b else (⟨b :: r, false⟩, byte)

/-- The loop `while (!file.eof() && cont(byte)) file.read(&byte, 1);`. -/
def skipWhile (cont : Nat → Bool) (file : IfStream) (byte : Nat) : IfStream × Nat :=
  if file.eof then (file, byte) else skipLoop cont file.rest byte

/-- The loop `while (!file.eof() && cont(byte)) { acc += byte; file.read(&byte, 1); }` entered
with the eof flag clear, by recursion on the bytes left. -/
def accumLoop (cont : Nat → Bool) : Str → Nat → Str → IfStream × Nat × Str
  | [], byte, acc =>
    if cont byte then (⟨[], true⟩, byte, acc ++ [byte]) else (⟨[], false⟩, byte, acc)
  | b :: r, byte, acc =>
    if cont byte then accumLoop cont r b (acc ++ [byte]) else (⟨b :: r, false⟩, byte, acc)

/-- The loop `while (!file.eof() && cont(byte)) { acc += byte; file.read(&byte, 1); }`. -/
def accumWhile (cont : Nat → Bool) (file : IfStream) (byte : Nat) (acc : Str) :
    IfStream × Nat × Str :=
  if file.eof then (file, byte, acc) else accumLoop cont file.rest byte acc

/-! ## The scanner -/

/-- The function `FileInterpreter::IsAlphanumeric`: the two ranges of ASCII letters. -/
def IsAlphanumeric (character : Nat) : Bool :=
  (decide (character > 0x40) && decide (character < 0x5B)) ||
    (decide (character > 0x60) && decide (character < 0x7B))

/-- The function `FileInterpreter::ParseKeyword`: the returned keyword, the stream and
`errorMessage` after the call. -/
def ParseKeyword (file : IfStream) (errorMessage : Str) : Str × IfStream × Str :=
  let byte : Nat := 0x00
  let (file, byte) := skipWhile (fun b => !IsAlphanumeric b) file byte
  if file.eof then
    ([], file, str "EOF")
  else
    let (file, byte, keyword) :=
      accumWhile (fun b => b != 0x0D && b != 0x0A && b != 0x20) file byte []
    if file.eof || byte == 0x0D || byte == 0x0A then
      ([], file, str "Keyword (" ++ keyword ++ str ") is incomplete")
    else
      (keyword, file, errorMessage)

/-- The function `FileInterpreter::ParseString`: the returned string, the stream and
`errorMessage` after the call. -/
def ParseString (file : IfStream) (errorMessage : Str) : Str × IfStream × Str :=
  let byte : Nat := 0x00
  let (file, byte) := skipWhile (fun b => !IsAlphanumeric b && b != 0x22) file byte
  if file.eof then
    ([], file, str "EOF")
  else if IsAlphanumeric byte then
    ([], file, str "Expected quotation mark at beginning of string")
  else
    let (file, byte) := file.read byte
    let (file, byte, string) :=
      accumWhile (fun b => b != 0x0D && b != 0x0A && b != 0x22) file byte []
    if file.eof || byte == 0x0D || byte == 0x0A then
      ([], file, str "Incomplete string")
    else
      (string, file, errorMessage)

/-! ## The entities and the managers -/

/-- Modelled from the spec: class `Preference` (Preference.h is not part of the sources read
here). A preference is its name; its identity is that name. -/
structure Preference where
  name : Str
deriving DecidableEq, Repr

/-- Modelled from the spec: class `Activity` (Location.h is not part of the sources read here).
A name, the positive and the negative set of preference references, and the hints unlocked so
far for each polarity. -/
structure Activity where
  name : Str
  positive : List Preference
  negative : List Preference
  positiveHints : List Preference
  negativeHints : List Preference
deriving DecidableEq, Repr

/-- Modelled from the spec: class `Location` (Location.h is not part of the sources read here).
A name and the ordered sequence of its activities; each activity is a `shared_ptr<Activity>`,
here the address of the activity object in `World.heap`. -/
structure Location where
  name : Str
  activities : List Nat
deriving DecidableEq, Repr

/-- Modelled from the spec: adding to a set of preference references. -/
def addToSet (p : Preference) (set : List Preference) : List Preference :=
  if p ∈ set then set else set ++ [p]

/-- The constructor `Activity(name)`: no preference and no hint yet. -/
def Activity.new (name : Str) : Activity :=
  { name := name, positive := [], negative := [], positiveHints := [], negativeHints := [] }

/-- Modelled from the spec: `Activity::AddPositivePreference`. -/
def Activity.AddPositivePreference (a : Activity) (p : Preference) : Activity :=
  { a with positive := addToSet p a.positive }

/-- Modelled from the spec: `Activity::AddNegativePreference`. -/
def Activity.AddNegativePreference (a : Activity) (p : Preference) : Activity :=
  { a with negative := addToSet p a.negative }

/-- Modelled from the spec: `Location::AddActivity`, which appends to the sequence. -/
def Location.AddActivity (l : Location) (activity : Nat) : Location :=
  { l with activities := l.activities ++ [activity] }

/-- Everything `FileInterpreter` can read or change besides the stream: the `Activity` objects
allocated so far (`heap`, an object's address is its index), the two static members, and the
contents of the preference, client and location managers. `m_CurrentLocation` is the only
reference to its `Location` until `Load` hands it to the location manager, so the object is
kept in place; `m_CurrentActivity` shares its object with the location and is an address. -/
structure World where
  heap : List Activity
  m_CurrentLocation : Option Location
  m_CurrentActivity : Option Nat
  preferences : List Preference
  names : List Str
  locations : List Location
deriving DecidableEq, Repr

/-- A write through a `shared_ptr<Activity>`: the object at `address` becomes `f` of itself. -/
def modifyAt (f : Activity → Activity) : Nat → List Activity → List Activity
  | _, [] => []
  | 0, a :: as => f a :: as
  | n + 1, a :: as => a :: modifyAt f n as

/-- Modelled from the spec: `PreferenceManager::GetPreferenceByName`, the registry's
`lookup(name) -> optional Preference`. -/
def GetPreferenceByName (preferences : List Preference) (name : Str) : Option Preference :=
  preferences.find? (fun p => p.name == name)

/-- Modelled from the spec: `PreferenceManager::AddPreference`, the registry's
`insert(Preference) -> bool`, false and no insertion when the name is already there. -/
def AddPreference (preferences : List Preference) (p : Preference) : Bool × List Preference :=
  if (GetPreferenceByName preferences p.name).isSome then (false, preferences)
  else (true, preferences ++ [p])

/-- Modelled from the spec: `ClientManager::AddName`, the registry's `addName(name)`. -/
def AddName (names : List Str) (name : Str) : List Str := names ++ [name]

/-- Modelled from the spec: `LocationManager::AddLocation`, the registry's
`addLocation(Location)`. -/
def AddLocation (locations : List Location) (l : Location) : List Location := locations ++ [l]

/-- The call `std::tolower(c)` in the default locale: the 26 capital letters move to their small
letter, every other byte stays. -/
def tolower (c : Nat) : Nat := if 0x41 ≤ c ∧ c ≤ 0x5A then c + 0x20 else c

/-! ## The keyword handlers -/

/-- The function `FileInterpreter::HandleKeyword`: the stream, `errorMessage` and the world
after the call. -/
def HandleKeyword (keyword : Str) (file : IfStream) (errorMessage : Str) (w : World) :
    IfStream × Str × World :=
  if keyword = str "location" then
    if w.m_CurrentLocation ≠ none then
      (file, str "Only one location should be defined per file", w)
    else
      let (locationName, file, errorMessage) := ParseString file errorMessage
      if errorMessage = [] then
        (file, errorMessage, { w with m_CurrentLocation := some ⟨locationName, []⟩ })
      else (file, errorMessage, w)
  else if keyword = str "activity" then
    match w.m_CurrentLocation with
    | none => (file, str "Location must be defined before activity", w)
    | some location =>
      let (activityName, file, errorMessage) := ParseString file errorMessage
      if errorMessage = [] then
        (file, errorMessage,
          { w with
            heap := w.heap ++ [Activity.new activityName]
            m_CurrentActivity := some w.heap.length
            m_CurrentLocation := some (location.AddActivity w.heap.length) })
      else (file, errorMessage, w)
  else if keyword = str "preference+" then
    match w.m_CurrentActivity with
    | none => (file, str "Activity must be defined before a preference", w)
    | some activity =>
      let (preference, file, errorMessage) := ParseString file errorMessage
      let preference := preference.map tolower
      if errorMessage = [] then
        match GetPreferenceByName w.preferences preference with
        | some p =>
          (file, errorMessage,
            { w with heap := modifyAt (fun a => a.AddPositivePreference p) activity w.heap })
        | none => (file, str "~Preference (" ++ preference ++ str ") is undefined", w)
      else (file, errorMessage, w)
  else if keyword = str "preference-" then
    match w.m_CurrentActivity with
    | none => (file, str "Activity must be defined before a preference", w)
    | some activity =>
      let (preference, file, errorMessage) := ParseString file errorMessage
      let preference := preference.map tolower
      if errorMessage = [] then
        match GetPreferenceByName w.preferences preference with
        | some p =>
          (file, errorMessage,
            { w with heap := modifyAt (fun a => a.AddNegativePreference p) activity w.heap })
        | none => (file, str "~Preference (" ++ preference ++ str ") is undefined", w)
      else (file, errorMessage, w)
  else if keyword = str "add_preference" then
    let (preference, file, errorMessage) := ParseString file errorMessage
    let preference := preference.map tolower
    if errorMessage = [] then
      match AddPreference w.preferences ⟨preference⟩ with
      | (true, preferences) => (file, errorMessage, { w with preferences := preferences })
      | (false, preferences) =>
        (file, str "Preference (" ++ preference ++ str ") defined more than once",
          { w with preferences := preferences })
    else (file, errorMessage, w)
  else if keyword = str "name" then
    let (name, file, errorMessage) := ParseString file errorMessage
    if errorMessage = [] then
      (file, errorMessage, { w with names := AddName w.names name })
    else (file, errorMessage, w)
  else
    (file, str "Keyword (" ++ keyword ++ str ") not recognized", w)

/-! ## `Load` -/

/-- One call of `ConsoleManager::Message`, `Warning` or `Error` with its text. -/
inductive ConsoleLine where
  | message (text : Str)
  | warning (text : Str)
  | error (text : Str)
deriving DecidableEq, Repr

/-- What the loop of `Load` carries from one iteration to the next. -/
structure LoopState where
  file : IfStream
  errorMessage : Str
  w : World
deriving DecidableEq, Repr

/-- How one iteration of the loop of `Load` ends: `Load` returns, or the loop goes round again;
with the console lines written meanwhile. -/
inductive Step where
  | exit (result : Bool) (w : World) (console : List ConsoleLine)
  | next (st : LoopState) (console : List ConsoleLine)
deriving DecidableEq, Repr

/-- The prefix `"Error reading file (" + path + "): "` of every warning and error line. -/
def errorOutput (path : Str) : Str := str "Error reading file (" ++ path ++ str "): "

/-- The character `errorMessage[0]`, which is the terminating zero of an empty string. -/
def firstChar (errorMessage : Str) : Nat := errorMessage.headD 0

/-- The statements of `Load` after its loop: the success line, the registration of the current
location if there is one, `return true`. -/
def loadEnd (path : Str) (w : World) : Step :=
  .exit true
    (match w.m_CurrentLocation with
      | some l => { w with locations := AddLocation w.locations l }
      | none => w)
    [.message (str "File " ++ path ++ str " loaded successfully")]

/-- The test of the loop of `Load` and one run of its body. -/
def loadBody (path : Str) (st : LoopState) : Step :=
  if st.file.eof then loadEnd path st.w
  else
    let (keyword, file, errorMessage) := ParseKeyword st.file st.errorMessage
    if errorMessage = str "EOF" then loadEnd path st.w
    else if firstChar errorMessage = 0x7E then
      let warning := errorMessage.tail
      let (file, errorMessage, w) := HandleKeyword keyword file [] st.w
      if firstChar errorMessage = 0x7E then
        .next ⟨file, [], w⟩
          [.warning (errorOutput path ++ warning), .warning (errorOutput path ++ errorMessage.tail)]
      else if errorMessage ≠ [] then
        .exit false w
          [.warning (errorOutput path ++ warning), .error (errorOutput path ++ errorMessage)]
      else .next ⟨file, errorMessage, w⟩ [.warning (errorOutput path ++ warning)]
    else if errorMessage ≠ [] then
      .exit false st.w [.error (errorOutput path ++ errorMessage)]
    else
      let (file, errorMessage, w) := HandleKeyword keyword file errorMessage st.w
      if firstChar errorMessage = 0x7E then
        .next ⟨file, [], w⟩ [.warning (errorOutput path ++ errorMessage.tail)]
      else if errorMessage ≠ [] then
        .exit false w [.error (errorOutput path ++ errorMessage)]
      else .next ⟨file, errorMessage, w⟩ []

/-- The loop of `Load`, run for at most `fuel` iterations: the value returned, the world and the
console lines, or `none` when the iterations allowed did not reach a `return`. -/
def loadLoop (path : Str) : Nat → LoopState → Option (Bool × World × List ConsoleLine)
  | 0, _ => none
  | fuel + 1, st =>
    match loadBody path st with
    | .exit result w console => some (result, w, console)
    | .next st' console =>
      (loadLoop path fuel st').map (fun r => (r.1, r.2.1, console ++ r.2.2))

/-- The function `FileInterpreter::Load`. `contents` is what the file system holds under
`path`: `none` when the file cannot be opened, else its bytes. Every iteration of the loop extracts a byte or
returns, so one iteration more than there are bytes is allowed. -/
def Load (path : Str) (contents : Option Str) (w : World) :
    Option (Bool × World × List ConsoleLine) :=
  let w := { w with m_CurrentLocation := none, m_CurrentActivity := none }
  match contents with
  | none => some (false, w, [.error (str "Could not open file: " ++ path)])
  | some bytes => loadLoop path (bytes.length + 1) ⟨⟨bytes, false⟩, [], w⟩

/-! ## Reference scanners, written from the specification -/

/-- An ASCII letter: a byte in `0x41-0x5A` or in `0x61-0x7A`. -/
def isLetter (b : Nat) : Bool :=
  (decide (0x41 ≤ b) && decide (b ≤ 0x5A)) || (decide (0x61 ≤ b) && decide (b ≤ 0x7A))

/-- What a scan yields according to the specification: the end-of-input signal `"EOF"`, a fatal
error with its message, or a token together with the input left after it. -/
inductive Scan where
  | eof
  | fatal (message : Str)
  | token (text : Str) (cursor : Str)
deriving DecidableEq, Repr

/-- The keyword scan as the specification words it: drop the longest prefix of non-letters; if
nothing remains that is the `"EOF"` signal; else take the longest run free of CR, LF and space,
and look at the byte that ends it. -/
def ParseKeyword_reference (input : Str) : Scan :=
  let remaining := input.dropWhile (fun b => !isLetter b)
  if remaining = [] then .eof
  else
    let run := remaining.takeWhile (fun b => b != 0x0D && b != 0x0A && b != 0x20)
    let ending := remaining.dropWhile (fun b => b != 0x0D && b != 0x0A && b != 0x20)
    if ending.head? = some 0x20 then .token run ending.tail
    else .fatal (str "Keyword (" ++ run ++ str ") is incomplete")

/-- The string scan as the specification words it: skip the longest prefix of bytes that are
neither letters nor the quote; after the opening quote take the longest run free of quote, CR
and LF, and look at the byte that ends it. -/
def ParseString_reference (input : Str) : Scan :=
  match input.dropWhile (fun b => !isLetter b && b != 0x22) with
  | [] => .fatal (str "EOF")
  | first :: body =>
    if isLetter first then .fatal (str "Expected quotation mark at beginning of string")
    else
      let run := body.takeWhile (fun b => b != 0x22 && b != 0x0D && b != 0x0A)
      let ending := body.dropWhile (fun b => b != 0x22 && b != 0x0D && b != 0x0A)
      if ending.head? = some 0x22 then .token run ending.tail
      else .fatal (str "Incomplete string")

/-- The test of the second loop of `ParseKeyword`. -/
def inKeyword (b : Nat) : Bool := b != 0x0D && b != 0x0A && b != 0x20

/-- The test of the second loop of `ParseString`. -/
def inString (b : Nat) : Bool := b != 0x0D && b != 0x0A && b != 0x22

/-- The messages `ParseString` can set. -/
def isStringError (m : Str) : Prop :=
  m = str "EOF" ∨ m = str "Expected quotation mark at beginning of string" ∨
    m = str "Incomplete string"

/-! ## Directives as bytes -/

/-- Filler before a keyword: bytes that are not ASCII letters. -/
def isFiller (l : Str) : Prop := ∀ x ∈ l, IsAlphanumeric x = false

/-- Filler between the space after a keyword and the opening quote: bytes that are neither
ASCII letters nor the quote. -/
def isGap (l : Str) : Prop := ∀ x ∈ l, (!IsAlphanumeric x && x != 0x22) = true

/-- An argument: bytes free of the quote, CR and LF. -/
def isArgument (l : Str) : Prop := ∀ x ∈ l, inString x = true

/-- A keyword token: a letter followed by bytes free of CR, LF and space. -/
def isToken : Str → Prop
  | [] => False
  | c :: run => IsAlphanumeric c = true ∧ ∀ x ∈ run, inKeyword x = true

instance (l : Str) : Decidable (isFiller l) :=
  inferInstanceAs (Decidable (∀ x ∈ l, IsAlphanumeric x = false))

instance (l : Str) : Decidable (isGap l) :=
  inferInstanceAs (Decidable (∀ x ∈ l, (!IsAlphanumeric x && x != 0x22) = true))

instance (l : Str) : Decidable (isArgument l) :=
  inferInstanceAs (Decidable (∀ x ∈ l, inString x = true))

instance : (kw : Str) → Decidable (isToken kw)
  | [] => isFalse (fun h => h)
  | c :: run =>
    inferInstanceAs (Decidable (IsAlphanumeric c = true ∧ ∀ x ∈ run, inKeyword x = true))

/-- The bytes of one directive: filler, the keyword, one space, a gap, and the argument between
two quotes. -/
def directive (filler kw gap arg : Str) : Str :=
  filler ++ kw ++ 0x20 :: (gap ++ 0x22 :: (arg ++ [0x22]))

/-! ## The loop of `Load`, iteration by iteration -/

/-- The state in which `Load` enters its loop on a file that was opened: both static members
reset, the stream at the first byte, no message. -/
def loadStart (bytes : Str) (w : World) : LoopState :=
  ⟨⟨bytes, false⟩, [], { w with m_CurrentLocation := none, m_CurrentActivity := none }⟩

/-- The loop of `Load` from the state `st`, with one iteration more than bytes are left. -/
def loadRun (path : Str) (st : LoopState) : Option (Bool × World × List ConsoleLine) :=
  loadLoop path (st.file.rest.length + 1) st

/-- The value returned and the world left, without the console lines. -/
def outcome (r : Option (Bool × World × List ConsoleLine)) : Option (Bool × World) :=
  r.map (fun x => (x.1, x.2.1))

/-- The relation `Reaches path st st'`: the loop of `Load`, at its head in state `st`, is at
its head in state `st'` after some number of iterations, none included. -/
inductive Reaches (path : Str) : LoopState → LoopState → Prop where
  | here (st : LoopState) : Reaches path st st
  | later (st mid st' : LoopState) (console : List ConsoleLine) :
    loadBody path st = .next mid console → Reaches path mid st' → Reaches path st st'

/-! ## Location files -/

/-- A directive that may follow the `location` directive of a location file: `activity` with
its name, or `preference+` (`positive`) or `preference-` with the name of a preference. -/
inductive Directive where
  | activity (name : Str)
  | preference (positive : Bool) (name : Str)
deriving DecidableEq, Repr

/-- The keyword of a directive. -/
def Directive.keyword : Directive → Str
  | .activity _ => str "activity"
  | .preference positive _ => if positive then str "preference+" else str "preference-"

/-- The argument of a directive. -/
def Directive.argument : Directive → Str
  | .activity name => name
  | .preference _ name => name

/-- Whether a directive is an `activity` directive. -/
def Directive.isActivity : Directive → Bool
  | .activity _ => true
  | .preference _ _ => false

/-- The bytes of a sequence of directives, each written `keyword "argument"` after its own
filler. -/
def renderAll : List (Str × Directive) → Str
  | [] => []
  | fd :: ds => directive fd.1 fd.2.keyword [] fd.2.argument ++ renderAll ds

/-- The arguments of the `activity` directives of a sequence, in order. -/
def activityNames : List (Str × Directive) → List Str
  | [] => []
  | (_, .activity name) :: ds => name :: activityNames ds
  | (_, .preference _ _) :: ds => activityNames ds

/-- Every directive of the sequence is well formed: only non-letters before its keyword, and an
argument free of quote, CR and LF. -/
def wellFormed (ds : List (Str × Directive)) : Prop :=
  ∀ fd ∈ ds, isFiller fd.1 ∧ isArgument fd.2.argument

/-- Every preference directive of the sequence comes after at least one activity directive. -/
def preferencesFollowActivity (ds : List (Str × Directive)) : Prop :=
  ∀ before fd after, ds = before ++ fd :: after → fd.2.isActivity = false →
    ∃ x ∈ before, x.2.isActivity = true

/-- The bytes of a file with exactly one `location` directive, placed first, followed by the
directives `ds` and by filler. -/
def locationFile (lead name : Str) (ds : List (Str × Directive)) (trail : Str) : Str :=
  directive lead (str "location") [] name ++ (renderAll ds ++ trail)

/-- A location file with two activities, a preference that is registered and one that is
not. -/
def lakeDirectives : List (Str × Directive) :=
  [([0x0D, 0x0A], .activity (str "Swim")), ([0x0A], .preference true (str "Quiet")),
    ([0x0A], .preference false (str "crowds")), ([0x0A, 0x0A], .activity (str "Row"))]

/-! ## Worlds for the examples -/

/-- A world in which nothing has been loaded or registered. -/
def emptyWorld : World := ⟨[], none, none, [], [], []⟩

/-- A world as an earlier `Load` of a file with one location and one activity leaves it: the
static members still point at that location and that activity. -/
def staleWorld : World :=
  ⟨[Activity.new (str "Swim")], some ⟨str "Lake", [0]⟩, some 0, [⟨str "quiet"⟩], [],
    [⟨str "Lake", [0]⟩]⟩

/-- A file with two `location` directives, the first with the empty name. -/
def twoLocations : Str := str "location \"\"\nlocation \"B\""

/-- A file with a `preference+` directive directly after its `location` directive. -/
def preferenceAfterLocation : Str := str "location \"Lake\"\npreference+ \"quiet\""

/-- The world after `location "L"` and `activity "A"` were handled in the empty world. -/
def oneActivityWorld : World :=
  { emptyWorld with
    heap := [Activity.new (str "A")]
    m_CurrentLocation := some ⟨str "L", [0]⟩
    m_CurrentActivity := some 0 }

/-- A file whose third directive names a preference that is not registered. -/
def unknownPreference : Str :=
  str "location \"L\"\nactivity \"A\"" ++
    (directive [0x0A] (str "preference+") [] (str "Nope") ++ str "\nname \"Bob\"")

/-- A file that registers `Quiet` and then attaches `QUIET`. -/
def quietFile : Str :=
  str "location \"L\"\nactivity \"A\"\nadd_preference \"Quiet\"\npreference+ \"QUIET\""

/-- A file that registers `sun` twice, in two spellings. -/
def twiceFile : Str := str "add_preference \"Sun\"\nadd_preference \"SUN\""

/-- The example file of the specification. -/
def parkFile : Str :=
  str "location \"Park\"\nactivity \"Picnic\"\nadd_preference \"sun\"\npreference+ \"sun\""

/-! ## More examples -/

/-- The six keywords `HandleKeyword` recognizes. -/
def recognized : List Str :=
  [str "location", str "activity", str "preference+", str "preference-", str "add_preference",
    str "name"]

/-- A file whose third directive has a keyword that is not recognized. -/
def brokenFile : Str := str "add_preference \"sun\"\nname \"Bob\"\nbogus \"x\""

/-- A file that starts with the `add_preference` directive of `brokenFile`. -/
def retryFile : Str := str "add_preference \"sun\"\nlocation \"Park\""

/-! ## The invariant of the loop -/

/-- The invariant of the loop of `Load`: a current activity is an address of the heap, and when
it exists a current location exists whose activity sequence ends with it. -/
def currentActivityIsLast (w : World) : Prop :=
  ∀ a, w.m_CurrentActivity = some a →
    a < w.heap.length ∧
      ∃ l, w.m_CurrentLocation = some l ∧ l.activities.getLast? = some a

/-! ## `Report::Pairing` -/

/-- The struct `Report::Pairing`: its three members; the two shared pointers are the address of
the activity in the heap and the preference. -/
structure Pairing where
  m_Activity : Nat
  m_Preference : Preference
  m_IsPositive : Bool
deriving DecidableEq, Repr

/-- The constructor `Pairing(activity, preference, isPositive)`: the object it initializes and
the state after its body ran. The two methods of `Activity` it calls are not part of the sources
read here and are parameters: each takes the address of the activity it is called on, the
preference, and the state it acts on (the heap of the activity objects, when the methods are
the ones the specification describes). -/
def Pairing.new {σ : Type} (UnlockPositiveHint UnlockNegativeHint : Nat → Preference → σ → σ)
    (activity : Nat) (preference : Preference) (isPositive : Bool) (heap : σ) :
    Pairing × σ :=
  (⟨activity, preference, isPositive⟩,
    if isPositive then UnlockPositiveHint activity preference heap
    else UnlockNegativeHint activity preference heap)

/-- A call of one of the two hint methods of `Activity`: which method, the address of the
activity it is called on, and the preference it is given. -/
inductive HintCall where
  | UnlockPositiveHint (activity : Nat) (preference : Preference)
  | UnlockNegativeHint (activity : Nat) (preference : Preference)
deriving DecidableEq, Repr

/-- The two hint methods as recorders: each adds its call to the calls made so far. -/
def recordPositiveHint (activity : Nat) (p : Preference) (calls : List HintCall) :
    List HintCall :=
  calls ++ [.UnlockPositiveHint activity p]

/-- The recorder of `UnlockNegativeHint`. -/
def recordNegativeHint (activity : Nat) (p : Preference) (calls : List HintCall) :
    List HintCall :=
  calls ++ [.UnlockNegativeHint activity p]

/-- Modelled from the spec: `Activity::UnlockPositiveHint`, called through a shared pointer.
The hint of the preference joins the unlocked positive hints of the activity; unlocking a hint
that is unlocked changes nothing. -/
def UnlockPositiveHint (activity : Nat) (p : Preference) (heap : List Activity) :
    List Activity :=
  modifyAt (fun a => { a with positiveHints := addToSet p a.positiveHints }) activity heap

/-- Modelled from the spec: `Activity::UnlockNegativeHint`, called through a shared pointer. -/
def UnlockNegativeHint (activity : Nat) (p : Preference) (heap : List Activity) :
    List Activity :=
  modifyAt (fun a => { a with negativeHints := addToSet p a.negativeHints }) activity heap

/-! ## The reads of the sentinel -/

/-- The test of the loop of `Load` and one run of its body, as `loadBody`, together with the
values `errorMessage` holds at each evaluation of `errorMessage[0]`, in the order of the
evaluations. The test `errorMessage == "EOF"` comes first and does not index the string. -/
def loadBodyTraced (path : Str) (st : LoopState) : Step × List Str :=
  if st.file.eof then (loadEnd path st.w, [])
  else
    let (keyword, file, errorMessage) := ParseKeyword st.file st.errorMessage
    if errorMessage = str "EOF" then (loadEnd path st.w, [])
    else if firstChar errorMessage = 0x7E then
      let first := errorMessage
      let warning := errorMessage.tail
      let (file, errorMessage, w) := HandleKeyword keyword file [] st.w
      if firstChar errorMessage = 0x7E then
        (.next ⟨file, [], w⟩
          [.warning (errorOutput path ++ warning), .warning (errorOutput path ++ errorMessage.tail)],
          [first, errorMessage])
      else if errorMessage ≠ [] then
        (.exit false w
          [.warning (errorOutput path ++ warning), .error (errorOutput path ++ errorMessage)],
          [first, errorMessage])
      else
        (.next ⟨file, errorMessage, w⟩ [.warning (errorOutput path ++ warning)],
          [first, errorMessage])
    else if errorMessage ≠ [] then
      (.exit false st.w [.error (errorOutput path ++ errorMessage)], [errorMessage])
    else
      let first := errorMessage
      let (file, errorMessage, w) := HandleKeyword keyword file errorMessage st.w
      if firstChar errorMessage = 0x7E then
        (.next ⟨file, [], w⟩ [.warning (errorOutput path ++ errorMessage.tail)],
          [first, errorMessage])
      else if errorMessage ≠ [] then
        (.exit false w [.error (errorOutput path ++ errorMessage)], [first, errorMessage])
      else (.next ⟨file, errorMessage, w⟩ [], [first, errorMessage])

/-- The loop of `Load` as `loadLoop`, together with the values `errorMessage` held at every
evaluation of `errorMessage[0]` during the run. -/
def loadLoopTraced (path : Str) :
    Nat → LoopState → Option ((Bool × World × List ConsoleLine) × List Str)
  | 0, _ => none
  | fuel + 1, st =>
    match loadBodyTraced path st with
    | (.exit result w console, reads) => some ((result, w, console), reads)
    | (.next st' console, reads) =>
      (loadLoopTraced path fuel st').map
        (fun r => ((r.1.1, r.1.2.1, console ++ r.1.2.2), reads ++ r.2))

/-- The function `FileInterpreter::Load` as `Load`, together with the values `errorMessage`
held at every evaluation of `errorMessage[0]` during the call. -/
def LoadTraced (path : Str) (contents : Option Str) (w : World) :
    Option ((Bool × World × List ConsoleLine) × List Str) :=
  let w := { w with m_CurrentLocation := none, m_CurrentActivity := none }
  match contents with
  | none => some ((false, w, [.error (str "Could not open file: " ++ path)]), [])
  | some bytes => loadLoopTraced path (bytes.length + 1) ⟨⟨bytes, false⟩, [], w⟩

/-! ## Inserting a byte -/

/-- The input with the byte `b` inserted at position `i`. -/
def insertAt (input : Str) (i : Nat) (b : Nat) : Str := input.take i ++ b :: input.drop i

/-- Whether position `i` of the input lies between an opening and a closing quote: an odd
number of quotes stands before it. -/
def betweenQuotes (input : Str) (i : Nat) : Bool := (input.take i).count 0x22 % 2 == 1

/-! ## A loader with explicit outcomes, written from the specification -/

/-- The tagged outcome of a parse step: success, a warning with its text, or a fatal error with
its text. -/
inductive Outcome where
  | success
  | warning (text : Str)
  | fatal (text : Str)
deriving DecidableEq, Repr

/-- The message by which the string sentinel of `Load` carries an outcome: none, the text after
a `~`, or the text. -/
def Outcome.message : Outcome → Str
  | .success => []
  | .warning text => 0x7E :: text
  | .fatal text => text

/-- Whether an outcome is a fatal error. -/
def Outcome.isFatal : Outcome → Bool
  | .fatal _ => true
  | _ => false

/-- The string scan of a handler: with the argument it finds, the handler goes on to its effect
`effect`; without it the outcome is the fatal error of the scan and nothing changes. -/
def withArgument (input : Str) (w : World) (effect : Str → Outcome × World) :
    Outcome × Str × World :=
  match ParseString_reference input with
  | .token text cursor => ((effect text).1, cursor, (effect text).2)
  | .fatal message => (.fatal message, input, w)
  | .eof => (.fatal (str "EOF"), input, w)

/-- The dispatch on the keyword as the table of the specification gives it, with a tagged
outcome: the outcome, the input left, and the world. -/
def HandleKeyword_explicit (keyword input : Str) (w : World) : Outcome × Str × World :=
  if keyword = str "location" then
    match w.m_CurrentLocation with
    | some _ => (.fatal (str "Only one location should be defined per file"), input, w)
    | none =>
      withArgument input w fun name =>
        (.success, { w with m_CurrentLocation := some ⟨name, []⟩ })
  else if keyword = str "activity" then
    match w.m_CurrentLocation with
    | none => (.fatal (str "Location must be defined before activity"), input, w)
    | some location =>
      withArgument input w fun name =>
        (.success,
          { w with
            heap := w.heap ++ [Activity.new name]
            m_CurrentActivity := some w.heap.length
            m_CurrentLocation := some (location.AddActivity w.heap.length) })
  else if keyword = str "preference+" ∨ keyword = str "preference-" then
    match w.m_CurrentActivity with
    | none => (.fatal (str "Activity must be defined before a preference"), input, w)
    | some activity =>
      withArgument input w fun name =>
        match GetPreferenceByName w.preferences (name.map tolower) with
        | some p =>
          (.success,
            { w with
              heap := modifyAt (fun a =>
                if keyword = str "preference+" then a.AddPositivePreference p
                else a.AddNegativePreference p) activity w.heap })
        | none =>
          (.warning (str "Preference (" ++ name.map tolower ++ str ") is undefined"), w)
  else if keyword = str "add_preference" then
    withArgument input w fun name =>
      if (GetPreferenceByName w.preferences (name.map tolower)).isSome then
        (.fatal (str "Preference (" ++ name.map tolower ++ str ") defined more than once"), w)
      else (.success, { w with preferences := w.preferences ++ [⟨name.map tolower⟩] })
  else if keyword = str "name" then
    withArgument input w fun name => (.success, { w with names := AddName w.names name })
  else
    (.fatal (str "Keyword (" ++ keyword ++ str ") not recognized"), input, w)

/-- The loop of the loader with explicit outcomes, run for at most `fuel` iterations: fatal
aborts the load, a warning is logged and the load goes on, end of input at the keyword scan
registers the location built and ends the load with success. -/
def loadLoop_explicit (path : Str) :
    Nat → Str → World → Option (Bool × World × List ConsoleLine)
  | 0, _, _ => none
  | fuel + 1, input, w =>
    match ParseKeyword_reference input with
    | .eof =>
      some (true,
        (match w.m_CurrentLocation with
          | some l => { w with locations := AddLocation w.locations l }
          | none => w),
        [.message (str "File " ++ path ++ str " loaded successfully")])
    | .fatal message => some (false, w, [.error (errorOutput path ++ message)])
    | .token keyword cursor =>
      match HandleKeyword_explicit keyword cursor w with
      | (.fatal message, _, w') => some (false, w', [.error (errorOutput path ++ message)])
      | (.warning text, rest, w') =>
        (loadLoop_explicit path fuel rest w').map
          (fun r => (r.1, r.2.1, [.warning (errorOutput path ++ text)] ++ r.2.2))
      | (.success, rest, w') =>
        (loadLoop_explicit path fuel rest w').map (fun r => (r.1, r.2.1, [] ++ r.2.2))

/-- The loader with explicit outcomes. -/
def Load_explicit (path : Str) (contents : Option Str) (w : World) :
    Option (Bool × World × List ConsoleLine) :=
  match contents with
  | none =>
    some (false, { w with m_CurrentLocation := none, m_CurrentActivity := none },
      [.error (str "Could not open file: " ++ path)])
  | some bytes =>
    loadLoop_explicit path (bytes.length + 1) bytes
      { w with m_CurrentLocation := none, m_CurrentActivity := none }

/-- The result `r` of `HandleKeyword` agrees with the result `e` of the handler with explicit
outcomes, both called in the world `w`: same message, same world, same input left unless the
outcome is fatal; a fatal text is not empty and does not begin with `~`; a warning is the
undefined preference and leaves the world as it was. -/
def agrees (r : IfStream × Str × World) (e : Outcome × Str × World) (w : World) : Prop :=
  r.2.1 = e.1.message ∧ r.2.2 = e.2.2 ∧
    (e.1.isFatal = false → r.1 = ⟨e.2.1, false⟩) ∧
    (∀ t, e.1 = .fatal t → firstChar t ≠ 0x7E ∧ t ≠ []) ∧
    (∀ t, e.1 = .warning t →
      (∃ p, t = str "Preference (" ++ p ++ str ") is undefined") ∧ e.2.2 = w)

/-! # Theorems -/

/-! ## The stream loops -/

theorem isLetter_eq (b : Nat) : isLetter b = IsAlphanumeric b := by
  unfold isLetter IsAlphanumeric
  by_cases h1 : 0x41 ≤ b <;> by_cases h2 : b ≤ 0x5A <;> by_cases h3 : 0x61 ≤ b <;>
    by_cases h4 : b ≤ 0x7A <;> simp [Nat.lt_iff_add_one_le, h1, h2, h3, h4]

/-- The recursion `skipWhile` is the `while` loop of the source: one test, one read, again. -/
theorem skipWhile_unfold (cont : Nat → Bool) (file : IfStream) (byte : Nat) :
    skipWhile cont file byte =
      if !file.eof && cont byte then skipWhile cont (file.read byte).1 (file.read byte).2
      else (file, byte) := by
  obtain ⟨rest, eof⟩ := file
  cases eof
  · cases rest <;> by_cases h : cont byte = true <;>
      simp [skipWhile, skipLoop, IfStream.read, h]
  · simp [skipWhile]

/-- The recursion `accumWhile` is the `while` loop of the source: one test, one append, one
read, again. -/
theorem accumWhile_unfold (cont : Nat → Bool) (file : IfStream) (byte : Nat) (acc : Str) :
    accumWhile cont file byte acc =
      if !file.eof && cont byte then
        accumWhile cont (file.read byte).1 (file.read byte).2 (acc ++ [byte])
      else (file, byte, acc) := by
  obtain ⟨rest, eof⟩ := file
  cases eof
  · cases rest <;> by_cases h : cont byte = true <;>
      simp [accumWhile, accumLoop, IfStream.read, h]
  · simp [accumWhile]

theorem skipLoop_stop (cont : Nat → Bool) (rest : Str) (byte : Nat) (h : cont byte = false) :
    skipLoop cont rest byte = (⟨rest, false⟩, byte) := by
  cases rest <;> simp [skipLoop, h]

theorem skipLoop_append (cont : Nat → Bool) (pre : Str) (b : Nat) (r : Str) :
    ∀ byte, cont byte = true → (∀ x ∈ pre, cont x = true) → cont b = false →
      skipLoop cont (pre ++ b :: r) byte = (⟨r, false⟩, b) := by
  induction pre with
  | nil =>
    intro byte hb _ hstop
    simp [skipLoop, hb, skipLoop_stop, hstop]
  | cons x xs ih =>
    intro byte hb hpre hstop
    simp only [List.cons_append, skipLoop, hb, if_true]
    exact ih x (hpre x (by simp)) (fun y hy => hpre y (by simp [hy])) hstop

theorem skipLoop_all (cont : Nat → Bool) (rest : Str) :
    ∀ byte, cont byte = true → (∀ x ∈ rest, cont x = true) →
      (skipLoop cont rest byte).1 = ⟨[], true⟩ := by
  induction rest with
  | nil => intro byte hb _; simp [skipLoop, hb]
  | cons x xs ih =>
    intro byte hb hall
    simp only [skipLoop, hb, if_true]
    exact ih x (hall x (by simp)) (fun y hy => hall y (by simp [hy]))

theorem accumLoop_stop (cont : Nat → Bool) (rest : Str) (byte : Nat) (acc : Str)
    (h : cont byte = false) : accumLoop cont rest byte acc = (⟨rest, false⟩, byte, acc) := by
  cases rest <;> simp [accumLoop, h]

theorem accumLoop_append (cont : Nat → Bool) (run : Str) (b : Nat) (r : Str) :
    ∀ byte acc, cont byte = true → (∀ x ∈ run, cont x = true) → cont b = false →
      accumLoop cont (run ++ b :: r) byte acc = (⟨r, false⟩, b, acc ++ byte :: run) := by
  induction run with
  | nil =>
    intro byte acc hb _ hstop
    simp [accumLoop, hb, accumLoop_stop, hstop]
  | cons x xs ih =>
    intro byte acc hb hrun hstop
    have h := ih x (acc ++ [byte]) (hrun x (by simp)) (fun y hy => hrun y (by simp [hy])) hstop
    simpa [accumLoop, hb] using h

theorem accumLoop_all (cont : Nat → Bool) (run : Str) :
    ∀ byte acc, cont byte = true → (∀ x ∈ run, cont x = true) →
      (accumLoop cont run byte acc).1 = ⟨[], true⟩ ∧
        (accumLoop cont run byte acc).2.2 = acc ++ byte :: run := by
  induction run with
  | nil => intro byte acc hb _; simp [accumLoop, hb]
  | cons x xs ih =>
    intro byte acc hb hrun
    simp only [accumLoop, hb, if_true]
    have := ih x (acc ++ [byte]) (hrun x (by simp)) (fun y hy => hrun y (by simp [hy]))
    simpa using this

/-- Every list splits at the first element that fails `p`, if there is one. -/
theorem split_at_first (p : Nat → Bool) (l : Str) :
    ((∀ x ∈ l, p x = true) ∧ l.dropWhile p = [] ∧ l.takeWhile p = l) ∨
      ∃ pre b r, l = pre ++ b :: r ∧ (∀ x ∈ pre, p x = true) ∧ p b = false ∧
        l.dropWhile p = b :: r ∧ l.takeWhile p = pre := by
  induction l with
  | nil => left; simp
  | cons a as ih =>
    by_cases ha : p a = true
    · rcases ih with ⟨h1, h2, h3⟩ | ⟨pre, b, r, h1, h2, h3, h4, h5⟩
      · left
        refine ⟨?_, ?_, ?_⟩
        · intro x hx
          rcases List.mem_cons.1 hx with rfl | hx
          · exact ha
          · exact h1 x hx
        · simp [List.dropWhile_cons, ha, h2]
        · simp [List.takeWhile_cons, ha, h3]
      · right
        refine ⟨a :: pre, b, r, by simp [h1], ?_, h3, ?_, ?_⟩
        · intro x hx
          rcases List.mem_cons.1 hx with rfl | hx
          · exact ha
          · exact h2 x hx
        · simp [List.dropWhile_cons, ha, h4]
        · simp [List.takeWhile_cons, ha, h5]
    · right
      have ha' : p a = false := by simpa using ha
      exact ⟨[], a, as, rfl, by simp, ha', by simp [List.dropWhile_cons, ha'],
        by simp [List.takeWhile_cons, ha']⟩

/-! ## `ParseKeyword` -/

theorem letter_inKeyword (c : Nat) (h : IsAlphanumeric c = true) : inKeyword c = true := by
  unfold IsAlphanumeric at h
  unfold inKeyword
  simp only [Bool.or_eq_true, Bool.and_eq_true, decide_eq_true_eq] at h
  simp only [Bool.and_eq_true, bne_iff_ne, ne_eq]
  omega

/-- No letter left: `ParseKeyword` reads to the end and sets `"EOF"`. -/
theorem ParseKeyword_eof (input errorMessage : Str)
    (h : ∀ x ∈ input, IsAlphanumeric x = false) :
    ParseKeyword ⟨input, false⟩ errorMessage = ([], ⟨[], true⟩, str "EOF") := by
  have h1 := skipLoop_all (fun b => !IsAlphanumeric b) input 0 (by decide)
    (fun x hx => by simp [h x hx])
  unfold ParseKeyword skipWhile
  simp only [Bool.false_eq_true, if_false]
  rcases hs : skipLoop (fun b => !IsAlphanumeric b) input 0 with ⟨file, byte⟩
  rw [hs] at h1
  simp only at h1
  subst h1
  simp

/-- A keyword ended by the byte `t`: `ParseKeyword` returns it when `t` is the space and sets
the "incomplete" message when `t` is CR or LF. -/
theorem ParseKeyword_ended (pre : Str) (c : Nat) (run : Str) (t : Nat) (cursor errorMessage : Str)
    (hpre : ∀ x ∈ pre, IsAlphanumeric x = false) (hc : IsAlphanumeric c = true)
    (hrun : ∀ x ∈ run, inKeyword x = true) (ht : inKeyword t = false) :
    ParseKeyword ⟨pre ++ c :: (run ++ t :: cursor), false⟩ errorMessage =
      if t = 0x20 then (c :: run, ⟨cursor, false⟩, errorMessage)
      else ([], ⟨cursor, false⟩, str "Keyword (" ++ (c :: run) ++ str ") is incomplete") := by
  have h1 := skipLoop_append (fun b => !IsAlphanumeric b) pre c (run ++ t :: cursor) 0 (by decide)
    (fun x hx => by simp [hpre x hx]) (by simp [hc])
  have h2 := accumLoop_append inKeyword run t cursor c [] (letter_inKeyword c hc) hrun ht
  unfold ParseKeyword skipWhile accumWhile
  simp only [Bool.false_eq_true, if_false, h1]
  change (match accumLoop inKeyword (run ++ t :: cursor) c [] with
    | (file, byte, keyword) =>
      if (file.eof || byte == 0x0D || byte == 0x0A) = true then
        (([] : Str), file, str "Keyword (" ++ keyword ++ str ") is incomplete")
      else (keyword, file, errorMessage)) = _
  rw [h2]
  unfold inKeyword at ht
  by_cases h20 : t = 0x20
  · subst h20; simp
  · have : t = 0x0D ∨ t = 0x0A := by
      simp only [Bool.and_eq_false_imp, Bool.and_eq_true, bne_iff_ne, ne_eq, and_imp] at ht
      by_contra hcon
      push_neg at hcon
      have := ht hcon.1 hcon.2
      simp at this
      exact h20 this
    rcases this with rfl | rfl <;> simp

/-- A keyword ended by the end of the input: `ParseKeyword` sets the "incomplete" message. -/
theorem ParseKeyword_unended (pre : Str) (c : Nat) (run errorMessage : Str)
    (hpre : ∀ x ∈ pre, IsAlphanumeric x = false) (hc : IsAlphanumeric c = true)
    (hrun : ∀ x ∈ run, inKeyword x = true) :
    ParseKeyword ⟨pre ++ c :: run, false⟩ errorMessage =
      ([], ⟨[], true⟩, str "Keyword (" ++ (c :: run) ++ str ") is incomplete") := by
  have h1 := skipLoop_append (fun b => !IsAlphanumeric b) pre c run 0 (by decide)
    (fun x hx => by simp [hpre x hx]) (by simp [hc])
  have h2 := accumLoop_all inKeyword run c [] (letter_inKeyword c hc) hrun
  unfold ParseKeyword skipWhile accumWhile
  simp only [Bool.false_eq_true, if_false, h1]
  change (match accumLoop inKeyword run c [] with
    | (file, byte, keyword) =>
      if (file.eof || byte == 0x0D || byte == 0x0A) = true then
        (([] : Str), file, str "Keyword (" ++ keyword ++ str ") is incomplete")
      else (keyword, file, errorMessage)) = _
  rcases ha : accumLoop inKeyword run c [] with ⟨file, byte, keyword⟩
  rw [ha] at h2
  simp only [List.nil_append] at h2
  obtain ⟨rfl, rfl⟩ := h2
  simp

/-! ## `ParseString` -/

theorem inString_false (t : Nat) (h : inString t = false) : t = 0x22 ∨ t = 0x0D ∨ t = 0x0A := by
  unfold inString at h
  simp only [Bool.and_eq_false_imp, Bool.and_eq_true, bne_iff_ne, ne_eq, and_imp] at h
  by_contra hcon
  push_neg at hcon
  have := h hcon.2.1 hcon.2.2
  simp at this
  exact hcon.1 this

/-- Neither a letter nor a quote left: `ParseString` reads to the end and sets `"EOF"`. -/
theorem ParseString_eof (input errorMessage : Str)
    (h : ∀ x ∈ input, (!IsAlphanumeric x && x != 0x22) = true) :
    ParseString ⟨input, false⟩ errorMessage = ([], ⟨[], true⟩, str "EOF") := by
  have h1 := skipLoop_all (fun b => !IsAlphanumeric b && b != 0x22) input 0 (by decide) h
  unfold ParseString skipWhile
  simp only [Bool.false_eq_true, if_false]
  rcases hs : skipLoop (fun b => !IsAlphanumeric b && b != 0x22) input 0 with ⟨file, byte⟩
  rw [hs] at h1
  simp only at h1
  subst h1
  simp

/-- A letter before any quote: `ParseString` sets the "expected quotation mark" message. -/
theorem ParseString_letter (pre : Str) (c : Nat) (r errorMessage : Str)
    (hpre : ∀ x ∈ pre, (!IsAlphanumeric x && x != 0x22) = true) (hc : IsAlphanumeric c = true) :
    ParseString ⟨pre ++ c :: r, false⟩ errorMessage =
      ([], ⟨r, false⟩, str "Expected quotation mark at beginning of string") := by
  have h1 := skipLoop_append (fun b => !IsAlphanumeric b && b != 0x22) pre c r 0 (by decide)
    hpre (by simp [hc])
  unfold ParseString skipWhile
  simp [h1, hc]

/-- A string ended by the byte `t`: `ParseString` returns it when `t` is the quote and sets the
"incomplete" message when `t` is CR or LF. -/
theorem ParseString_ended (pre run : Str) (t : Nat) (cursor errorMessage : Str)
    (hpre : ∀ x ∈ pre, (!IsAlphanumeric x && x != 0x22) = true)
    (hrun : ∀ x ∈ run, inString x = true) (ht : inString t = false) :
    ParseString ⟨pre ++ 0x22 :: (run ++ t :: cursor), false⟩ errorMessage =
      if t = 0x22 then (run, ⟨cursor, false⟩, errorMessage)
      else ([], ⟨cursor, false⟩, str "Incomplete string") := by
  have h1 := skipLoop_append (fun b => !IsAlphanumeric b && b != 0x22) pre 0x22
    (run ++ t :: cursor) 0 (by decide) hpre (by decide)
  have h2 : accumWhile inString (IfStream.read ⟨run ++ t :: cursor, false⟩ 0x22).1
      (IfStream.read ⟨run ++ t :: cursor, false⟩ 0x22).2 [] = (⟨cursor, false⟩, t, run) := by
    cases run with
    | nil => simp [IfStream.read, accumWhile, accumLoop_stop, ht]
    | cons x xs =>
      have := accumLoop_append inString xs t cursor x [] (hrun x (by simp))
        (fun y hy => hrun y (by simp [hy])) ht
      simpa [IfStream.read, accumWhile] using this
  unfold ParseString skipWhile
  simp only [Bool.false_eq_true, if_false, h1]
  have hq : IsAlphanumeric 0x22 = false := by decide
  simp only [hq, Bool.false_eq_true, if_false]
  change (match accumWhile inString (IfStream.read ⟨run ++ t :: cursor, false⟩ 0x22).1
      (IfStream.read ⟨run ++ t :: cursor, false⟩ 0x22).2 [] with
    | (file, byte, string) =>
      if (file.eof || byte == 0x0D || byte == 0x0A) = true then
        (([] : Str), file, str "Incomplete string")
      else (string, file, errorMessage)) = _
  rw [h2]
  rcases inString_false t ht with rfl | rfl | rfl <;> simp

/-- A string ended by the end of the input: `ParseString` sets the "incomplete" message. -/
theorem ParseString_unended (pre run errorMessage : Str)
    (hpre : ∀ x ∈ pre, (!IsAlphanumeric x && x != 0x22) = true)
    (hrun : ∀ x ∈ run, inString x = true) :
    ParseString ⟨pre ++ 0x22 :: run, false⟩ errorMessage =
      ([], ⟨[], true⟩, str "Incomplete string") := by
  have h1 := skipLoop_append (fun b => !IsAlphanumeric b && b != 0x22) pre 0x22 run 0
    (by decide) hpre (by decide)
  have h2 : (accumWhile inString (IfStream.read ⟨run, false⟩ 0x22).1
      (IfStream.read ⟨run, false⟩ 0x22).2 []).1 = ⟨[], true⟩ := by
    cases run with
    | nil => simp [IfStream.read, accumWhile]
    | cons x xs =>
      have := (accumLoop_all inString xs x [] (hrun x (by simp))
        (fun y hy => hrun y (by simp [hy]))).1
      simpa [IfStream.read, accumWhile] using this
  unfold ParseString skipWhile
  simp only [Bool.false_eq_true, if_false, h1]
  have hq : IsAlphanumeric 0x22 = false := by decide
  simp only [hq, Bool.false_eq_true, if_false]
  change (match accumWhile inString (IfStream.read ⟨run, false⟩ 0x22).1
      (IfStream.read ⟨run, false⟩ 0x22).2 [] with
    | (file, byte, string) =>
      if (file.eof || byte == 0x0D || byte == 0x0A) = true then
        (([] : Str), file, str "Incomplete string")
      else (string, file, errorMessage)) = _
  rcases ha : accumWhile inString (IfStream.read ⟨run, false⟩ 0x22).1
      (IfStream.read ⟨run, false⟩ 0x22).2 [] with ⟨file, byte, string⟩
  rw [ha] at h2
  simp only at h2
  subst h2
  simp

/-! ## The scanners against their references -/

theorem inKeyword_fun : (fun b : Nat => b != 0x0D && b != 0x0A && b != 0x20) = inKeyword := rfl

theorem inString_fun :
    (fun b : Nat => b != 0x22 && b != 0x0D && b != 0x0A) = inString := by
  funext b
  unfold inString
  cases (b != 0x22) <;> cases (b != 0x0D) <;> cases (b != 0x0A) <;> rfl

/-- Claim C9: on every input (the bytes from the cursor of a stream whose eof flag is clear)
and whatever `errorMessage` holds, `ParseKeyword` does what the reference scanner says: when the
reference finds no letter, `ParseKeyword` returns the empty string and sets `"EOF"`; when the
reference finds a run ended by CR, LF or the end of the input, `ParseKeyword` returns the empty
string and sets "Keyword (run) is incomplete"; when the run is ended by a space, `ParseKeyword`
returns exactly the run, leaves `errorMessage` as it was and leaves the cursor just after the
space. -/
theorem ParseKeyword_equals_reference (input errorMessage : Str) :
    match ParseKeyword_reference input with
    | .eof => ParseKeyword ⟨input, false⟩ errorMessage = ([], ⟨[], true⟩, str "EOF")
    | .fatal message =>
      (ParseKeyword ⟨input, false⟩ errorMessage).1 = [] ∧
        (ParseKeyword ⟨input, false⟩ errorMessage).2.2 = message
    | .token text cursor =>
      ParseKeyword ⟨input, false⟩ errorMessage = (text, ⟨cursor, false⟩, errorMessage) := by
  unfold ParseKeyword_reference
  rw [inKeyword_fun]
  rcases split_at_first (fun b => !isLetter b) input with
    ⟨h1, h2, -⟩ | ⟨pre, c, r, h1, h2, h3, h4, -⟩
  · simp only [h2, if_true]
    exact ParseKeyword_eof input errorMessage (fun x hx => by simpa [isLetter_eq] using h1 x hx)
  · have hpre : ∀ x ∈ pre, IsAlphanumeric x = false := fun x hx => by
      simpa [isLetter_eq] using h2 x hx
    have hc : IsAlphanumeric c = true := by simpa [isLetter_eq] using h3
    have hck := letter_inKeyword c hc
    simp only [h4, List.dropWhile_cons_of_pos hck, List.takeWhile_cons_of_pos hck,
      if_false, reduceCtorEq]
    rcases split_at_first inKeyword r with ⟨g1, g2, g3⟩ | ⟨run, t, cursor, g1, g2, g3, g4, g5⟩
    · rw [g2, g3, h1, ParseKeyword_unended pre c r errorMessage hpre hc g1]
      simp
    · rw [g4, g5, h1, g1, ParseKeyword_ended pre c run t cursor errorMessage hpre hc g2 g3]
      by_cases h20 : t = 0x20
      · subst h20; simp
      · simp [h20]

/-- Claim C10: on every input (the bytes from the cursor of a stream whose eof flag is clear)
and whatever `errorMessage` holds, `ParseString` does what the reference scanner says: it
returns the empty string and sets `"EOF"`, "Expected quotation mark at beginning of string" or
"Incomplete string" exactly when the reference yields that fatal error; otherwise it returns
exactly the run between the quotes, byte for byte, leaves `errorMessage` as it was and leaves
the cursor just after the closing quote, and the string returned holds no quote, CR or LF. -/
theorem ParseString_equals_reference (input errorMessage : Str) :
    match ParseString_reference input with
    | .eof => False
    | .fatal message =>
      (ParseString ⟨input, false⟩ errorMessage).1 = [] ∧
        (ParseString ⟨input, false⟩ errorMessage).2.2 = message
    | .token text cursor =>
      ParseString ⟨input, false⟩ errorMessage = (text, ⟨cursor, false⟩, errorMessage) ∧
        ∀ x ∈ text, x ≠ 0x22 ∧ x ≠ 0x0D ∧ x ≠ 0x0A := by
  unfold ParseString_reference
  rw [inString_fun]
  rcases split_at_first (fun b => !isLetter b && b != 0x22) input with
    ⟨h1, h2, -⟩ | ⟨pre, c, r, h1, h2, h3, h4, -⟩
  · simp only [h2]
    rw [ParseString_eof input errorMessage (fun x hx => by simpa [isLetter_eq] using h1 x hx)]
    simp
  · have hpre : ∀ x ∈ pre, (!IsAlphanumeric x && x != 0x22) = true := fun x hx => by
      simpa [isLetter_eq] using h2 x hx
    simp only [h4]
    by_cases hc : isLetter c = true
    · simp only [hc, if_true]
      rw [h1, ParseString_letter pre c r errorMessage hpre (by simpa [isLetter_eq] using hc)]
      simp
    · have hq : c = 0x22 := by
        simp only [Bool.not_eq_true] at hc
        simpa [hc] using h3
      subst hq
      simp only [hc, if_false]
      rcases split_at_first inString r with ⟨g1, g2, g3⟩ | ⟨run, t, cursor, g1, g2, g3, g4, g5⟩
      · rw [g2, g3, h1, ParseString_unended pre r errorMessage hpre g1]
        simp
      · rw [g4, g5, h1, g1, ParseString_ended pre run t cursor errorMessage hpre g2 g3]
        by_cases h22 : t = 0x22
        · subst h22
          simp only [List.head?_cons, if_true, List.tail_cons, true_and, Bool.false_eq_true,
            if_false]
          intro x hx
          have := g2 x hx
          unfold inString at this
          simp only [Bool.and_eq_true, bne_iff_ne, ne_eq] at this
          omega
        · simp [h22]

/-! ## The messages -/

/-- What `Load` treats as an error after a handler call: a message that is not empty and does
not begin with `~`. -/
theorem fatal_of_head (m : Str) (c : Nat) (hc : c ≠ 0x7E) (r : Str) (h : m = c :: r) :
    firstChar m ≠ 0x7E ∧ m ≠ [] := by
  subst h
  exact ⟨by simpa [firstChar] using hc, by simp⟩

theorem str_EOF : str "EOF" = [0x45, 0x4F, 0x46] := by decide

theorem keyword_incomplete_head (kw : Str) :
    str "Keyword (" ++ kw ++ str ") is incomplete" =
      0x4B :: (str "eyword (" ++ kw ++ str ") is incomplete") := rfl

theorem keyword_incomplete_ne_EOF (kw : Str) :
    str "Keyword (" ++ kw ++ str ") is incomplete" ≠ str "EOF" := by
  rw [keyword_incomplete_head, str_EOF]
  simp

/-! ## What the scanners read and what they leave -/

/-- The call of `ParseKeyword` on a stream that already met its end. -/
theorem ParseKeyword_at_eof (rest errorMessage : Str) :
    ParseKeyword ⟨rest, true⟩ errorMessage = ([], ⟨rest, true⟩, str "EOF") := by
  simp [ParseKeyword, skipWhile]

/-- The three ways `ParseKeyword` ends: `"EOF"`, an incomplete keyword, or a keyword, in which
case it has extracted a non-empty prefix `consumed` of the input and nothing it did depends on
what follows that prefix. -/
theorem ParseKeyword_cases (input errorMessage : Str) :
    ParseKeyword ⟨input, false⟩ errorMessage = ([], ⟨[], true⟩, str "EOF") ∨
    (∃ file kw, ParseKeyword ⟨input, false⟩ errorMessage =
        ([], file, str "Keyword (" ++ kw ++ str ") is incomplete")) ∨
    (∃ consumed kw cursor, input = consumed ++ cursor ∧ consumed ≠ [] ∧ kw ≠ [] ∧
        ∀ other message, ParseKeyword ⟨consumed ++ other, false⟩ message =
          (kw, ⟨other, false⟩, message)) := by
  rcases split_at_first (fun b => !IsAlphanumeric b) input with
    ⟨h1, -, -⟩ | ⟨pre, c, r, h1, h2, h3, -, -⟩
  · left
    exact ParseKeyword_eof input errorMessage (fun x hx => by simpa using h1 x hx)
  · have hpre : ∀ x ∈ pre, IsAlphanumeric x = false := fun x hx => by simpa using h2 x hx
    have hc : IsAlphanumeric c = true := by simpa using h3
    rcases split_at_first inKeyword r with ⟨g1, -, -⟩ | ⟨run, t, cursor, g1, g2, g3, -, -⟩
    · right; left
      exact ⟨_, _, by rw [h1]; exact ParseKeyword_unended pre c r errorMessage hpre hc g1⟩
    · by_cases h20 : t = 0x20
      · right; right
        refine ⟨pre ++ c :: (run ++ [t]), c :: run, cursor, by simp [h1, g1], by simp, by simp, ?_⟩
        intro other message
        have := ParseKeyword_ended pre c run t other message hpre hc g2 g3
        simpa [h20] using this
      · right; left
        refine ⟨⟨cursor, false⟩, c :: run, ?_⟩
        rw [h1, g1, ParseKeyword_ended pre c run t cursor errorMessage hpre hc g2 g3]
        simp only [h20, if_false]

/-- The call of `ParseString` on a stream that already met its end. -/
theorem ParseString_at_eof (rest errorMessage : Str) :
    ParseString ⟨rest, true⟩ errorMessage = ([], ⟨rest, true⟩, str "EOF") := by
  simp [ParseString, skipWhile]

/-- The two ways `ParseString` ends: one of its three messages, or a string free of quote, CR
and LF, in which case it has extracted a non-empty prefix `consumed` of the input and nothing it
did depends on what follows that prefix. -/
theorem ParseString_cases (input errorMessage : Str) :
    (∃ file m, ParseString ⟨input, false⟩ errorMessage = ([], file, m) ∧ isStringError m ∧
        file.rest.length ≤ input.length) ∨
    (∃ consumed text cursor, input = consumed ++ cursor ∧ consumed ≠ [] ∧
        (∀ x ∈ text, inString x = true) ∧
        ∀ other message, ParseString ⟨consumed ++ other, false⟩ message =
          (text, ⟨other, false⟩, message)) := by
  rcases split_at_first (fun b => !IsAlphanumeric b && b != 0x22) input with
    ⟨h1, -, -⟩ | ⟨pre, c, r, h1, h2, h3, -, -⟩
  · left
    exact ⟨_, _, ParseString_eof input errorMessage h1, Or.inl rfl, by simp⟩
  · by_cases hc : IsAlphanumeric c = true
    · left
      refine ⟨_, _, by rw [h1]; exact ParseString_letter pre c r errorMessage h2 hc,
        Or.inr (Or.inl rfl), by simp [h1]; omega⟩
    · have hq : c = 0x22 := by
        simp only [Bool.not_eq_true] at hc
        simpa [hc] using h3
      subst hq
      rcases split_at_first inString r with ⟨g1, -, -⟩ | ⟨run, t, cursor, g1, g2, g3, -, -⟩
      · left
        exact ⟨_, _, by rw [h1]; exact ParseString_unended pre r errorMessage h2 g1,
          Or.inr (Or.inr rfl), by simp⟩
      · by_cases h22 : t = 0x22
        · right
          refine ⟨pre ++ 0x22 :: (run ++ [t]), run, cursor, by simp [h1, g1], by simp, g2, ?_⟩
          intro other message
          have := ParseString_ended pre run t other message h2 g2 g3
          simpa [h22] using this
        · left
          refine ⟨⟨cursor, false⟩, _, ?_, Or.inr (Or.inr rfl), ?_⟩
          · rw [h1, g1, ParseString_ended pre run t cursor errorMessage h2 g2 g3]
            simp only [h22, if_false]
          · simp [h1, g1]; omega

theorem isStringError_fatal (m : Str) (h : isStringError m) : firstChar m ≠ 0x7E ∧ m ≠ [] := by
  rcases h with rfl | rfl | rfl <;> exact ⟨by decide, by decide⟩

/-! ## `HandleKeyword`, one keyword at a time -/

theorem HandleKeyword_location (file : IfStream) (em : Str) (w : World) (text : Str)
    (file' : IfStream) (em' : Str) (h : ParseString file em = (text, file', em')) :
    HandleKeyword (str "location") file em w =
      if w.m_CurrentLocation ≠ none then
        (file, str "Only one location should be defined per file", w)
      else if em' = [] then (file', em', { w with m_CurrentLocation := some ⟨text, []⟩ })
      else (file', em', w) := by
  rw [HandleKeyword, if_pos rfl, h]

theorem HandleKeyword_activity (file : IfStream) (em : Str) (w : World) (text : Str)
    (file' : IfStream) (em' : Str) (h : ParseString file em = (text, file', em')) :
    HandleKeyword (str "activity") file em w =
      match w.m_CurrentLocation with
      | none => (file, str "Location must be defined before activity", w)
      | some location =>
        if em' = [] then
          (file', em',
            { w with
              heap := w.heap ++ [Activity.new text]
              m_CurrentActivity := some w.heap.length
              m_CurrentLocation := some (location.AddActivity w.heap.length) })
        else (file', em', w) := by
  rw [HandleKeyword, if_neg (by decide), if_pos rfl, h]

theorem HandleKeyword_positive (file : IfStream) (em : Str) (w : World) (text : Str)
    (file' : IfStream) (em' : Str) (h : ParseString file em = (text, file', em')) :
    HandleKeyword (str "preference+") file em w =
      match w.m_CurrentActivity with
      | none => (file, str "Activity must be defined before a preference", w)
      | some activity =>
        if em' = [] then
          match GetPreferenceByName w.preferences (text.map tolower) with
          | some p =>
            (file', em',
              { w with heap := modifyAt (fun a => a.AddPositivePreference p) activity w.heap })
          | none => (file', str "~Preference (" ++ text.map tolower ++ str ") is undefined", w)
        else (file', em', w) := by
  rw [HandleKeyword, if_neg (by decide), if_neg (by decide), if_pos rfl, h]

theorem HandleKeyword_add (file : IfStream) (em : Str) (w : World) (text : Str)
    (file' : IfStream) (em' : Str) (h : ParseString file em = (text, file', em')) :
    HandleKeyword (str "add_preference") file em w =
      if em' = [] then
        if (GetPreferenceByName w.preferences (text.map tolower)).isSome then
          (file', str "Preference (" ++ text.map tolower ++ str ") defined more than once", w)
        else (file', em', { w with preferences := w.preferences ++ [⟨text.map tolower⟩] })
      else (file', em', w) := by
  rw [HandleKeyword, if_neg (by decide), if_neg (by decide), if_neg (by decide),
    if_neg (by decide), if_pos rfl, h]
  simp only [AddPreference]
  split_ifs <;> simp_all

theorem HandleKeyword_negative (file : IfStream) (em : Str) (w : World) (text : Str)
    (file' : IfStream) (em' : Str) (h : ParseString file em = (text, file', em')) :
    HandleKeyword (str "preference-") file em w =
      match w.m_CurrentActivity with
      | none => (file, str "Activity must be defined before a preference", w)
      | some activity =>
        if em' = [] then
          match GetPreferenceByName w.preferences (text.map tolower) with
          | some p =>
            (file', em',
              { w with heap := modifyAt (fun a => a.AddNegativePreference p) activity w.heap })
          | none => (file', str "~Preference (" ++ text.map tolower ++ str ") is undefined", w)
        else (file', em', w) := by
  rw [HandleKeyword, if_neg (by decide), if_neg (by decide), if_neg (by decide), if_pos rfl, h]

theorem HandleKeyword_name (file : IfStream) (em : Str) (w : World) (text : Str)
    (file' : IfStream) (em' : Str) (h : ParseString file em = (text, file', em')) :
    HandleKeyword (str "name") file em w =
      if em' = [] then (file', em', { w with names := AddName w.names text })
      else (file', em', w) := by
  rw [HandleKeyword, if_neg (by decide), if_neg (by decide), if_neg (by decide),
    if_neg (by decide), if_neg (by decide), if_pos rfl, h]

theorem HandleKeyword_other (kw : Str) (file : IfStream) (em : Str) (w : World)
    (h1 : kw ≠ str "location") (h2 : kw ≠ str "activity") (h3 : kw ≠ str "preference+")
    (h4 : kw ≠ str "preference-") (h5 : kw ≠ str "add_preference") (h6 : kw ≠ str "name") :
    HandleKeyword kw file em w = (file, str "Keyword (" ++ kw ++ str ") not recognized", w) := by
  rw [HandleKeyword, if_neg h1, if_neg h2, if_neg h3, if_neg h4, if_neg h5, if_neg h6]

/-- The six keywords, or none of them. -/
theorem keyword_cases (kw : Str) :
    kw = str "location" ∨ kw = str "activity" ∨ kw = str "preference+" ∨
      kw = str "preference-" ∨ kw = str "add_preference" ∨ kw = str "name" ∨
      (kw ≠ str "location" ∧ kw ≠ str "activity" ∧ kw ≠ str "preference+" ∧
        kw ≠ str "preference-" ∧ kw ≠ str "add_preference" ∧ kw ≠ str "name") := by
  by_cases h1 : kw = str "location"
  · exact Or.inl h1
  by_cases h2 : kw = str "activity"
  · exact Or.inr (Or.inl h2)
  by_cases h3 : kw = str "preference+"
  · exact Or.inr (Or.inr (Or.inl h3))
  by_cases h4 : kw = str "preference-"
  · exact Or.inr (Or.inr (Or.inr (Or.inl h4)))
  by_cases h5 : kw = str "add_preference"
  · exact Or.inr (Or.inr (Or.inr (Or.inr (Or.inl h5))))
  by_cases h6 : kw = str "name"
  · exact Or.inr (Or.inr (Or.inr (Or.inr (Or.inr (Or.inl h6)))))
  exact Or.inr (Or.inr (Or.inr (Or.inr (Or.inr (Or.inr ⟨h1, h2, h3, h4, h5, h6⟩)))))

theorem undefined_head (p : Str) :
    str "~Preference (" ++ p ++ str ") is undefined" =
      0x7E :: (str "Preference (" ++ p ++ str ") is undefined") := rfl

theorem duplicate_head (p : Str) :
    str "Preference (" ++ p ++ str ") defined more than once" =
      0x50 :: (str "reference (" ++ p ++ str ") defined more than once") := rfl

theorem unrecognized_head (kw : Str) :
    str "Keyword (" ++ kw ++ str ") not recognized" =
      0x4B :: (str "eyword (" ++ kw ++ str ") not recognized") := rfl

/-- A handler call never touches the location manager. -/
theorem HandleKeyword_locations (kw : Str) (file : IfStream) (em : Str) (w : World) :
    (HandleKeyword kw file em w).2.2.locations = w.locations := by
  rcases hps : ParseString file em with ⟨text, file', em'⟩
  rcases keyword_cases kw with rfl | rfl | rfl | rfl | rfl | rfl | ⟨h1, h2, h3, h4, h5, h6⟩
  · rw [HandleKeyword_location _ _ _ _ _ _ hps]; split_ifs <;> rfl
  · rw [HandleKeyword_activity _ _ _ _ _ _ hps]; split <;> [rfl; (split_ifs <;> rfl)]
  · rw [HandleKeyword_positive _ _ _ _ _ _ hps]
    split <;> [rfl; (split_ifs <;> [(split <;> rfl); rfl])]
  · rw [HandleKeyword_negative _ _ _ _ _ _ hps]
    split <;> [rfl; (split_ifs <;> [(split <;> rfl); rfl])]
  · rw [HandleKeyword_add _ _ _ _ _ _ hps]; split_ifs <;> rfl
  · rw [HandleKeyword_name _ _ _ _ _ _ hps]; split_ifs <;> rfl
  · rw [HandleKeyword_other _ _ _ _ h1 h2 h3 h4 h5 h6]

/-- A handler call that does not end in a fatal error has called `ParseString` with success:
it has extracted a non-empty prefix `consumed` of the input, and nothing it did depends on what
follows that prefix. -/
theorem HandleKeyword_local (kw input : Str) (w : World)
    (h : (HandleKeyword kw ⟨input, false⟩ [] w).2.1 = [] ∨
      firstChar (HandleKeyword kw ⟨input, false⟩ [] w).2.1 = 0x7E) :
    ∃ consumed cursor, input = consumed ++ cursor ∧ consumed ≠ [] ∧
      ∀ other, HandleKeyword kw ⟨consumed ++ other, false⟩ [] w =
        (⟨other, false⟩, (HandleKeyword kw ⟨input, false⟩ [] w).2.1,
          (HandleKeyword kw ⟨input, false⟩ [] w).2.2) := by
  rcases ParseString_cases input [] with
    ⟨file, m, hps, herr, -⟩ | ⟨consumed, text, cursor, hin, hne, -, hps⟩
  · exfalso
    have ⟨hm1, hm2⟩ := isStringError_fatal m herr
    revert h
    rcases keyword_cases kw with rfl | rfl | rfl | rfl | rfl | rfl | ⟨h1, h2, h3, h4, h5, h6⟩
    · rw [HandleKeyword_location _ _ _ _ _ _ hps]
      simp only [if_neg hm2]
      split_ifs <;> simp [hm1, hm2] <;> decide
    · rw [HandleKeyword_activity _ _ _ _ _ _ hps]
      simp only [if_neg hm2]
      split <;> simp [hm1, hm2] <;> decide
    · rw [HandleKeyword_positive _ _ _ _ _ _ hps]
      simp only [if_neg hm2]
      split <;> simp [hm1, hm2] <;> decide
    · rw [HandleKeyword_negative _ _ _ _ _ _ hps]
      simp only [if_neg hm2]
      split <;> simp [hm1, hm2] <;> decide
    · rw [HandleKeyword_add _ _ _ _ _ _ hps]
      simp [hm1, hm2]
    · rw [HandleKeyword_name _ _ _ _ _ _ hps]
      simp [hm1, hm2]
    · rw [HandleKeyword_other _ _ _ _ h1 h2 h3 h4 h5 h6, unrecognized_head]
      simp [firstChar]
  · refine ⟨consumed, cursor, hin, hne, ?_⟩
    intro other
    subst hin
    rcases keyword_cases kw with rfl | rfl | rfl | rfl | rfl | rfl | ⟨h1, h2, h3, h4, h5, h6⟩
    · rw [HandleKeyword_location _ _ _ _ _ _ (hps cursor [])] at h ⊢
      rw [HandleKeyword_location _ _ _ _ _ _ (hps other [])]
      split_ifs at h ⊢
      · dsimp only at h
        exact absurd h (by decide)
      · rfl
      · rename_i hx; exact absurd rfl hx
    · rw [HandleKeyword_activity _ _ _ _ _ _ (hps cursor [])] at h ⊢
      rw [HandleKeyword_activity _ _ _ _ _ _ (hps other [])]
      split at h
      · dsimp only at h
        exact absurd h (by decide)
      · rename_i heq
        simp only [heq, if_true]
    · rw [HandleKeyword_positive _ _ _ _ _ _ (hps cursor [])] at h ⊢
      rw [HandleKeyword_positive _ _ _ _ _ _ (hps other [])]
      split at h
      · dsimp only at h
        exact absurd h (by decide)
      · rename_i heq
        simp only [heq, if_true]
        split <;> rfl
    · rw [HandleKeyword_negative _ _ _ _ _ _ (hps cursor [])] at h ⊢
      rw [HandleKeyword_negative _ _ _ _ _ _ (hps other [])]
      split at h
      · dsimp only at h
        exact absurd h (by decide)
      · rename_i heq
        simp only [heq, if_true]
        split <;> rfl
    · rw [HandleKeyword_add _ _ _ _ _ _ (hps cursor []),
        HandleKeyword_add _ _ _ _ _ _ (hps other [])]
      simp only [if_true]
      split_ifs <;> rfl
    · rw [HandleKeyword_name _ _ _ _ _ _ (hps cursor []),
        HandleKeyword_name _ _ _ _ _ _ (hps other [])]
      rfl
    · rw [HandleKeyword_other _ _ _ _ h1 h2 h3 h4 h5 h6, unrecognized_head] at h
      simp [firstChar] at h

/-! ## One iteration of the loop -/

/-- The iteration after a keyword scan that returned `kw`: only the handler call and the two
tests on its message are left. -/
theorem loadBody_keyword (path input : Str) (w : World) (kw : Str) (file : IfStream)
    (h : ParseKeyword ⟨input, false⟩ [] = (kw, file, [])) :
    loadBody path ⟨⟨input, false⟩, [], w⟩ =
      if firstChar (HandleKeyword kw file [] w).2.1 = 0x7E then
        .next ⟨(HandleKeyword kw file [] w).1, [], (HandleKeyword kw file [] w).2.2⟩
          [.warning (errorOutput path ++ (HandleKeyword kw file [] w).2.1.tail)]
      else if (HandleKeyword kw file [] w).2.1 ≠ [] then
        .exit false (HandleKeyword kw file [] w).2.2
          [.error (errorOutput path ++ (HandleKeyword kw file [] w).2.1)]
      else
        .next ⟨(HandleKeyword kw file [] w).1, (HandleKeyword kw file [] w).2.1,
          (HandleKeyword kw file [] w).2.2⟩ [] := by
  unfold loadBody
  simp only [Bool.false_eq_true, if_false, h]
  rw [if_neg (by decide), if_neg (by decide), if_neg (by simp)]

/-- The iteration in which the keyword scan meets the end of the input. -/
theorem loadBody_eof (path input : Str) (w : World)
    (h : ∀ x ∈ input, IsAlphanumeric x = false) :
    loadBody path ⟨⟨input, false⟩, [], w⟩ = loadEnd path w := by
  unfold loadBody
  simp only [Bool.false_eq_true, if_false, ParseKeyword_eof input [] h, if_true]

/-- An iteration after which the loop goes on has extracted a non-empty prefix `consumed` of
the input, comes back to the head with no message, and nothing it did depends on what follows
that prefix. -/
theorem loadBody_local (path input : Str) (w : World) (st' : LoopState)
    (console : List ConsoleLine)
    (h : loadBody path ⟨⟨input, false⟩, [], w⟩ = .next st' console) :
    ∃ consumed cursor, input = consumed ++ cursor ∧ consumed ≠ [] ∧
      st' = ⟨⟨cursor, false⟩, [], st'.w⟩ ∧
      ∀ other, loadBody path ⟨⟨consumed ++ other, false⟩, [], w⟩ =
        .next ⟨⟨other, false⟩, [], st'.w⟩ console := by
  rcases ParseKeyword_cases input [] with
    hk | ⟨file, kw, hk⟩ | ⟨consumed1, kw, cursor1, hin1, hne1, -, hk⟩
  · exfalso
    unfold loadBody at h
    simp only [Bool.false_eq_true, if_false, hk, if_true] at h
    simp [loadEnd] at h
  · exfalso
    unfold loadBody at h
    simp only [Bool.false_eq_true, if_false, hk] at h
    rw [if_neg (keyword_incomplete_ne_EOF kw), keyword_incomplete_head,
      if_neg (by simp [firstChar]), if_pos (by simp)] at h
    simp at h
  · subst hin1
    rw [loadBody_keyword path _ w kw _ (hk cursor1 [])] at h
    have hloc : (HandleKeyword kw ⟨cursor1, false⟩ [] w).2.1 = [] ∨
        firstChar (HandleKeyword kw ⟨cursor1, false⟩ [] w).2.1 = 0x7E := by
      by_cases h1 : firstChar (HandleKeyword kw ⟨cursor1, false⟩ [] w).2.1 = 0x7E
      · exact Or.inr h1
      · by_cases h2 : (HandleKeyword kw ⟨cursor1, false⟩ [] w).2.1 = []
        · exact Or.inl h2
        · rw [if_neg h1, if_pos h2] at h
          simp at h
    obtain ⟨consumed2, cursor2, hin2, hne2, hh⟩ := HandleKeyword_local kw cursor1 w hloc
    subst hin2
    have hcur := hh cursor2
    refine ⟨consumed1 ++ consumed2, cursor2, by simp, by simp [hne1], ?_, ?_⟩
    · by_cases h1 : firstChar (HandleKeyword kw ⟨consumed2 ++ cursor2, false⟩ [] w).2.1 = 0x7E
      · rw [if_pos h1] at h
        injection h with h _
        rw [← h, hcur]
      · rw [if_neg h1] at h
        by_cases h2 : (HandleKeyword kw ⟨consumed2 ++ cursor2, false⟩ [] w).2.1 = []
        · rw [if_neg (not_not.2 h2)] at h
          injection h with h _
          rw [← h, hcur, h2]
        · rw [if_pos h2] at h
          simp at h
    · intro other
      have hk' := hk (consumed2 ++ other) []
      rw [← List.append_assoc] at hk'
      rw [loadBody_keyword path _ w kw _ hk', hh other]
      dsimp only
      by_cases h1 : firstChar (HandleKeyword kw ⟨consumed2 ++ cursor2, false⟩ [] w).2.1 = 0x7E
      · rw [if_pos h1] at h ⊢
        injection h with h hc
        rw [← h, ← hc]
      · rw [if_neg h1] at h ⊢
        by_cases h2 : (HandleKeyword kw ⟨consumed2 ++ cursor2, false⟩ [] w).2.1 = []
        · rw [if_neg (not_not.2 h2)] at h ⊢
          injection h with h hc
          rw [← h, ← hc, h2]
        · rw [if_pos h2] at h
          simp at h

/-- An iteration after which the loop goes on started before the end of the input and leaves
the world its handler call made. -/
theorem loadBody_next (path : Str) (st st' : LoopState) (console : List ConsoleLine)
    (hem : st.errorMessage = []) (h : loadBody path st = .next st' console) :
    st.file.eof = false ∧ st'.errorMessage = [] ∧ st'.file.eof = false ∧
      st'.file.rest.length < st.file.rest.length ∧
      ∃ kw file, st'.w = (HandleKeyword kw file [] st.w).2.2 := by
  obtain ⟨⟨input, eof⟩, em, w⟩ := st
  simp only at hem
  subst hem
  cases eof with
  | true => simp [loadBody, loadEnd] at h
  | false =>
    obtain ⟨consumed, cursor, hin, hne, hst, -⟩ := loadBody_local path input w st' console h
    refine ⟨rfl, by rw [hst], by rw [hst], ?_, ?_⟩
    · rw [hst, hin]
      have : 0 < consumed.length := List.length_pos.2 hne
      simp only [List.length_append]
      omega
    · rcases ParseKeyword_cases input [] with
        hk | ⟨file, kw, hk⟩ | ⟨consumed1, kw, cursor1, hin1, -, -, hk⟩
      · exfalso
        unfold loadBody at h
        simp only [Bool.false_eq_true, if_false, hk, if_true] at h
        simp [loadEnd] at h
      · exfalso
        unfold loadBody at h
        simp only [Bool.false_eq_true, if_false, hk] at h
        rw [if_neg (keyword_incomplete_ne_EOF kw), keyword_incomplete_head,
          if_neg (by simp [firstChar]), if_pos (by simp)] at h
        simp at h
      · subst hin1
        rw [loadBody_keyword path _ w kw _ (hk cursor1 [])] at h
        refine ⟨kw, ⟨cursor1, false⟩, ?_⟩
        split_ifs at h <;> injection h with h _ <;> rw [← h]

/-! ## The loop -/

theorem loadLoop_stable (path : Str) :
    ∀ fuel st r, loadLoop path fuel st = some r →
      ∀ fuel', fuel ≤ fuel' → loadLoop path fuel' st = some r := by
  intro fuel
  induction fuel with
  | zero => intro st r h; simp [loadLoop] at h
  | succ n ih =>
    intro st r h fuel' hle
    obtain ⟨m, rfl⟩ : ∃ m, fuel' = m + 1 := ⟨fuel' - 1, by omega⟩
    rw [loadLoop] at h ⊢
    cases hb : loadBody path st with
    | exit result w console => rw [hb] at h; simpa using h
    | next st' console =>
      rw [hb] at h
      simp only [Option.map_eq_some'] at h ⊢
      obtain ⟨r', hr', hrr⟩ := h
      exact ⟨r', ih st' r' hr' m (by omega), hrr⟩

/-- One iteration more than bytes are left always reaches a `return`. -/
theorem loadLoop_enough (path : Str) :
    ∀ fuel st, st.errorMessage = [] → st.file.rest.length < fuel →
      ∃ r, loadLoop path fuel st = some r := by
  intro fuel
  induction fuel with
  | zero => intro st _ h; omega
  | succ n ih =>
    intro st hem hlen
    rw [loadLoop]
    cases hb : loadBody path st with
    | exit result w console => exact ⟨_, rfl⟩
    | next st' console =>
      obtain ⟨-, hem', -, hlt, -⟩ := loadBody_next path st st' console hem hb
      obtain ⟨r, hr⟩ := ih st' hem' (by omega)
      exact ⟨(r.1, r.2.1, console ++ r.2.2), by simp [hr]⟩

theorem loadRun_exit (path : Str) (st : LoopState) (result : Bool) (w : World)
    (console : List ConsoleLine) (h : loadBody path st = .exit result w console) :
    loadRun path st = some (result, w, console) := by
  simp [loadRun, loadLoop, h]

theorem loadRun_next (path : Str) (st st' : LoopState) (console : List ConsoleLine)
    (hem : st.errorMessage = []) (h : loadBody path st = .next st' console) :
    loadRun path st = (loadRun path st').map (fun r => (r.1, r.2.1, console ++ r.2.2)) := by
  obtain ⟨-, hem', -, hlt, -⟩ := loadBody_next path st st' console hem h
  obtain ⟨r, hr⟩ := loadLoop_enough path (st'.file.rest.length + 1) st' hem' (by omega)
  have h2 := loadLoop_stable path _ st' r hr st.file.rest.length (by omega)
  simp only [loadRun]
  rw [hr, loadLoop, h]
  simp [h2]

theorem loadRun_some (path : Str) (st : LoopState) (hem : st.errorMessage = []) :
    ∃ r, loadRun path st = some r :=
  loadLoop_enough path _ st hem (by omega)

theorem Load_eq_loadRun (path bytes : Str) (w : World) :
    Load path (some bytes) w = loadRun path (loadStart bytes w) := rfl

/-! ## What holds along the iterations -/

/-- Every state the loop comes to carries no message and a stream before its end. -/
theorem Reaches.head (path : Str) (st st' : LoopState) (h : Reaches path st st')
    (hem : st.errorMessage = []) (heof : st.file.eof = false) :
    st'.errorMessage = [] ∧ st'.file.eof = false := by
  induction h with
  | here st => exact ⟨hem, heof⟩
  | later st mid st' console hb _ ih =>
    obtain ⟨-, hem', heof', -, -⟩ := loadBody_next path st mid console hem hb
    exact ih hem' heof'

/-- A property of the world that every handler call keeps holds in every state the loop
comes to. -/
theorem Reaches.invariant (path : Str) (P : World → Prop)
    (hP : ∀ kw file w, P w → P (HandleKeyword kw file [] w).2.2)
    (st st' : LoopState) (h : Reaches path st st') (hem : st.errorMessage = [])
    (h0 : P st.w) : P st'.w := by
  induction h with
  | here st => exact h0
  | later st mid st' console hb _ ih =>
    obtain ⟨-, hem', -, -, kw, file, hw⟩ := loadBody_next path st mid console hem hb
    exact ih hem' (by rw [hw]; exact hP kw file st.w h0)

/-- The iterations between two states do not change what `Load` returns and leaves. -/
theorem Reaches.outcome_eq (path : Str) (st st' : LoopState) (h : Reaches path st st')
    (hem : st.errorMessage = []) :
    outcome (loadRun path st) = outcome (loadRun path st') := by
  induction h with
  | here st => rfl
  | later st mid st' console hb _ ih =>
    obtain ⟨-, hem', -, -, -⟩ := loadBody_next path st mid console hem hb
    rw [← ih hem', loadRun_next path st mid console hem hb]
    simp [outcome, Function.comp_def]

/-- The iterations between two states have extracted a prefix `consumed` of the input, and
nothing they did depends on what follows that prefix. -/
theorem Reaches.local (path : Str) (st st' : LoopState) (h : Reaches path st st')
    (hem : st.errorMessage = []) (heof : st.file.eof = false) :
    ∃ consumed, st.file.rest = consumed ++ st'.file.rest ∧
      ∀ other, Reaches path ⟨⟨consumed ++ other, false⟩, [], st.w⟩ ⟨⟨other, false⟩, [], st'.w⟩ := by
  induction h with
  | here st => exact ⟨[], rfl, fun other => Reaches.here _⟩
  | later st mid st' console hb _ ih =>
    obtain ⟨-, hem', heof', -, -⟩ := loadBody_next path st mid console hem hb
    obtain ⟨⟨input, eof⟩, em, w⟩ := st
    simp only at hem heof
    subst hem heof
    obtain ⟨consumed1, cursor, hin, -, hmid, hother⟩ := loadBody_local path input w mid console hb
    obtain ⟨consumed2, hrest, hreach⟩ := ih hem' heof'
    rw [hmid] at hrest
    simp only at hrest
    refine ⟨consumed1 ++ consumed2, by simp [hin, hrest], ?_⟩
    intro other
    have h1 := hother (consumed2 ++ other)
    rw [← List.append_assoc] at h1
    refine Reaches.later _ _ _ console h1 ?_
    have h2 := hreach other
    rw [hmid] at h2
    exact h2

/-! ## Directives -/

theorem ParseKeyword_token (filler kw cursor message : Str) (hf : isFiller filler)
    (hk : isToken kw) :
    ParseKeyword ⟨filler ++ kw ++ 0x20 :: cursor, false⟩ message =
      (kw, ⟨cursor, false⟩, message) := by
  cases kw with
  | nil => exact absurd hk (by simp [isToken])
  | cons c run =>
    have := ParseKeyword_ended filler c run 0x20 cursor message hf hk.1 hk.2 (by decide)
    simpa using this

theorem ParseString_argument (gap arg cursor message : Str) (hg : isGap gap)
    (ha : isArgument arg) :
    ParseString ⟨gap ++ 0x22 :: (arg ++ 0x22 :: cursor), false⟩ message =
      (arg, ⟨cursor, false⟩, message) := by
  have := ParseString_ended gap arg 0x22 cursor message hg ha (by decide)
  simpa using this

theorem directive_append (filler kw gap arg rest : Str) :
    directive filler kw gap arg ++ rest =
      filler ++ kw ++ 0x20 :: (gap ++ 0x22 :: (arg ++ 0x22 :: rest)) := by
  simp [directive]

/-- The iteration that finds a directive at the cursor: the keyword scan returns the keyword,
and what is left is the handler call on the gap and the quoted argument. -/
theorem loadBody_directive (path filler kw gap arg rest : Str) (w : World) (hf : isFiller filler)
    (hk : isToken kw) :
    loadBody path ⟨⟨directive filler kw gap arg ++ rest, false⟩, [], w⟩ =
      if firstChar (HandleKeyword kw ⟨gap ++ 0x22 :: (arg ++ 0x22 :: rest), false⟩ [] w).2.1
          = 0x7E then
        .next ⟨(HandleKeyword kw ⟨gap ++ 0x22 :: (arg ++ 0x22 :: rest), false⟩ [] w).1, [],
            (HandleKeyword kw ⟨gap ++ 0x22 :: (arg ++ 0x22 :: rest), false⟩ [] w).2.2⟩
          [.warning (errorOutput path ++
            (HandleKeyword kw ⟨gap ++ 0x22 :: (arg ++ 0x22 :: rest), false⟩ [] w).2.1.tail)]
      else if (HandleKeyword kw ⟨gap ++ 0x22 :: (arg ++ 0x22 :: rest), false⟩ [] w).2.1 ≠ [] then
        .exit false (HandleKeyword kw ⟨gap ++ 0x22 :: (arg ++ 0x22 :: rest), false⟩ [] w).2.2
          [.error (errorOutput path ++
            (HandleKeyword kw ⟨gap ++ 0x22 :: (arg ++ 0x22 :: rest), false⟩ [] w).2.1)]
      else
        .next ⟨(HandleKeyword kw ⟨gap ++ 0x22 :: (arg ++ 0x22 :: rest), false⟩ [] w).1,
          (HandleKeyword kw ⟨gap ++ 0x22 :: (arg ++ 0x22 :: rest), false⟩ [] w).2.1,
          (HandleKeyword kw ⟨gap ++ 0x22 :: (arg ++ 0x22 :: rest), false⟩ [] w).2.2⟩ [] := by
  rw [directive_append]
  exact loadBody_keyword path _ w kw _ (ParseKeyword_token filler kw _ [] hf hk)

theorem token_location : isToken (str "location") := by decide
theorem token_activity : isToken (str "activity") := by decide
theorem token_positive : isToken (str "preference+") := by decide
theorem token_negative : isToken (str "preference-") := by decide
theorem token_add : isToken (str "add_preference") := by decide
theorem token_name : isToken (str "name") := by decide

/-! ## How the loop ends -/

/-- An iteration that ends `Load` either returns false and leaves the location manager as it
was, or is the success path, taken after the keyword scan set `"EOF"`. -/
theorem loadBody_exit (path : Str) (st : LoopState) (result : Bool) (w' : World)
    (console : List ConsoleLine) (hem : st.errorMessage = [])
    (h : loadBody path st = .exit result w' console) :
    (result = false ∧ w'.locations = st.w.locations) ∨
      (result = true ∧ (ParseKeyword st.file []).2.2 = str "EOF" ∧
        loadEnd path st.w = .exit result w' console) := by
  obtain ⟨⟨input, eof⟩, em, w⟩ := st
  simp only at hem
  subst hem
  cases eof with
  | true =>
    right
    simp only [loadBody, if_true] at h
    have h' := h
    simp only [loadEnd, Step.exit.injEq] at h'
    exact ⟨h'.1.symm, by rw [ParseKeyword_at_eof], h⟩
  | false =>
    rcases ParseKeyword_cases input [] with
      hk | ⟨file, kw, hk⟩ | ⟨consumed1, kw, cursor1, hin1, -, -, hk⟩
    · right
      unfold loadBody at h
      simp only [Bool.false_eq_true, if_false, hk, if_true] at h
      have h' := h
      simp only [loadEnd, Step.exit.injEq] at h'
      exact ⟨h'.1.symm, by rw [hk], h⟩
    · left
      unfold loadBody at h
      simp only [Bool.false_eq_true, if_false, hk] at h
      rw [if_neg (keyword_incomplete_ne_EOF kw), keyword_incomplete_head,
        if_neg (by simp [firstChar]), if_pos (by simp)] at h
      simp only [Step.exit.injEq] at h
      exact ⟨h.1.symm, by rw [← h.2.1]⟩
    · left
      subst hin1
      rw [loadBody_keyword path _ w kw _ (hk cursor1 [])] at h
      split_ifs at h
      simp only [Step.exit.injEq] at h
      exact ⟨h.1.symm, by rw [← h.2.1]; exact HandleKeyword_locations _ _ _ _⟩

/-- Whatever the loop returns from a state, a false result leaves the location manager as it
was at that state, and a true result comes from the success path at a state the loop came to. -/
theorem loadLoop_result (path : Str) :
    ∀ fuel st r, st.errorMessage = [] → loadLoop path fuel st = some r →
      (r.1 = false ∧ r.2.1.locations = st.w.locations) ∨
        (r.1 = true ∧ ∃ st' console, Reaches path st st' ∧
          (ParseKeyword st'.file []).2.2 = str "EOF" ∧
          loadEnd path st'.w = .exit true r.2.1 console) := by
  intro fuel
  induction fuel with
  | zero => intro st r _ h; simp [loadLoop] at h
  | succ n ih =>
    intro st r hem h
    rw [loadLoop] at h
    cases hb : loadBody path st with
    | exit result w console =>
      rw [hb] at h
      simp only [Option.some.injEq] at h
      subst h
      rcases loadBody_exit path st result w console hem hb with ⟨h1, h2⟩ | ⟨h1, h2, h3⟩
      · exact Or.inl ⟨h1, h2⟩
      · subst h1
        exact Or.inr ⟨rfl, st, console, Reaches.here st, h2, h3⟩
    | next mid console =>
      rw [hb] at h
      simp only [Option.map_eq_some'] at h
      obtain ⟨r', hr', hrr⟩ := h
      subst hrr
      obtain ⟨-, hem', -, -, kw, file, hw⟩ := loadBody_next path st mid console hem hb
      rcases ih mid r' hem' hr' with ⟨h1, h2⟩ | ⟨h1, st', c, h2, h3, h4⟩
      · left
        refine ⟨h1, ?_⟩
        simp only
        rw [h2, hw, HandleKeyword_locations]
      · right
        exact ⟨h1, st', c, Reaches.later st mid st' console hb h2, h3, h4⟩

/-- The location manager in every state the loop comes to is the one `Load` was called with. -/
theorem Reaches.locations (path : Str) (st st' : LoopState) (h : Reaches path st st')
    (hem : st.errorMessage = []) : st'.w.locations = st.w.locations :=
  Reaches.invariant path (fun v => v.locations = st.w.locations)
    (fun kw file v hv => (HandleKeyword_locations kw file [] v).trans hv) st st' h hem rfl

/-- A state the loop came to and whose iteration ends `Load` decides what `Load` returns. -/
theorem Load_of_exit (path bytes : Str) (w : World) (st : LoopState) (result : Bool)
    (w' : World) (console : List ConsoleLine)
    (hreach : Reaches path (loadStart bytes w) st)
    (h : loadBody path st = .exit result w' console) :
    ∃ console', Load path (some bytes) w = some (result, w', console') := by
  have ho := Reaches.outcome_eq path _ _ hreach rfl
  rw [loadRun_exit path st result w' console h, ← Load_eq_loadRun] at ho
  cases hl : Load path (some bytes) w with
  | none => rw [hl] at ho; simp [outcome] at ho
  | some r =>
    rw [hl] at ho
    simp only [outcome, Option.map_some', Option.some.injEq, Prod.mk.injEq] at ho
    exact ⟨r.2.2, by rw [← ho.1, ← ho.2]⟩

/-! ## Rejections by a handler before it reads -/

theorem HandleKeyword_location_again (file : IfStream) (w : World)
    (h : w.m_CurrentLocation ≠ none) :
    HandleKeyword (str "location") file [] w =
      (file, str "Only one location should be defined per file", w) := by
  rcases hps : ParseString file [] with ⟨text, file', em'⟩
  rw [HandleKeyword_location _ _ _ _ _ _ hps, if_pos h]

theorem HandleKeyword_activity_early (file : IfStream) (w : World)
    (h : w.m_CurrentLocation = none) :
    HandleKeyword (str "activity") file [] w =
      (file, str "Location must be defined before activity", w) := by
  rcases hps : ParseString file [] with ⟨text, file', em'⟩
  rw [HandleKeyword_activity _ _ _ _ _ _ hps]
  simp only [h]

theorem HandleKeyword_preference_early (kw : Str) (file : IfStream) (w : World)
    (hkw : kw = str "preference+" ∨ kw = str "preference-")
    (h : w.m_CurrentActivity = none) :
    HandleKeyword kw file [] w =
      (file, str "Activity must be defined before a preference", w) := by
  rcases hps : ParseString file [] with ⟨text, file', em'⟩
  rcases hkw with rfl | rfl
  · rw [HandleKeyword_positive _ _ _ _ _ _ hps]
    simp only [h]
  · rw [HandleKeyword_negative _ _ _ _ _ _ hps]
    simp only [h]

/-- The iteration that finds a keyword at the cursor whose handler sets the fatal message
`m` without reading. -/
theorem loadBody_rejected (path filler kw rest : Str) (w : World) (m : Str)
    (hf : isFiller filler) (hk : isToken kw)
    (hm : firstChar m ≠ 0x7E ∧ m ≠ [])
    (h : HandleKeyword kw ⟨rest, false⟩ [] w = (⟨rest, false⟩, m, w)) :
    loadBody path ⟨⟨filler ++ kw ++ 0x20 :: rest, false⟩, [], w⟩ =
      .exit false w [.error (errorOutput path ++ m)] := by
  rw [loadBody_keyword path _ w kw _ (ParseKeyword_token filler kw rest [] hf hk), h]
  simp only [if_neg hm.1, if_pos hm.2]

theorem Reaches.trans (path : Str) (a b c : LoopState) (h1 : Reaches path a b)
    (h2 : Reaches path b c) : Reaches path a c := by
  induction h1 with
  | here st => exact h2
  | later st m st' console hb _ ih => exact Reaches.later st m c console hb (ih h2)

theorem LoopState.head_shape (st : LoopState) (input : Str) (hem : st.errorMessage = [])
    (heof : st.file.eof = false) (hrest : st.file.rest = input) :
    st = ⟨⟨input, false⟩, [], st.w⟩ := by
  obtain ⟨⟨rest, eof⟩, em, w⟩ := st
  simp only at hem heof hrest
  subst hem heof hrest
  rfl

/-- A state the loop of `Load` came to, with the bytes `input` left. -/
theorem Reaches.state_shape (path bytes : Str) (w : World) (st : LoopState) (input : Str)
    (h : Reaches path (loadStart bytes w) st) (hrest : st.file.rest = input) :
    st = ⟨⟨input, false⟩, [], st.w⟩ := by
  obtain ⟨hem, heof⟩ := Reaches.head path _ _ h rfl rfl
  exact LoopState.head_shape st input hem heof hrest

/-- A handler call keeps a current location that exists. -/
theorem HandleKeyword_keeps_location (kw : Str) (file : IfStream) (em : Str) (w : World)
    (h : w.m_CurrentLocation ≠ none) :
    (HandleKeyword kw file em w).2.2.m_CurrentLocation ≠ none := by
  rcases hps : ParseString file em with ⟨text, file', em'⟩
  rcases keyword_cases kw with rfl | rfl | rfl | rfl | rfl | rfl | ⟨h1, h2, h3, h4, h5, h6⟩
  · rw [HandleKeyword_location _ _ _ _ _ _ hps, if_pos h]; exact h
  · rw [HandleKeyword_activity _ _ _ _ _ _ hps]
    split
    · exact h
    · split_ifs
      · simp
      · exact h
  · rw [HandleKeyword_positive _ _ _ _ _ _ hps]
    split <;> [exact h; (split_ifs <;> [(split <;> exact h); exact h])]
  · rw [HandleKeyword_negative _ _ _ _ _ _ hps]
    split <;> [exact h; (split_ifs <;> [(split <;> exact h); exact h])]
  · rw [HandleKeyword_add _ _ _ _ _ _ hps]; split_ifs <;> exact h
  · rw [HandleKeyword_name _ _ _ _ _ _ hps]; split_ifs <;> exact h
  · rw [HandleKeyword_other _ _ _ _ h1 h2 h3 h4 h5 h6]; exact h

/-- After an iteration that handled a `location` directive and did not end the load, a current
location exists. -/
theorem location_step (path filler rest : Str) (w : World) (mid : LoopState)
    (console : List ConsoleLine) (hf : isFiller filler)
    (h : loadBody path ⟨⟨filler ++ str "location" ++ 0x20 :: rest, false⟩, [], w⟩ =
      .next mid console) :
    mid.w.m_CurrentLocation ≠ none := by
  rw [loadBody_keyword path _ w _ _ (ParseKeyword_token filler _ rest [] hf token_location)] at h
  by_cases hloc : w.m_CurrentLocation ≠ none
  · rw [HandleKeyword_location_again _ _ hloc] at h
    simp only at h
    rw [if_neg (by decide), if_pos (by decide)] at h
    simp at h
  · rcases ParseString_cases rest [] with
      ⟨file, m, hps, herr, -⟩ | ⟨consumed, text, cursor, hin, -, -, hps⟩
    · have ⟨hm1, hm2⟩ := isStringError_fatal m herr
      rw [HandleKeyword_location _ _ _ _ _ _ hps, if_neg hloc, if_neg hm2] at h
      simp only at h
      rw [if_neg hm1, if_pos hm2] at h
      simp at h
    · subst hin
      rw [HandleKeyword_location _ _ _ _ _ _ (hps cursor []), if_neg hloc, if_pos rfl] at h
      simp only at h
      rw [if_neg (by decide), if_neg (by simp)] at h
      injection h with h _
      rw [← h]
      simp

/-! ## The registries and the heap -/

theorem GetPreferenceByName_name (preferences : List Preference) (name : Str) (p : Preference)
    (h : GetPreferenceByName preferences name = some p) : p = ⟨name⟩ := by
  unfold GetPreferenceByName at h
  have := List.find?_some h
  simp only [beq_iff_eq] at this
  cases p
  simp only at this
  rw [this]

theorem GetPreferenceByName_append (preferences : List Preference) (q : Preference)
    (name : Str) (p : Preference) (h : GetPreferenceByName preferences name = some p) :
    GetPreferenceByName (preferences ++ [q]) name = some p := by
  unfold GetPreferenceByName at h ⊢
  rw [List.find?_append, h]
  rfl

theorem GetPreferenceByName_added (preferences : List Preference) (name : Str)
    (h : GetPreferenceByName preferences name = none) :
    GetPreferenceByName (preferences ++ [⟨name⟩]) name = some ⟨name⟩ := by
  unfold GetPreferenceByName at h ⊢
  rw [List.find?_append, h]
  simp

/-- A handler call keeps every preference the registry holds. -/
theorem HandleKeyword_keeps_preference (name : Str) (p : Preference) (kw : Str)
    (file : IfStream) (em : Str) (w : World)
    (h : GetPreferenceByName w.preferences name = some p) :
    GetPreferenceByName (HandleKeyword kw file em w).2.2.preferences name = some p := by
  rcases hps : ParseString file em with ⟨text, file', em'⟩
  rcases keyword_cases kw with rfl | rfl | rfl | rfl | rfl | rfl | ⟨h1, h2, h3, h4, h5, h6⟩
  · rw [HandleKeyword_location _ _ _ _ _ _ hps]; split_ifs <;> exact h
  · rw [HandleKeyword_activity _ _ _ _ _ _ hps]
    split <;> [exact h; (split_ifs <;> exact h)]
  · rw [HandleKeyword_positive _ _ _ _ _ _ hps]
    split <;> [exact h; (split_ifs <;> [(split <;> exact h); exact h])]
  · rw [HandleKeyword_negative _ _ _ _ _ _ hps]
    split <;> [exact h; (split_ifs <;> [(split <;> exact h); exact h])]
  · rw [HandleKeyword_add _ _ _ _ _ _ hps]
    split_ifs
    · exact h
    · exact GetPreferenceByName_append _ _ _ _ h
    · exact h
  · rw [HandleKeyword_name _ _ _ _ _ _ hps]; split_ifs <;> exact h
  · rw [HandleKeyword_other _ _ _ _ h1 h2 h3 h4 h5 h6]; exact h

theorem modifyAt_length (f : Activity → Activity) :
    ∀ (n : Nat) (heap : List Activity), (modifyAt f n heap).length = heap.length := by
  intro n heap
  induction heap generalizing n with
  | nil => simp [modifyAt]
  | cons a as ih => cases n <;> simp [modifyAt, ih]

theorem modifyAt_same (f : Activity → Activity) :
    ∀ (n : Nat) (heap : List Activity) (a : Activity), heap[n]? = some a →
      (modifyAt f n heap)[n]? = some (f a) := by
  intro n heap
  induction heap generalizing n with
  | nil => intro a h; simp at h
  | cons x xs ih =>
    intro a h
    cases n with
    | zero => simp only [List.getElem?_cons_zero, Option.some.injEq] at h; simp [modifyAt, h]
    | succ m => simp only [List.getElem?_cons_succ] at h; simp [modifyAt, ih m a h]

theorem modifyAt_other (f : Activity → Activity) :
    ∀ (n m : Nat) (heap : List Activity), m ≠ n → (modifyAt f n heap)[m]? = heap[m]? := by
  intro n m heap
  induction heap generalizing n m with
  | nil => intro _; simp [modifyAt]
  | cons x xs ih =>
    intro h
    cases n with
    | zero =>
      cases m with
      | zero => exact absurd rfl h
      | succ k => simp [modifyAt]
    | succ j =>
      cases m with
      | zero => simp [modifyAt]
      | succ k => simp [modifyAt, ih j k (by omega)]

theorem modifyAt_names (f : Activity → Activity) (hf : ∀ a, (f a).name = a.name) :
    ∀ (n : Nat) (heap : List Activity),
      (modifyAt f n heap).map Activity.name = heap.map Activity.name := by
  intro n heap
  induction heap generalizing n with
  | nil => simp [modifyAt]
  | cons a as ih => cases n <;> simp [modifyAt, ih, hf]

theorem mem_addToSet (p : Preference) (set : List Preference) : p ∈ addToSet p set := by
  unfold addToSet
  split_ifs with h
  · exact h
  · simp

theorem mem_addToSet_of_mem (p q : Preference) (set : List Preference) (h : q ∈ set) :
    q ∈ addToSet p set := by
  unfold addToSet
  split_ifs
  · exact h
  · simp [h]

/-- A handler call keeps the current activity, when there is one, an address of the heap. -/
theorem HandleKeyword_keeps_address (kw : Str) (file : IfStream) (em : Str) (w : World)
    (h : ∀ a, w.m_CurrentActivity = some a → a < w.heap.length) :
    ∀ a, (HandleKeyword kw file em w).2.2.m_CurrentActivity = some a →
      a < (HandleKeyword kw file em w).2.2.heap.length := by
  rcases hps : ParseString file em with ⟨text, file', em'⟩
  rcases keyword_cases kw with rfl | rfl | rfl | rfl | rfl | rfl | ⟨h1, h2, h3, h4, h5, h6⟩
  · rw [HandleKeyword_location _ _ _ _ _ _ hps]; split_ifs <;> exact h
  · rw [HandleKeyword_activity _ _ _ _ _ _ hps]
    split
    · exact h
    · split_ifs
      · intro a ha
        simp only [Option.some.injEq] at ha
        simp [← ha]
      · exact h
  · rw [HandleKeyword_positive _ _ _ _ _ _ hps]
    split
    · exact h
    · split_ifs
      · split
        · intro a ha; simp only [modifyAt_length]; exact h a ha
        · exact h
      · exact h
  · rw [HandleKeyword_negative _ _ _ _ _ _ hps]
    split
    · exact h
    · split_ifs
      · split
        · intro a ha; simp only [modifyAt_length]; exact h a ha
        · exact h
      · exact h
  · rw [HandleKeyword_add _ _ _ _ _ _ hps]; split_ifs <;> exact h
  · rw [HandleKeyword_name _ _ _ _ _ _ hps]; split_ifs <;> exact h
  · rw [HandleKeyword_other _ _ _ _ h1 h2 h3 h4 h5 h6]; exact h

/-! ## The iteration on each kind of directive -/

/-- The iteration that finds a directive at the cursor, given what the handler call makes of
the gap and the quoted argument. -/
theorem loadBody_handled (path filler kw gap arg rest : Str) (w : World) (file' : IfStream)
    (m : Str) (w' : World) (hf : isFiller filler) (hk : isToken kw)
    (hh : HandleKeyword kw ⟨gap ++ 0x22 :: (arg ++ 0x22 :: rest), false⟩ [] w = (file', m, w')) :
    loadBody path ⟨⟨directive filler kw gap arg ++ rest, false⟩, [], w⟩ =
      if firstChar m = 0x7E then .next ⟨file', [], w'⟩ [.warning (errorOutput path ++ m.tail)]
      else if m ≠ [] then .exit false w' [.error (errorOutput path ++ m)]
      else .next ⟨file', m, w'⟩ [] := by
  rw [loadBody_directive path filler kw gap arg rest w hf hk, hh]

theorem handle_location (gap arg rest : Str) (w : World) (hg : isGap gap)
    (ha : isArgument arg) (hloc : w.m_CurrentLocation = none) :
    HandleKeyword (str "location") ⟨gap ++ 0x22 :: (arg ++ 0x22 :: rest), false⟩ [] w =
      (⟨rest, false⟩, [], { w with m_CurrentLocation := some ⟨arg, []⟩ }) := by
  rw [HandleKeyword_location _ _ _ _ _ _ (ParseString_argument gap arg rest [] hg ha),
    if_neg (by simp [hloc]), if_pos rfl]

theorem handle_activity (gap arg rest : Str) (w : World) (l : Location) (hg : isGap gap)
    (ha : isArgument arg) (hloc : w.m_CurrentLocation = some l) :
    HandleKeyword (str "activity") ⟨gap ++ 0x22 :: (arg ++ 0x22 :: rest), false⟩ [] w =
      (⟨rest, false⟩, [],
        { w with
          heap := w.heap ++ [Activity.new arg]
          m_CurrentActivity := some w.heap.length
          m_CurrentLocation := some (l.AddActivity w.heap.length) }) := by
  rw [HandleKeyword_activity _ _ _ _ _ _ (ParseString_argument gap arg rest [] hg ha)]
  simp only [hloc, if_true]

/-- The keyword and the effect of the two preference directives. -/
theorem handle_preference (positive : Bool) (gap arg rest : Str) (w : World) (a : Nat)
    (hg : isGap gap) (ha : isArgument arg) (hact : w.m_CurrentActivity = some a) :
    HandleKeyword (if positive then str "preference+" else str "preference-")
        ⟨gap ++ 0x22 :: (arg ++ 0x22 :: rest), false⟩ [] w =
      match GetPreferenceByName w.preferences (arg.map tolower) with
      | some p =>
        (⟨rest, false⟩, [],
          { w with
            heap := modifyAt (fun x =>
              if positive then x.AddPositivePreference p else x.AddNegativePreference p) a w.heap })
      | none =>
        (⟨rest, false⟩, str "~Preference (" ++ arg.map tolower ++ str ") is undefined", w) := by
  cases positive with
  | true =>
    simp only [if_true]
    rw [HandleKeyword_positive _ _ _ _ _ _ (ParseString_argument gap arg rest [] hg ha)]
    simp only [hact, if_true]
  | false =>
    simp only [Bool.false_eq_true, if_false]
    rw [HandleKeyword_negative _ _ _ _ _ _ (ParseString_argument gap arg rest [] hg ha)]
    simp only [hact, if_true]

theorem handle_add (gap arg rest : Str) (w : World) (hg : isGap gap) (ha : isArgument arg) :
    HandleKeyword (str "add_preference") ⟨gap ++ 0x22 :: (arg ++ 0x22 :: rest), false⟩ [] w =
      if (GetPreferenceByName w.preferences (arg.map tolower)).isSome then
        (⟨rest, false⟩,
          str "Preference (" ++ arg.map tolower ++ str ") defined more than once", w)
      else
        (⟨rest, false⟩, [],
          { w with preferences := w.preferences ++ [⟨arg.map tolower⟩] }) := by
  rw [HandleKeyword_add _ _ _ _ _ _ (ParseString_argument gap arg rest [] hg ha)]
  simp only [if_true]

theorem token_preference (positive : Bool) :
    isToken (if positive then str "preference+" else str "preference-") := by
  cases positive <;> decide

theorem step_location (path filler gap arg rest : Str) (w : World) (hf : isFiller filler)
    (hg : isGap gap) (ha : isArgument arg) (hloc : w.m_CurrentLocation = none) :
    loadBody path ⟨⟨directive filler (str "location") gap arg ++ rest, false⟩, [], w⟩ =
      .next ⟨⟨rest, false⟩, [], { w with m_CurrentLocation := some ⟨arg, []⟩ }⟩ [] := by
  rw [loadBody_handled path filler _ gap arg rest w _ _ _ hf token_location
    (handle_location gap arg rest w hg ha hloc), if_neg (by decide), if_neg (by simp)]

theorem step_activity (path filler gap arg rest : Str) (w : World) (l : Location)
    (hf : isFiller filler) (hg : isGap gap) (ha : isArgument arg)
    (hloc : w.m_CurrentLocation = some l) :
    loadBody path ⟨⟨directive filler (str "activity") gap arg ++ rest, false⟩, [], w⟩ =
      .next ⟨⟨rest, false⟩, [],
        { w with
          heap := w.heap ++ [Activity.new arg]
          m_CurrentActivity := some w.heap.length
          m_CurrentLocation := some (l.AddActivity w.heap.length) }⟩ [] := by
  rw [loadBody_handled path filler _ gap arg rest w _ _ _ hf token_activity
    (handle_activity gap arg rest w l hg ha hloc), if_neg (by decide), if_neg (by simp)]

theorem step_preference_found (path filler gap arg rest : Str) (positive : Bool) (w : World)
    (a : Nat) (p : Preference) (hf : isFiller filler) (hg : isGap gap) (ha : isArgument arg)
    (hact : w.m_CurrentActivity = some a)
    (hp : GetPreferenceByName w.preferences (arg.map tolower) = some p) :
    loadBody path
        ⟨⟨directive filler (if positive then str "preference+" else str "preference-") gap arg
          ++ rest, false⟩, [], w⟩ =
      .next ⟨⟨rest, false⟩, [],
        { w with
          heap := modifyAt (fun x =>
            if positive then x.AddPositivePreference p else x.AddNegativePreference p) a w.heap }⟩
        [] := by
  have hh := handle_preference positive gap arg rest w a hg ha hact
  rw [hp] at hh
  rw [loadBody_handled path filler _ gap arg rest w _ _ _ hf (token_preference positive) hh,
    if_neg (by decide), if_neg (by simp)]

theorem step_preference_unknown (path filler gap arg rest : Str) (positive : Bool) (w : World)
    (a : Nat) (hf : isFiller filler) (hg : isGap gap) (ha : isArgument arg)
    (hact : w.m_CurrentActivity = some a)
    (hp : GetPreferenceByName w.preferences (arg.map tolower) = none) :
    loadBody path
        ⟨⟨directive filler (if positive then str "preference+" else str "preference-") gap arg
          ++ rest, false⟩, [], w⟩ =
      .next ⟨⟨rest, false⟩, [], w⟩
        [.warning (errorOutput path ++
          (str "Preference (" ++ arg.map tolower ++ str ") is undefined"))] := by
  have hh := handle_preference positive gap arg rest w a hg ha hact
  rw [hp] at hh
  rw [loadBody_handled path filler _ gap arg rest w _ _ _ hf (token_preference positive) hh,
    undefined_head, if_pos (by simp [firstChar])]
  rfl

theorem step_add_new (path filler gap arg rest : Str) (w : World) (hf : isFiller filler)
    (hg : isGap gap) (ha : isArgument arg)
    (hp : GetPreferenceByName w.preferences (arg.map tolower) = none) :
    loadBody path ⟨⟨directive filler (str "add_preference") gap arg ++ rest, false⟩, [], w⟩ =
      .next ⟨⟨rest, false⟩, [],
        { w with preferences := w.preferences ++ [⟨arg.map tolower⟩] }⟩ [] := by
  have hh := handle_add gap arg rest w hg ha
  rw [hp, if_neg (by simp)] at hh
  rw [loadBody_handled path filler _ gap arg rest w _ _ _ hf token_add hh,
    if_neg (by decide), if_neg (by simp)]

theorem step_add_duplicate (path filler gap arg rest : Str) (w : World) (p : Preference)
    (hf : isFiller filler) (hg : isGap gap) (ha : isArgument arg)
    (hp : GetPreferenceByName w.preferences (arg.map tolower) = some p) :
    loadBody path ⟨⟨directive filler (str "add_preference") gap arg ++ rest, false⟩, [], w⟩ =
      .exit false w
        [.error (errorOutput path ++
          (str "Preference (" ++ arg.map tolower ++ str ") defined more than once"))] := by
  have hh := handle_add gap arg rest w hg ha
  rw [hp, if_pos (by simp)] at hh
  rw [loadBody_handled path filler _ gap arg rest w _ _ _ hf token_add hh,
    duplicate_head, if_neg (by simp [firstChar]), if_pos (by simp)]

/-- An `add_preference` directive after which the loop goes on has found its name absent
from the registry and has appended it. -/
theorem add_step (path filler gap arg rest : Str) (w : World) (mid : LoopState)
    (console : List ConsoleLine) (hf : isFiller filler) (hg : isGap gap) (ha : isArgument arg)
    (h : loadBody path ⟨⟨directive filler (str "add_preference") gap arg ++ rest, false⟩, [], w⟩ =
      .next mid console) :
    GetPreferenceByName w.preferences (arg.map tolower) = none ∧
      mid = ⟨⟨rest, false⟩, [],
        { w with preferences := w.preferences ++ [⟨arg.map tolower⟩] }⟩ ∧ console = [] := by
  cases hp : GetPreferenceByName w.preferences (arg.map tolower) with
  | some p =>
    rw [step_add_duplicate path filler gap arg rest w p hf hg ha hp] at h
    simp at h
  | none =>
    rw [step_add_new path filler gap arg rest w hf hg ha hp] at h
    injection h with h1 h2
    exact ⟨rfl, h1.symm, h2.symm⟩

/-- The current activity of every state the loop of `Load` comes to is an address of the
heap. -/
theorem Reaches.address (path bytes : Str) (w : World) (st : LoopState)
    (h : Reaches path (loadStart bytes w) st) (a : Nat)
    (ha : st.w.m_CurrentActivity = some a) : a < st.w.heap.length :=
  Reaches.invariant path (fun v => ∀ a, v.m_CurrentActivity = some a → a < v.heap.length)
    (fun kw file v hv => HandleKeyword_keeps_address kw file [] v hv) _ st h rfl
    (fun a ha => by simp [loadStart] at ha) a ha

/-! ## Location files -/

theorem names_at_new_addresses (heap : List Activity) :
    ∀ (names old : List Str), heap.map Activity.name = old ++ names →
      (List.range' old.length names.length).map (fun a => (heap[a]?).map Activity.name) =
        names.map some := by
  intro names
  induction names with
  | nil => intro old _; simp
  | cons b bs ih =>
    intro old h
    have h' : heap.map Activity.name = (old ++ [b]) ++ bs := by simp [h]
    have ih' := ih (old ++ [b]) h'
    simp only [List.length_append, List.length_singleton] at ih'
    have hb : (old ++ b :: bs)[old.length]? = some b := by
      rw [List.getElem?_append_right (le_refl _)]
      simp
    simp only [List.length_cons, List.range'_succ, List.map_cons, ih', List.cons.injEq,
      and_true]
    rw [← List.getElem?_map, h, hb]

/-- The loop of `Load` on the directives of a location file, from a state in which the current
location exists: `Load` returns true and registers the current location, extended by the
activities the directives declare. -/
theorem loadRun_directives (path trail : Str) (htrail : isFiller trail) :
    ∀ (ds : List (Str × Directive)) (w : World) (l : Location),
      wellFormed ds → w.m_CurrentLocation = some l →
      (w.m_CurrentActivity ≠ none ∨ preferencesFollowActivity ds) →
      ∃ w' console, loadRun path ⟨⟨renderAll ds ++ trail, false⟩, [], w⟩ =
          some (true, w', console) ∧
        w'.locations = w.locations ++
          [⟨l.name, l.activities ++ List.range' w.heap.length (activityNames ds).length⟩] ∧
        w'.heap.map Activity.name = w.heap.map Activity.name ++ activityNames ds := by
  intro ds
  induction ds with
  | nil =>
    intro w l _ hloc _
    refine ⟨{ w with locations := AddLocation w.locations l },
      [.message (str "File " ++ path ++ str " loaded successfully")],
      loadRun_exit path _ true _ _ ?_, ?_, ?_⟩
    · simp only [renderAll, List.nil_append]
      rw [loadBody_eof path trail w htrail, loadEnd, hloc]
    · simp [AddLocation, activityNames]
    · simp [activityNames]
  | cons fd ds ih =>
    intro w l hwf hloc hord
    obtain ⟨filler, d⟩ := fd
    have hfd := hwf (filler, d) (by simp)
    have hwf' : wellFormed ds := fun x hx => hwf x (by simp [hx])
    have hrender : renderAll ((filler, d) :: ds) ++ trail =
        directive filler d.keyword [] d.argument ++ (renderAll ds ++ trail) := by
      simp [renderAll]
    rw [hrender]
    cases d with
    | activity name =>
      have hstep := step_activity path filler [] name (renderAll ds ++ trail) w l hfd.1
        (by decide) hfd.2 hloc
      obtain ⟨w', console, hrun, hlocs, hheap⟩ := ih
        { w with
          heap := w.heap ++ [Activity.new name]
          m_CurrentActivity := some w.heap.length
          m_CurrentLocation := some (l.AddActivity w.heap.length) }
        (l.AddActivity w.heap.length) hwf' rfl (Or.inl (by simp))
      refine ⟨w', [] ++ console, ?_, ?_, ?_⟩
      · simp only [Directive.keyword, Directive.argument]
        rw [loadRun_next path _ _ _ rfl hstep, hrun]
        rfl
      · rw [hlocs]
        simp [Location.AddActivity, activityNames, List.range'_succ]
      · rw [hheap]
        simp [activityNames, Activity.new]
    | preference positive name =>
      obtain ⟨a, hact⟩ : ∃ a, w.m_CurrentActivity = some a := by
        rcases hord with h | h
        · exact Option.ne_none_iff_exists'.1 h
        · obtain ⟨x, hx, -⟩ := h [] (filler, .preference positive name) ds rfl rfl
          simp at hx
      cases hp : GetPreferenceByName w.preferences (name.map tolower) with
      | some p =>
        have hstep := step_preference_found path filler [] name (renderAll ds ++ trail) positive
          w a p hfd.1 (by decide) hfd.2 hact hp
        obtain ⟨w', console, hrun, hlocs, hheap⟩ := ih
          { w with
            heap := modifyAt (fun x =>
              if positive then x.AddPositivePreference p else x.AddNegativePreference p) a w.heap }
          l hwf' hloc (Or.inl (by simp [hact]))
        refine ⟨w', [] ++ console, ?_, ?_, ?_⟩
        · simp only [Directive.keyword, Directive.argument]
          rw [loadRun_next path _ _ _ rfl hstep, hrun]
          rfl
        · rw [hlocs]
          simp [activityNames, modifyAt_length]
        · rw [hheap, modifyAt_names]
          · simp [activityNames]
          · intro x
            cases positive <;> rfl
      | none =>
        have hstep := step_preference_unknown path filler [] name (renderAll ds ++ trail)
          positive w a hfd.1 (by decide) hfd.2 hact hp
        obtain ⟨w', console, hrun, hlocs, hheap⟩ := ih w l hwf' hloc (Or.inl (by simp [hact]))
        refine ⟨w', [.warning (errorOutput path ++
          (str "Preference (" ++ name.map tolower ++ str ") is undefined"))] ++ console,
          ?_, ?_, ?_⟩
        · simp only [Directive.keyword, Directive.argument]
          rw [loadRun_next path _ _ _ rfl hstep, hrun]
          rfl
        · rw [hlocs]
          simp [activityNames]
        · rw [hheap]
          simp [activityNames]

theorem follows_of_activity_first (filler name : Str) (ds : List (Str × Directive)) :
    preferencesFollowActivity ((filler, .activity name) :: ds) := by
  intro before fd after h hfd
  cases before with
  | nil =>
    simp only [List.nil_append, List.cons.injEq] at h
    rw [← h.1] at hfd
    simp [Directive.isActivity] at hfd
  | cons b bs =>
    simp only [List.cons_append, List.cons.injEq] at h
    exact ⟨b, by simp, by rw [← h.1]; rfl⟩

/-! # The claims -/

/-- Claim C3: a file whose first directive is `activity`, with only filler before the keyword,
makes `Load` return false with the error "Location must be defined before activity"; the world
left is the world `Load` was called with, both static members reset, so no activity was
created and no registry changed, whatever current location and current activity the world
held before the call. -/
theorem activity_before_location (path : Str) (w : World) (filler rest : Str)
    (hf : isFiller filler) :
    Load path (some (filler ++ str "activity" ++ 0x20 :: rest)) w =
      some (false, { w with m_CurrentLocation := none, m_CurrentActivity := none },
        [.error (errorOutput path ++ str "Location must be defined before activity")]) := by
  rw [Load_eq_loadRun]
  apply loadRun_exit
  exact loadBody_rejected path filler (str "activity") rest _ _ hf token_activity
    ⟨by decide, by decide⟩ (HandleKeyword_activity_early _ _ rfl)

theorem activity_before_location_witness :
    isFiller [0x0A] ∧
      Load (str "park.txt") (some ([0x0A] ++ str "activity" ++ 0x20 :: str "\"Swim\"")) staleWorld =
        some (false,
          { staleWorld with m_CurrentLocation := none, m_CurrentActivity := none },
          [.error (errorOutput (str "park.txt") ++
            str "Location must be defined before activity")]) :=
  ⟨by decide, activity_before_location (str "park.txt") staleWorld [0x0A] (str "\"Swim\"")
    (by decide)⟩

/-- Claim C2: when the loop of `Load` comes to a second `location` directive (an earlier
iteration handled a `location` directive and the loop went on), `Load` returns false and the
location manager is left as it was before the call; at that point a current location exists,
and `HandleKeyword` rejects `location` in every world in which a current location exists,
whatever its name (the empty name included), without reading and without changing the world. -/
theorem second_location_rejected (path bytes : Str) (w : World) (st1 mid st2 : LoopState)
    (console : List ConsoleLine) (filler1 rest1 filler2 rest2 : Str)
    (hreach1 : Reaches path (loadStart bytes w) st1)
    (hfile1 : st1.file.rest = filler1 ++ str "location" ++ 0x20 :: rest1)
    (hfiller1 : isFiller filler1)
    (hstep : loadBody path st1 = .next mid console)
    (hreach2 : Reaches path mid st2)
    (hfile2 : st2.file.rest = filler2 ++ str "location" ++ 0x20 :: rest2)
    (hfiller2 : isFiller filler2) :
    st2.w.m_CurrentLocation ≠ none ∧
    (∀ (v : World) (file : IfStream) (name : Str) (activities : List Nat),
      v.m_CurrentLocation = some ⟨name, activities⟩ →
      HandleKeyword (str "location") file [] v =
        (file, str "Only one location should be defined per file", v)) ∧
    ∃ w' console', Load path (some bytes) w = some (false, w', console') ∧
      w'.locations = w.locations := by
  have hs1 := Reaches.state_shape path bytes w st1 _ hreach1 hfile1
  rw [hs1] at hstep
  have hmid := location_step path filler1 rest1 st1.w mid console hfiller1 hstep
  obtain ⟨-, hem', -, -, -⟩ := loadBody_next path _ mid console rfl hstep
  have hloc2 : st2.w.m_CurrentLocation ≠ none :=
    Reaches.invariant path (fun v => v.m_CurrentLocation ≠ none)
      (fun kw file v hv => HandleKeyword_keeps_location kw file [] v hv) mid st2 hreach2 hem' hmid
  have hreach : Reaches path (loadStart bytes w) st2 := by
    refine Reaches.trans path _ st1 st2 hreach1 ?_
    rw [hs1]
    exact Reaches.later _ mid st2 console hstep hreach2
  have hs2 := Reaches.state_shape path bytes w st2 _ hreach hfile2
  have hexit : loadBody path st2 = .exit false st2.w
      [.error (errorOutput path ++ str "Only one location should be defined per file")] := by
    rw [hs2]
    exact loadBody_rejected path filler2 (str "location") rest2 _ _ hfiller2 token_location
      ⟨by decide, by decide⟩ (HandleKeyword_location_again _ _ hloc2)
  refine ⟨hloc2, ?_, ?_⟩
  · intro v file name activities hv
    exact HandleKeyword_location_again file v (by rw [hv]; simp)
  · obtain ⟨console', hl⟩ := Load_of_exit path bytes w st2 false st2.w _ hreach hexit
    exact ⟨st2.w, console', hl, Reaches.locations path _ _ hreach rfl⟩

theorem second_location_rejected_witness :
    (loadStart twoLocations emptyWorld).file.rest =
        [] ++ str "location" ++ 0x20 :: str "\"\"\nlocation \"B\"" ∧
      ∃ w' console', Load (str "two.txt") (some twoLocations) emptyWorld =
          some (false, w', console') ∧ w'.locations = emptyWorld.locations :=
  ⟨by decide,
    (second_location_rejected (str "two.txt") twoLocations emptyWorld
      (loadStart twoLocations emptyWorld)
      ⟨⟨str "\nlocation \"B\"", false⟩, [],
        { emptyWorld with m_CurrentLocation := some ⟨[], []⟩ }⟩
      ⟨⟨str "\nlocation \"B\"", false⟩, [],
        { emptyWorld with m_CurrentLocation := some ⟨[], []⟩ }⟩
      [] [] (str "\"\"\nlocation \"B\"") [0x0A] (str "\"B\"")
      (Reaches.here _) (by decide) (by decide) (by decide) (Reaches.here _) (by decide)
      (by decide)).2.2⟩

/-- Claim C4: when the loop of `Load` comes to a `preference+` or `preference-` directive while
no current activity exists, the handler sets "Activity must be defined before a preference",
which is not empty and does not begin with `~` (a fatal error, not a warning), reads nothing
and changes nothing, and `Load` returns false; the preference registry of the world and the
bytes after the keyword are arbitrary, so this holds whether or not the preference named is
registered. -/
theorem preference_before_activity (path bytes : Str) (w : World) (st : LoopState)
    (filler kw rest : Str)
    (hreach : Reaches path (loadStart bytes w) st)
    (hkw : kw = str "preference+" ∨ kw = str "preference-")
    (hfile : st.file.rest = filler ++ kw ++ 0x20 :: rest)
    (hfiller : isFiller filler)
    (hact : st.w.m_CurrentActivity = none) :
    HandleKeyword kw ⟨rest, false⟩ [] st.w =
        (⟨rest, false⟩, str "Activity must be defined before a preference", st.w) ∧
      firstChar (str "Activity must be defined before a preference") ≠ 0x7E ∧
      str "Activity must be defined before a preference" ≠ [] ∧
      loadBody path st = .exit false st.w
        [.error (errorOutput path ++ str "Activity must be defined before a preference")] ∧
      ∃ console, Load path (some bytes) w = some (false, st.w, console) := by
  have hs := Reaches.state_shape path bytes w st _ hreach hfile
  have hh := HandleKeyword_preference_early kw ⟨rest, false⟩ st.w hkw hact
  have hk : isToken kw := by rcases hkw with rfl | rfl <;> decide
  have hexit : loadBody path st = .exit false st.w
      [.error (errorOutput path ++ str "Activity must be defined before a preference")] := by
    rw [hs]
    exact loadBody_rejected path filler kw rest _ _ hfiller hk ⟨by decide, by decide⟩ hh
  exact ⟨hh, by decide, by decide, hexit, Load_of_exit path bytes w st false st.w _ hreach hexit⟩

theorem preference_before_activity_witness :
    GetPreferenceByName staleWorld.preferences (str "quiet") = some ⟨str "quiet"⟩ ∧
      ∃ console, Load (str "lake.txt") (some preferenceAfterLocation) staleWorld =
        some (false,
          { staleWorld with m_CurrentLocation := some ⟨str "Lake", []⟩, m_CurrentActivity := none },
          console) :=
  ⟨by decide,
    (preference_before_activity (str "lake.txt") preferenceAfterLocation staleWorld
      ⟨⟨str "\npreference+ \"quiet\"", false⟩, [],
        { staleWorld with m_CurrentLocation := some ⟨str "Lake", []⟩, m_CurrentActivity := none }⟩
      [0x0A] (str "preference+") (str "\"quiet\"")
      (Reaches.later _ _ _ [] (by decide) (Reaches.here _)) (Or.inl rfl) (by decide) (by decide)
      rfl).2.2.2.2⟩

/-- Claim C8: `Load` always returns; when it returns false (the file could not be opened, or a
fatal error at any point) the location manager is the one it was called with; when it returns
true, the loop came to a state in which the keyword scan set `"EOF"`, the location manager was
still the one `Load` was called with, and the success path ran there, so that at most one
location was added. -/
theorem failed_load_registers_nothing (path : Str) (contents : Option Str) (w : World) :
    ∃ result w' console, Load path contents w = some (result, w', console) ∧
      (result = false → w'.locations = w.locations) ∧
      (result = true →
        (w'.locations = w.locations ∨ ∃ l, w'.locations = AddLocation w.locations l) ∧
        ∃ bytes st console', contents = some bytes ∧ Reaches path (loadStart bytes w) st ∧
          (ParseKeyword st.file []).2.2 = str "EOF" ∧ st.w.locations = w.locations ∧
          loadEnd path st.w = .exit true w' console') := by
  cases contents with
  | none => exact ⟨false, _, _, rfl, fun _ => rfl, fun h => by simp at h⟩
  | some bytes =>
    obtain ⟨r, hr⟩ := loadRun_some path (loadStart bytes w) rfl
    refine ⟨r.1, r.2.1, r.2.2, by rw [Load_eq_loadRun, hr], ?_, ?_⟩
    · intro hfalse
      rcases loadLoop_result path _ _ r rfl hr with ⟨-, h2⟩ | ⟨h1, -⟩
      · exact h2
      · rw [hfalse] at h1; simp at h1
    · intro htrue
      rcases loadLoop_result path _ _ r rfl hr with ⟨h1, -⟩ | ⟨-, st, c, h2, h3, h4⟩
      · rw [htrue] at h1; simp at h1
      · have hl := Reaches.locations path _ _ h2 rfl
        have hl' : st.w.locations = w.locations := hl
        refine ⟨?_, bytes, st, c, rfl, h2, h3, hl', h4⟩
        simp only [loadEnd, Step.exit.injEq, true_and] at h4
        rw [← h4.1]
        cases hc : st.w.m_CurrentLocation with
        | none => left; simp [hl']
        | some l => right; exact ⟨l, by simp [hl']⟩

/-- Claim C5: when the loop of `Load` comes to a `preference+` or `preference-` directive with
a current activity and the lowercased argument is not in the preference registry, the handler
sets the message "~Preference (...) is undefined" and changes nothing in the world (so both
sets of the current activity stay as they were), the iteration writes one warning and the loop
goes on with the bytes after the closing quote, and `Load` returns the same value and leaves
the same world as on the file without that directive. -/
theorem unknown_preference_is_skipped (path pre filler gap arg rest : Str) (positive : Bool)
    (w : World) (st : LoopState) (a : Nat)
    (hreach : Reaches path
      (loadStart (pre ++ (directive filler
        (if positive then str "preference+" else str "preference-") gap arg ++ rest)) w) st)
    (hfile : st.file.rest =
      directive filler (if positive then str "preference+" else str "preference-") gap arg
        ++ rest)
    (hf : isFiller filler) (hg : isGap gap) (ha : isArgument arg)
    (hact : st.w.m_CurrentActivity = some a)
    (hp : GetPreferenceByName st.w.preferences (arg.map tolower) = none) :
    HandleKeyword (if positive then str "preference+" else str "preference-")
        ⟨gap ++ 0x22 :: (arg ++ 0x22 :: rest), false⟩ [] st.w =
      (⟨rest, false⟩, str "~Preference (" ++ arg.map tolower ++ str ") is undefined", st.w) ∧
    loadBody path st =
      .next ⟨⟨rest, false⟩, [], st.w⟩
        [.warning (errorOutput path ++
          (str "Preference (" ++ arg.map tolower ++ str ") is undefined"))] ∧
    outcome (Load path (some (pre ++ (directive filler
        (if positive then str "preference+" else str "preference-") gap arg ++ rest))) w) =
      outcome (Load path (some (pre ++ rest)) w) := by
  have hs := Reaches.state_shape path _ w st _ hreach hfile
  have hh := handle_preference positive gap arg rest st.w a hg ha hact
  rw [hp] at hh
  have hstep := step_preference_unknown path filler gap arg rest positive st.w a hf hg ha hact hp
  rw [← hs] at hstep
  refine ⟨hh, hstep, ?_⟩
  obtain ⟨consumed, hsplit, hother⟩ := Reaches.local path _ _ hreach rfl rfl
  rw [hfile] at hsplit
  have hpre : pre = consumed := List.append_cancel_right hsplit
  subst hpre
  have h1 := Reaches.outcome_eq path _ _ hreach rfl
  have hem : st.errorMessage = [] := by rw [hs]
  rw [loadRun_next path st _ _ hem hstep] at h1
  have h2 := Reaches.outcome_eq path _ _ (hother rest) rfl
  rw [Load_eq_loadRun, Load_eq_loadRun, h1]
  have h3 : outcome (loadRun path (loadStart (pre ++ rest) w)) =
      outcome (loadRun path ⟨⟨rest, false⟩, [], st.w⟩) := h2
  rw [h3]
  simp [outcome, Function.comp_def]

theorem unknown_preference_is_skipped_witness :
    GetPreferenceByName oneActivityWorld.preferences ((str "Nope").map tolower) = none ∧
      outcome (Load (str "p.txt") (some unknownPreference) emptyWorld) =
        outcome (Load (str "p.txt")
          (some (str "location \"L\"\nactivity \"A\"" ++ str "\nname \"Bob\"")) emptyWorld) :=
  ⟨by decide,
    (unknown_preference_is_skipped (str "p.txt") (str "location \"L\"\nactivity \"A\"") [0x0A] []
      (str "Nope") (str "\nname \"Bob\"") true emptyWorld
      ⟨⟨directive [0x0A] (str "preference+") [] (str "Nope") ++ str "\nname \"Bob\"", false⟩, [],
        oneActivityWorld⟩ 0
      (Reaches.later _
        ⟨⟨str "\nactivity \"A\"" ++
            (directive [0x0A] (str "preference+") [] (str "Nope") ++ str "\nname \"Bob\""),
          false⟩, [], { emptyWorld with m_CurrentLocation := some ⟨str "L", []⟩ }⟩
        _ [] (by decide) (Reaches.later _ _ _ [] (by decide) (Reaches.here _)))
      (by decide) (by decide) (by decide) (by decide) (by decide) (by decide)).2.2⟩

/-- Claim C6: when the loop of `Load` handles `add_preference "X"`, goes on, and later comes to
another `add_preference` whose argument lowercases to the same string, then the first
insertion succeeded (the name was not registered before and was appended to the registry),
the second directive ends the load with the fatal error "Preference (...) defined more than
once", and `Load` returns false. -/
theorem duplicate_add_preference (path bytes : Str) (w : World) (st1 mid st2 : LoopState)
    (console : List ConsoleLine) (filler1 gap1 X rest1 filler2 gap2 X' rest2 : Str)
    (hreach1 : Reaches path (loadStart bytes w) st1)
    (hfile1 : st1.file.rest = directive filler1 (str "add_preference") gap1 X ++ rest1)
    (hf1 : isFiller filler1) (hg1 : isGap gap1) (ha1 : isArgument X)
    (hstep : loadBody path st1 = .next mid console)
    (hreach2 : Reaches path mid st2)
    (hfile2 : st2.file.rest = directive filler2 (str "add_preference") gap2 X' ++ rest2)
    (hf2 : isFiller filler2) (hg2 : isGap gap2) (ha2 : isArgument X')
    (hsame : X'.map tolower = X.map tolower) :
    GetPreferenceByName st1.w.preferences (X.map tolower) = none ∧
    mid = ⟨⟨rest1, false⟩, [],
      { st1.w with preferences := st1.w.preferences ++ [⟨X.map tolower⟩] }⟩ ∧
    loadBody path st2 = .exit false st2.w
      [.error (errorOutput path ++
        (str "Preference (" ++ X.map tolower ++ str ") defined more than once"))] ∧
    ∃ console', Load path (some bytes) w = some (false, st2.w, console') := by
  have hs1 := Reaches.state_shape path bytes w st1 _ hreach1 hfile1
  have hstep' := hstep
  rw [hs1] at hstep'
  obtain ⟨hnone, hmid, -⟩ := add_step path filler1 gap1 X rest1 st1.w mid console hf1 hg1 ha1 hstep'
  have hreach : Reaches path (loadStart bytes w) st2 :=
    Reaches.trans path _ st1 st2 hreach1 (Reaches.later st1 mid st2 console hstep hreach2)
  have hs2 := Reaches.state_shape path bytes w st2 _ hreach hfile2
  have hthere : GetPreferenceByName st2.w.preferences (X.map tolower) = some ⟨X.map tolower⟩ :=
    Reaches.invariant path
      (fun v => GetPreferenceByName v.preferences (X.map tolower) = some ⟨X.map tolower⟩)
      (fun kw file v hv => HandleKeyword_keeps_preference _ _ kw file [] v hv) mid st2 hreach2
      (by rw [hmid]) (by rw [hmid]; exact GetPreferenceByName_added _ _ hnone)
  have hexit : loadBody path st2 = .exit false st2.w
      [.error (errorOutput path ++
        (str "Preference (" ++ X.map tolower ++ str ") defined more than once"))] := by
    rw [hs2, ← hsame]
    exact step_add_duplicate path filler2 gap2 X' rest2 st2.w _ hf2 hg2 ha2
      (by rw [hsame]; exact hthere)
  exact ⟨hnone, hmid, hexit, Load_of_exit path bytes w st2 false st2.w _ hreach hexit⟩

theorem duplicate_add_preference_witness :
    (str "SUN").map tolower = (str "Sun").map tolower ∧
      ∃ console', Load (str "p.txt") (some twiceFile) emptyWorld =
        some (false, { emptyWorld with preferences := [⟨str "sun"⟩] }, console') :=
  ⟨by decide,
    (duplicate_add_preference (str "p.txt") twiceFile emptyWorld
      (loadStart twiceFile emptyWorld)
      ⟨⟨str "\nadd_preference \"SUN\"", false⟩, [],
        { emptyWorld with preferences := [⟨str "sun"⟩] }⟩
      ⟨⟨str "\nadd_preference \"SUN\"", false⟩, [],
        { emptyWorld with preferences := [⟨str "sun"⟩] }⟩
      [] [] [] (str "Sun") (str "\nadd_preference \"SUN\"") [0x0A] [] (str "SUN") []
      (Reaches.here _) (by decide) (by decide) (by decide) (by decide) (by decide)
      (Reaches.here _) (by decide) (by decide) (by decide) (by decide) (by decide)).2.2.2⟩

/-- Claim C7: preference names are case-insensitive. When the loop of `Load` handles
`add_preference "s"` with success, and later comes, with a current activity, to `preference+`
or `preference-` with an argument `s'` that lowercases to the same string as `s`, then the
registry holds under lowercase(s) the preference of that name, the iteration writes no warning
and goes on, and the object of the current activity gets that very preference in its positive
(resp. negative) set, the other set staying as it was. And the example file of the
specification loads with result true into the location "Park" with the one activity "Picnic"
whose positive set is "sun". -/
theorem preference_names_ignore_case :
    (∀ (path bytes : Str) (w : World) (st1 mid st2 : LoopState) (console : List ConsoleLine)
      (filler1 gap1 s rest1 filler2 gap2 s' rest2 : Str) (positive : Bool) (a : Nat),
      Reaches path (loadStart bytes w) st1 →
      st1.file.rest = directive filler1 (str "add_preference") gap1 s ++ rest1 →
      isFiller filler1 → isGap gap1 → isArgument s →
      loadBody path st1 = .next mid console →
      Reaches path mid st2 →
      st2.file.rest =
        directive filler2 (if positive then str "preference+" else str "preference-") gap2 s'
          ++ rest2 →
      isFiller filler2 → isGap gap2 → isArgument s' →
      s'.map tolower = s.map tolower →
      st2.w.m_CurrentActivity = some a →
      GetPreferenceByName st2.w.preferences (s.map tolower) = some ⟨s.map tolower⟩ ∧
      loadBody path st2 =
        .next ⟨⟨rest2, false⟩, [],
          { st2.w with
            heap := modifyAt (fun x =>
              if positive then x.AddPositivePreference ⟨s.map tolower⟩
              else x.AddNegativePreference ⟨s.map tolower⟩) a st2.w.heap }⟩ [] ∧
      ∃ before after, st2.w.heap[a]? = some before ∧
        (modifyAt (fun x =>
          if positive then x.AddPositivePreference ⟨s.map tolower⟩
          else x.AddNegativePreference ⟨s.map tolower⟩) a st2.w.heap)[a]? = some after ∧
        if positive then
          (⟨s.map tolower⟩ : Preference) ∈ after.positive ∧ after.negative = before.negative
        else
          (⟨s.map tolower⟩ : Preference) ∈ after.negative ∧ after.positive = before.positive) ∧
    Load (str "park.txt") (some parkFile) emptyWorld =
      some (true,
        { heap := [{ Activity.new (str "Picnic") with positive := [⟨str "sun"⟩] }]
          m_CurrentLocation := some ⟨str "Park", [0]⟩
          m_CurrentActivity := some 0
          preferences := [⟨str "sun"⟩]
          names := []
          locations := [⟨str "Park", [0]⟩] },
        [.message (str "File park.txt loaded successfully")]) := by
  refine ⟨?_, by decide⟩
  intro path bytes w st1 mid st2 console filler1 gap1 s rest1 filler2 gap2 s' rest2 positive a
    hreach1 hfile1 hf1 hg1 ha1 hstep hreach2 hfile2 hf2 hg2 ha2 hcase hact
  have hs1 := Reaches.state_shape path bytes w st1 _ hreach1 hfile1
  have hstep' := hstep
  rw [hs1] at hstep'
  obtain ⟨hnone, hmid, -⟩ := add_step path filler1 gap1 s rest1 st1.w mid console hf1 hg1 ha1 hstep'
  have hreach : Reaches path (loadStart bytes w) st2 :=
    Reaches.trans path _ st1 st2 hreach1 (Reaches.later st1 mid st2 console hstep hreach2)
  have hs2 := Reaches.state_shape path bytes w st2 _ hreach hfile2
  have hthere : GetPreferenceByName st2.w.preferences (s.map tolower) = some ⟨s.map tolower⟩ :=
    Reaches.invariant path
      (fun v => GetPreferenceByName v.preferences (s.map tolower) = some ⟨s.map tolower⟩)
      (fun kw file v hv => HandleKeyword_keeps_preference _ _ kw file [] v hv) mid st2 hreach2
      (by rw [hmid]) (by rw [hmid]; exact GetPreferenceByName_added _ _ hnone)
  have hnext := step_preference_found path filler2 gap2 s' rest2 positive st2.w a
    ⟨s.map tolower⟩ hf2 hg2 ha2 hact (by rw [hcase]; exact hthere)
  rw [← hs2] at hnext
  have hlt := Reaches.address path bytes w st2 hreach a hact
  obtain ⟨before, hbefore⟩ : ∃ before, st2.w.heap[a]? = some before :=
    ⟨st2.w.heap[a], List.getElem?_eq_getElem hlt⟩
  refine ⟨hthere, hnext, before, _, hbefore, modifyAt_same _ a _ before hbefore, ?_⟩
  cases positive with
  | true =>
    simp only [if_true]
    exact ⟨mem_addToSet _ _, rfl⟩
  | false =>
    simp only [Bool.false_eq_true, if_false]
    exact ⟨mem_addToSet _ _, rfl⟩

theorem preference_names_ignore_case_witness :
    (str "QUIET").map tolower = (str "Quiet").map tolower ∧
      loadBody (str "q.txt")
          ⟨⟨str "\npreference+ \"QUIET\"", false⟩, [],
            { oneActivityWorld with preferences := [⟨str "quiet"⟩] }⟩ =
        .next ⟨⟨[], false⟩, [],
          { oneActivityWorld with
            preferences := [⟨str "quiet"⟩]
            heap := [{ Activity.new (str "A") with positive := [⟨str "quiet"⟩] }] }⟩ [] :=
  ⟨by decide,
    (preference_names_ignore_case.1 (str "q.txt") quietFile emptyWorld
      ⟨⟨str "\nadd_preference \"Quiet\"\npreference+ \"QUIET\"", false⟩, [], oneActivityWorld⟩
      ⟨⟨str "\npreference+ \"QUIET\"", false⟩, [],
        { oneActivityWorld with preferences := [⟨str "quiet"⟩] }⟩
      ⟨⟨str "\npreference+ \"QUIET\"", false⟩, [],
        { oneActivityWorld with preferences := [⟨str "quiet"⟩] }⟩
      [] [0x0A] [] (str "Quiet") (str "\npreference+ \"QUIET\"") [0x0A] [] (str "QUIET") [] true 0
      (Reaches.later _
        ⟨⟨str "\nactivity \"A\"\nadd_preference \"Quiet\"\npreference+ \"QUIET\"", false⟩, [],
          { emptyWorld with m_CurrentLocation := some ⟨str "L", []⟩ }⟩
        _ [] (by decide) (Reaches.later _ _ _ [] (by decide) (Reaches.here _)))
      (by decide) (by decide) (by decide) (by decide) (by decide)
      (Reaches.here _) (by decide) (by decide) (by decide) (by decide) (by decide)
      (by decide)).2.1⟩

/-- Claim C1: a file made of one `location "name"` directive, placed first, followed by
`activity` and `preference+`/`preference-` directives written `keyword "argument"` (arguments
free of quote, CR and LF, only non-letters between the directives and after the last one),
every preference directive coming after at least one activity directive, makes `Load` return
true and append exactly one location to the location manager: its name is the argument of the
`location` directive, its activities are the objects allocated by this call, and their names
are the arguments of the `activity` directives in file order. -/
theorem well_formed_file_loads (path lead name : Str) (ds : List (Str × Directive))
    (trail : Str) (w : World)
    (hlead : isFiller lead) (hname : isArgument name) (hds : wellFormed ds)
    (horder : preferencesFollowActivity ds) (htrail : isFiller trail) :
    ∃ w' console, Load path (some (locationFile lead name ds trail)) w =
        some (true, w', console) ∧
      w'.locations = w.locations ++
        [⟨name, List.range' w.heap.length (activityNames ds).length⟩] ∧
      (List.range' w.heap.length (activityNames ds).length).map
          (fun a => (w'.heap[a]?).map Activity.name) = (activityNames ds).map some := by
  have hstep := step_location path lead [] name (renderAll ds ++ trail)
    { w with m_CurrentLocation := none, m_CurrentActivity := none } hlead (by decide) hname rfl
  obtain ⟨w', console, hrun, hlocs, hheap⟩ := loadRun_directives path trail htrail ds
    { w with m_CurrentLocation := some ⟨name, []⟩, m_CurrentActivity := none } ⟨name, []⟩ hds rfl
    (Or.inr horder)
  refine ⟨w', [] ++ console, ?_, ?_, ?_⟩
  · rw [Load_eq_loadRun]
    simp only [loadStart, locationFile]
    rw [loadRun_next path _ _ _ rfl hstep, hrun]
    rfl
  · rw [hlocs]
    simp
  · exact names_at_new_addresses w'.heap (activityNames ds) (w.heap.map Activity.name)
      |> fun h => by simpa using h (by simpa using hheap)

theorem well_formed_file_loads_witness :
    activityNames lakeDirectives = [str "Swim", str "Row"] ∧
      ∃ w' console,
        Load (str "lake.txt") (some (locationFile [] (str "Lake") lakeDirectives [0x0A]))
            staleWorld = some (true, w', console) ∧
          w'.locations = staleWorld.locations ++
            [⟨str "Lake", List.range' staleWorld.heap.length (activityNames lakeDirectives).length⟩] ∧
          (List.range' staleWorld.heap.length (activityNames lakeDirectives).length).map
              (fun a => (w'.heap[a]?).map Activity.name) =
            (activityNames lakeDirectives).map some :=
  ⟨by decide,
    well_formed_file_loads (str "lake.txt") [] (str "Lake") lakeDirectives [0x0A] staleWorld
      (by decide) (by decide) (by unfold wellFormed; decide)
      (follows_of_activity_first _ _ _) (by decide)⟩

/-! ## Claims C11 to C20 -/

/-- A handler call on input on which `ParseString` fails sets a fatal message, whatever the
keyword. -/
theorem HandleKeyword_of_string_error (kw input : Str) (w : World) (file : IfStream) (m : Str)
    (hps : ParseString ⟨input, false⟩ [] = ([], file, m)) (herr : isStringError m) :
    firstChar (HandleKeyword kw ⟨input, false⟩ [] w).2.1 ≠ 0x7E ∧
      (HandleKeyword kw ⟨input, false⟩ [] w).2.1 ≠ [] := by
  have hm := isStringError_fatal m herr
  rcases keyword_cases kw with rfl | rfl | rfl | rfl | rfl | rfl | ⟨h1, h2, h3, h4, h5, h6⟩
  · rw [HandleKeyword_location _ _ _ _ _ _ hps]
    simp only [if_neg hm.2]
    split_ifs
    · dsimp only
      exact ⟨by decide, by decide⟩
    · exact hm
  · rw [HandleKeyword_activity _ _ _ _ _ _ hps]
    simp only [if_neg hm.2]
    split
    · dsimp only
      exact ⟨by decide, by decide⟩
    · exact hm
  · rw [HandleKeyword_positive _ _ _ _ _ _ hps]
    simp only [if_neg hm.2]
    split
    · dsimp only
      exact ⟨by decide, by decide⟩
    · exact hm
  · rw [HandleKeyword_negative _ _ _ _ _ _ hps]
    simp only [if_neg hm.2]
    split
    · dsimp only
      exact ⟨by decide, by decide⟩
    · exact hm
  · rw [HandleKeyword_add _ _ _ _ _ _ hps, if_neg hm.2]
    exact hm
  · rw [HandleKeyword_name _ _ _ _ _ _ hps, if_neg hm.2]
    exact hm
  · rw [HandleKeyword_other _ _ _ _ h1 h2 h3 h4 h5 h6, unrecognized_head]
    exact ⟨by simp [firstChar], by simp⟩

/-- The iteration that finds a keyword at the cursor whose handler sets a fatal message. -/
theorem loadBody_fatal (path filler kw rest : Str) (w : World) (hf : isFiller filler)
    (hk : isToken kw)
    (hm : firstChar (HandleKeyword kw ⟨rest, false⟩ [] w).2.1 ≠ 0x7E ∧
      (HandleKeyword kw ⟨rest, false⟩ [] w).2.1 ≠ []) :
    loadBody path ⟨⟨filler ++ kw ++ 0x20 :: rest, false⟩, [], w⟩ =
      .exit false (HandleKeyword kw ⟨rest, false⟩ [] w).2.2
        [.error (errorOutput path ++ (HandleKeyword kw ⟨rest, false⟩ [] w).2.1)] := by
  rw [loadBody_keyword path _ w kw _ (ParseKeyword_token filler kw rest [] hf hk)]
  simp only [if_neg hm.1, if_pos hm.2]

/-- Claim C11: end-of-input met by the keyword scan ends the load with success. On an input
without any ASCII letter (the empty input included) `Load` returns true and leaves the world
it was called with, both static members reset: no location is registered, no registry
changes. When the loop comes to a state after which only non-letters are left, `Load` returns
true from the success path at that state. End-of-input met anywhere else makes `Load` return
false: inside a keyword, before the opening quote of an argument, or inside a string. -/
theorem end_of_input_ends_load :
    (∀ (path bytes : Str) (w : World), isFiller bytes →
      Load path (some bytes) w =
        some (true, { w with m_CurrentLocation := none, m_CurrentActivity := none },
          [.message (str "File " ++ path ++ str " loaded successfully")])) ∧
    (∀ (path bytes : Str) (w : World) (st : LoopState),
      Reaches path (loadStart bytes w) st → isFiller st.file.rest →
      ∃ console, Load path (some bytes) w =
        some (true,
          (match st.w.m_CurrentLocation with
            | some l => { st.w with locations := AddLocation st.w.locations l }
            | none => st.w), console)) ∧
    (∀ (path bytes : Str) (w : World) (st : LoopState) (filler : Str) (c : Nat) (run : Str),
      Reaches path (loadStart bytes w) st → st.file.rest = filler ++ c :: run →
      isFiller filler → IsAlphanumeric c = true → (∀ x ∈ run, inKeyword x = true) →
      ∃ console, Load path (some bytes) w = some (false, st.w, console)) ∧
    (∀ (path bytes : Str) (w : World) (st : LoopState) (filler kw gap : Str),
      Reaches path (loadStart bytes w) st → st.file.rest = filler ++ kw ++ 0x20 :: gap →
      isFiller filler → isToken kw → isGap gap →
      ∃ w' console, Load path (some bytes) w = some (false, w', console)) ∧
    (∀ (path bytes : Str) (w : World) (st : LoopState) (filler kw gap run : Str),
      Reaches path (loadStart bytes w) st →
      st.file.rest = filler ++ kw ++ 0x20 :: (gap ++ 0x22 :: run) →
      isFiller filler → isToken kw → isGap gap → isArgument run →
      ∃ w' console, Load path (some bytes) w = some (false, w', console)) := by
  refine ⟨?_, ?_, ?_, ?_, ?_⟩
  · intro path bytes w hb
    rw [Load_eq_loadRun]
    exact loadRun_exit path _ true _ _ (by rw [loadStart, loadBody_eof path bytes _ hb]; rfl)
  · intro path bytes w st hreach hrest
    have hs := Reaches.state_shape path bytes w st _ hreach rfl
    have hexit : loadBody path st = loadEnd path st.w := by
      rw [hs]; exact loadBody_eof path _ _ hrest
    exact Load_of_exit path bytes w st true _ _ hreach hexit
  · intro path bytes w st filler c run hreach hfile hf hc hrun
    have hs := Reaches.state_shape path bytes w st _ hreach hfile
    have hexit : loadBody path st = .exit false st.w
        [.error (errorOutput path ++ (str "Keyword (" ++ (c :: run) ++ str ") is incomplete"))] := by
      rw [hs]
      unfold loadBody
      simp only [Bool.false_eq_true, if_false, ParseKeyword_unended filler c run [] hf hc hrun]
      rw [if_neg (keyword_incomplete_ne_EOF _), keyword_incomplete_head,
        if_neg (by simp [firstChar]), if_pos (by simp)]
    exact Load_of_exit path bytes w st false st.w _ hreach hexit
  · intro path bytes w st filler kw gap hreach hfile hf hk hg
    have hs := Reaches.state_shape path bytes w st _ hreach hfile
    have hm := HandleKeyword_of_string_error kw gap st.w _ _ (ParseString_eof gap [] hg)
      (Or.inl rfl)
    have hexit := loadBody_fatal path filler kw gap st.w hf hk hm
    rw [← hs] at hexit
    exact ⟨_, Load_of_exit path bytes w st false _ _ hreach hexit⟩
  · intro path bytes w st filler kw gap run hreach hfile hf hk hg hrun
    have hs := Reaches.state_shape path bytes w st _ hreach hfile
    have hm := HandleKeyword_of_string_error kw (gap ++ 0x22 :: run) st.w _ _
      (ParseString_unended gap run [] hg hrun) (Or.inr (Or.inr rfl))
    have hexit := loadBody_fatal path filler kw (gap ++ 0x22 :: run) st.w hf hk hm
    rw [← hs] at hexit
    exact ⟨_, Load_of_exit path bytes w st false _ _ hreach hexit⟩

theorem end_of_input_ends_load_witness :
    isFiller (str "# 2024-05-01 \n\n") ∧
      Load (str "p.txt") (some (str "# 2024-05-01 \n\n")) staleWorld =
        some (true, { staleWorld with m_CurrentLocation := none, m_CurrentActivity := none },
          [.message (str "File " ++ str "p.txt" ++ str " loaded successfully")]) ∧
      (∃ w' console, Load (str "p.txt") (some (str "name \"Bob")) emptyWorld =
        some (false, w', console)) :=
  ⟨by decide,
    end_of_input_ends_load.1 (str "p.txt") (str "# 2024-05-01 \n\n") staleWorld (by decide),
    end_of_input_ends_load.2.2.2.2 (str "p.txt") (str "name \"Bob") emptyWorld
      (loadStart (str "name \"Bob") emptyWorld) [] (str "name") [] (str "Bob")
      (Reaches.here _) (by decide) (by decide) (by decide) (by decide) (by decide)⟩

/-- Claim C12: for a keyword that is not, byte for byte, one of the six recognized keywords,
`HandleKeyword` sets the fatal message "Keyword (...) not recognized" (not empty, not
beginning with `~`), returns the stream as it got it and leaves the world as it was; and when
the loop of `Load` comes to such a keyword token, `Load` returns false. -/
theorem unknown_keyword_rejected (path bytes : Str) (w : World) (st : LoopState)
    (filler kw rest : Str)
    (hreach : Reaches path (loadStart bytes w) st)
    (hfile : st.file.rest = filler ++ kw ++ 0x20 :: rest)
    (hfiller : isFiller filler) (htoken : isToken kw) (hkw : kw ∉ recognized) :
    (∀ (file : IfStream) (em : Str) (v : World), HandleKeyword kw file em v =
      (file, str "Keyword (" ++ kw ++ str ") not recognized", v)) ∧
    firstChar (str "Keyword (" ++ kw ++ str ") not recognized") ≠ 0x7E ∧
    str "Keyword (" ++ kw ++ str ") not recognized" ≠ [] ∧
    loadBody path st = .exit false st.w
      [.error (errorOutput path ++ (str "Keyword (" ++ kw ++ str ") not recognized"))] ∧
    ∃ console, Load path (some bytes) w = some (false, st.w, console) := by
  simp only [recognized, List.mem_cons, List.mem_singleton, List.not_mem_nil, or_false,
    not_or] at hkw
  obtain ⟨h1, h2, h3, h4, h5, h6⟩ := hkw
  have hh : ∀ (file : IfStream) (em : Str) (v : World), HandleKeyword kw file em v =
      (file, str "Keyword (" ++ kw ++ str ") not recognized", v) :=
    fun file em v => HandleKeyword_other kw file em v h1 h2 h3 h4 h5 h6
  have hm : firstChar (str "Keyword (" ++ kw ++ str ") not recognized") ≠ 0x7E ∧
      str "Keyword (" ++ kw ++ str ") not recognized" ≠ [] := by
    rw [unrecognized_head]
    exact ⟨by simp [firstChar], by simp⟩
  have hs := Reaches.state_shape path bytes w st _ hreach hfile
  have hexit : loadBody path st = .exit false st.w
      [.error (errorOutput path ++ (str "Keyword (" ++ kw ++ str ") not recognized"))] := by
    rw [hs]
    exact loadBody_rejected path filler kw rest st.w _ hfiller htoken hm (hh _ _ _)
  exact ⟨hh, hm.1, hm.2, hexit, Load_of_exit path bytes w st false st.w _ hreach hexit⟩

theorem unknown_keyword_rejected_witness :
    (str "Location" ∉ recognized ∧ str "preference" ∉ recognized ∧ str "name:" ∉ recognized) ∧
      (∃ console, Load (str "p.txt") (some (str "Location \"Park\"")) emptyWorld =
        some (false, emptyWorld, console)) ∧
      (∃ console, Load (str "p.txt") (some (str "preference \"sun\"")) emptyWorld =
        some (false, emptyWorld, console)) ∧
      (∃ console, Load (str "p.txt") (some (str "name: \"Bob\"")) emptyWorld =
        some (false, emptyWorld, console)) :=
  ⟨by decide,
    (unknown_keyword_rejected (str "p.txt") (str "Location \"Park\"") emptyWorld
      (loadStart (str "Location \"Park\"") emptyWorld) [] (str "Location") (str "\"Park\"")
      (Reaches.here _) (by decide) (by decide) (by decide) (by decide)).2.2.2.2,
    (unknown_keyword_rejected (str "p.txt") (str "preference \"sun\"") emptyWorld
      (loadStart (str "preference \"sun\"") emptyWorld) [] (str "preference") (str "\"sun\"")
      (Reaches.here _) (by decide) (by decide) (by decide) (by decide)).2.2.2.2,
    (unknown_keyword_rejected (str "p.txt") (str "name: \"Bob\"") emptyWorld
      (loadStart (str "name: \"Bob\"") emptyWorld) [] (str "name:") (str "\"Bob\"")
      (Reaches.here _) (by decide) (by decide) (by decide) (by decide)).2.2.2.2⟩

/-- Claim C20: `Load` is not atomic for the preference and client registries. On `brokenFile`
it returns false at the third directive, after `add_preference "sun"` and `name "Bob"` have
inserted their entries, and both entries are in the world it leaves; a second `Load`, in that
world, of a file that starts with the same `add_preference` directive returns false at that
directive with "Preference (sun) defined more than once". -/
theorem failed_load_keeps_registry_entries :
    Load (str "p.txt") (some brokenFile) emptyWorld =
      some (false, { emptyWorld with preferences := [⟨str "sun"⟩], names := [str "Bob"] },
        [.error (errorOutput (str "p.txt") ++ str "Keyword (bogus) not recognized")]) ∧
    Load (str "q.txt") (some retryFile)
        { emptyWorld with preferences := [⟨str "sun"⟩], names := [str "Bob"] } =
      some (false, { emptyWorld with preferences := [⟨str "sun"⟩], names := [str "Bob"] },
        [.error (errorOutput (str "q.txt") ++
          str "Preference (sun) defined more than once")]) ∧
    Load (str "q.txt") (some retryFile) emptyWorld =
      some (true,
        { emptyWorld with
          preferences := [⟨str "sun"⟩]
          m_CurrentLocation := some ⟨str "Park", []⟩
          locations := [⟨str "Park", []⟩] },
        [.message (str "File q.txt loaded successfully")]) := by
  refine ⟨by decide, by decide, by decide⟩

/-- Every handler call keeps the invariant. -/
theorem HandleKeyword_keeps_invariant (kw : Str) (file : IfStream) (em : Str) (w : World)
    (h : currentActivityIsLast w) : currentActivityIsLast (HandleKeyword kw file em w).2.2 := by
  rcases hps : ParseString file em with ⟨text, file', em'⟩
  rcases keyword_cases kw with rfl | rfl | rfl | rfl | rfl | rfl | ⟨h1, h2, h3, h4, h5, h6⟩
  · rw [HandleKeyword_location _ _ _ _ _ _ hps]
    split_ifs with hloc hem
    · exact h
    · intro a ha
      simp only at ha
      obtain ⟨-, l, hl, -⟩ := h a ha
      rw [not_not] at hloc
      rw [hloc] at hl
      exact absurd hl (by simp)
    · exact h
  · rw [HandleKeyword_activity _ _ _ _ _ _ hps]
    split
    · exact h
    · split_ifs
      · intro a ha
        simp only [Option.some.injEq] at ha
        subst ha
        exact ⟨by simp, _, rfl, by simp [Location.AddActivity]⟩
      · exact h
  · rw [HandleKeyword_positive _ _ _ _ _ _ hps]
    split
    · exact h
    · split_ifs
      · split
        · intro a ha
          obtain ⟨hlt, hl⟩ := h a ha
          exact ⟨by simpa only [modifyAt_length] using hlt, hl⟩
        · exact h
      · exact h
  · rw [HandleKeyword_negative _ _ _ _ _ _ hps]
    split
    · exact h
    · split_ifs
      · split
        · intro a ha
          obtain ⟨hlt, hl⟩ := h a ha
          exact ⟨by simpa only [modifyAt_length] using hlt, hl⟩
        · exact h
      · exact h
  · rw [HandleKeyword_add _ _ _ _ _ _ hps]; split_ifs <;> exact h
  · rw [HandleKeyword_name _ _ _ _ _ _ hps]; split_ifs <;> exact h
  · rw [HandleKeyword_other _ _ _ _ h1 h2 h3 h4 h5 h6]; exact h

/-- No handler call allocates an activity while no current location exists. -/
theorem HandleKeyword_allocates_nothing (kw : Str) (file : IfStream) (em : Str) (w : World)
    (h : w.m_CurrentLocation = none) :
    (HandleKeyword kw file em w).2.2.heap.length = w.heap.length := by
  rcases hps : ParseString file em with ⟨text, file', em'⟩
  rcases keyword_cases kw with rfl | rfl | rfl | rfl | rfl | rfl | ⟨h1, h2, h3, h4, h5, h6⟩
  · rw [HandleKeyword_location _ _ _ _ _ _ hps]; split_ifs <;> rfl
  · rw [HandleKeyword_activity _ _ _ _ _ _ hps]
    simp only [h]
  · rw [HandleKeyword_positive _ _ _ _ _ _ hps]
    split
    · rfl
    · split_ifs
      · split
        · simp only [modifyAt_length]
        · rfl
      · rfl
  · rw [HandleKeyword_negative _ _ _ _ _ _ hps]
    split
    · rfl
    · split_ifs
      · split
        · simp only [modifyAt_length]
        · rfl
      · rfl
  · rw [HandleKeyword_add _ _ _ _ _ _ hps]; split_ifs <;> rfl
  · rw [HandleKeyword_name _ _ _ _ _ _ hps]; split_ifs <;> rfl
  · rw [HandleKeyword_other _ _ _ _ h1 h2 h3 h4 h5 h6]

/-- Claim C15: the invariant of the load loop. Every handler call keeps it: when a current
activity exists, it is an address of the heap, a current location exists and its activity
sequence ends with the current activity. It holds in every state the loop of `Load` comes
to, whatever world `Load` was called in. No handler call allocates an activity while no
current location exists. And a `preference+` or `preference-` directive that resolves its
name writes to the object at the end of the current location's activity sequence. -/
theorem current_activity_is_last :
    (∀ (kw : Str) (file : IfStream) (em : Str) (w : World),
      currentActivityIsLast w → currentActivityIsLast (HandleKeyword kw file em w).2.2) ∧
    (∀ (path bytes : Str) (w : World) (st : LoopState),
      Reaches path (loadStart bytes w) st → currentActivityIsLast st.w) ∧
    (∀ (kw : Str) (file : IfStream) (em : Str) (w : World), w.m_CurrentLocation = none →
      (HandleKeyword kw file em w).2.2.heap.length = w.heap.length) ∧
    (∀ (path bytes : Str) (w : World) (st : LoopState) (filler gap arg rest : Str)
      (positive : Bool) (a : Nat) (p : Preference),
      Reaches path (loadStart bytes w) st →
      st.file.rest =
        directive filler (if positive then str "preference+" else str "preference-") gap arg
          ++ rest →
      isFiller filler → isGap gap → isArgument arg →
      st.w.m_CurrentActivity = some a →
      GetPreferenceByName st.w.preferences (arg.map tolower) = some p →
      (∃ l, st.w.m_CurrentLocation = some l ∧ l.activities.getLast? = some a) ∧
        loadBody path st =
          .next ⟨⟨rest, false⟩, [],
            { st.w with
              heap := modifyAt (fun x =>
                if positive then x.AddPositivePreference p else x.AddNegativePreference p)
                a st.w.heap }⟩ []) := by
  have hreach : ∀ (path bytes : Str) (w : World) (st : LoopState),
      Reaches path (loadStart bytes w) st → currentActivityIsLast st.w := by
    intro path bytes w st h
    exact Reaches.invariant path currentActivityIsLast
      (fun kw file v hv => HandleKeyword_keeps_invariant kw file [] v hv) _ st h rfl
      (fun a ha => by simp [loadStart] at ha)
  refine ⟨HandleKeyword_keeps_invariant, hreach, HandleKeyword_allocates_nothing, ?_⟩
  intro path bytes w st filler gap arg rest positive a p hr hfile hf hg ha hact hp
  have hs := Reaches.state_shape path bytes w st _ hr hfile
  have hnext := step_preference_found path filler gap arg rest positive st.w a p hf hg ha hact hp
  rw [← hs] at hnext
  exact ⟨(hreach path bytes w st hr a hact).2, hnext⟩

theorem current_activity_is_last_witness :
    currentActivityIsLast
      { staleWorld with
        heap := staleWorld.heap ++ [Activity.new (str "A")]
        m_CurrentLocation := some ⟨str "L", [1]⟩
        m_CurrentActivity := some 1 } :=
  current_activity_is_last.2.1 (str "p.txt") (str "location \"L\"\nactivity \"A\"") staleWorld
    ⟨⟨[], false⟩, [],
      { staleWorld with
        heap := staleWorld.heap ++ [Activity.new (str "A")]
        m_CurrentLocation := some ⟨str "L", [1]⟩
        m_CurrentActivity := some 1 }⟩
    (Reaches.later _
      ⟨⟨str "\nactivity \"A\"", false⟩, [],
        { staleWorld with m_CurrentLocation := some ⟨str "L", []⟩, m_CurrentActivity := none }⟩
      _ [] (by decide) (Reaches.later _ _ _ [] (by decide) (Reaches.here _)))

theorem mem_addToSet_iff (q p : Preference) (set : List Preference) :
    q ∈ addToSet p set ↔ q = p ∨ q ∈ set := by
  unfold addToSet
  split_ifs with hmem
  · constructor
    · exact Or.inr
    · rintro (rfl | hq)
      · exact hmem
      · exact hq
  · simp [or_comm]

/-- Claim C16: a `preference+` or `preference-` handler call that succeeds (it sets no
message) had a current activity, and the string scan returned an argument without a message;
the resolved preference is what the registry returns for that argument in lower case, it bears
that name and is an entry of the registry, and when the input is a quoted argument after a
gap, the argument is the text between the quotes. The call leaves the stream where the string
scan left it, and the world it leaves differs from the world before only in the heap object of
the current activity. That object keeps its name and its hints; with `preference+` its positive
set gains the resolved preference and loses nothing while its negative set stays, and with
`preference-` the other way round. The current location (its name and its activity sequence),
every other activity and the three registries are as before. -/
theorem preference_directive_frame (positive : Bool) (input : Str) (w : World)
    (h : (HandleKeyword (if positive then str "preference+" else str "preference-")
      ⟨input, false⟩ [] w).2.1 = []) :
    ∃ a p text file, ParseString ⟨input, false⟩ [] = (text, file, []) ∧
      (∀ gap arg rest, isGap gap → isArgument arg →
        input = gap ++ 0x22 :: (arg ++ 0x22 :: rest) → text = arg ∧ file = ⟨rest, false⟩) ∧
      w.m_CurrentActivity = some a ∧
      GetPreferenceByName w.preferences (text.map tolower) = some p ∧
      p = ⟨text.map tolower⟩ ∧ p ∈ w.preferences ∧
      HandleKeyword (if positive then str "preference+" else str "preference-")
          ⟨input, false⟩ [] w =
        (file, [],
          { w with
            heap := modifyAt (fun x =>
              if positive then x.AddPositivePreference p else x.AddNegativePreference p)
              a w.heap }) ∧
      (∀ m, m ≠ a →
        (modifyAt (fun x =>
          if positive then x.AddPositivePreference p else x.AddNegativePreference p)
          a w.heap)[m]? = w.heap[m]?) ∧
      (∀ x, w.heap[a]? = some x →
        ∃ y, (modifyAt (fun x =>
            if positive then x.AddPositivePreference p else x.AddNegativePreference p)
            a w.heap)[a]? = some y ∧
          y.name = x.name ∧ y.positiveHints = x.positiveHints ∧
          y.negativeHints = x.negativeHints ∧
          if positive then
            (∀ q, q ∈ y.positive ↔ q = p ∨ q ∈ x.positive) ∧ y.negative = x.negative
          else
            (∀ q, q ∈ y.negative ↔ q = p ∨ q ∈ x.negative) ∧ y.positive = x.positive) := by
  rcases ParseString_cases input [] with
    ⟨file, m, hps, herr, -⟩ | ⟨consumed, text, cursor, hin, -, -, hps⟩
  · exact absurd h (HandleKeyword_of_string_error _ input w file m hps herr).2
  · subst hin
    have hps' := hps cursor []
    cases hact : w.m_CurrentActivity with
    | none =>
      exfalso
      cases positive with
      | true =>
        simp only [if_true] at h
        rw [HandleKeyword_positive _ _ _ _ _ _ hps'] at h
        simp only [hact] at h
        exact absurd h (by decide)
      | false =>
        simp only [Bool.false_eq_true, if_false] at h
        rw [HandleKeyword_negative _ _ _ _ _ _ hps'] at h
        simp only [hact] at h
        exact absurd h (by decide)
    | some a =>
      have hh : HandleKeyword (if positive then str "preference+" else str "preference-")
          ⟨consumed ++ cursor, false⟩ [] w =
          match GetPreferenceByName w.preferences (text.map tolower) with
          | some p =>
            (⟨cursor, false⟩, [],
              { w with
                heap := modifyAt (fun x =>
                  if positive then x.AddPositivePreference p else x.AddNegativePreference p)
                  a w.heap })
          | none =>
            (⟨cursor, false⟩,
              str "~Preference (" ++ text.map tolower ++ str ") is undefined", w) := by
        cases positive with
        | true =>
          simp only [if_true]
          rw [HandleKeyword_positive _ _ _ _ _ _ hps']
          simp only [hact, if_true]
        | false =>
          simp only [Bool.false_eq_true, if_false]
          rw [HandleKeyword_negative _ _ _ _ _ _ hps']
          simp only [hact, if_true]
      cases hp : GetPreferenceByName w.preferences (text.map tolower) with
      | none =>
        rw [hh, hp, undefined_head] at h
        simp at h
      | some p =>
        rw [hp] at hh
        refine ⟨a, p, text, ⟨cursor, false⟩, hps', ?_, rfl, hp,
          GetPreferenceByName_name _ _ _ hp, List.mem_of_find?_eq_some hp,
          by rw [hh]; simp [hact], ?_, ?_⟩
        · intro gap arg rest hg ha hshape
          have harg := ParseString_argument gap arg rest [] hg ha
          rw [← hshape, hps'] at harg
          simp only [Prod.mk.injEq] at harg
          exact ⟨harg.1, harg.2.1⟩
        · intro m hm
          exact modifyAt_other _ a m w.heap hm
        · intro x hx
          refine ⟨_, modifyAt_same _ a w.heap x hx, ?_⟩
          cases positive with
          | true =>
            simp only [if_true]
            exact ⟨rfl, rfl, rfl, fun q => mem_addToSet_iff q p x.positive, rfl⟩
          | false =>
            simp only [Bool.false_eq_true, if_false]
            exact ⟨rfl, rfl, rfl, fun q => mem_addToSet_iff q p x.negative, rfl⟩

theorem preference_directive_frame_witness :
    (HandleKeyword (if true then str "preference+" else str "preference-")
        ⟨str " \"LOUD\"\nname", false⟩ []
        { staleWorld with preferences := [⟨str "quiet"⟩, ⟨str "loud"⟩] }).2.1 = [] ∧
      HandleKeyword (if true then str "preference+" else str "preference-")
          ⟨str " \"LOUD\"\nname", false⟩ []
          { staleWorld with preferences := [⟨str "quiet"⟩, ⟨str "loud"⟩] } =
        (⟨str "\nname", false⟩, [],
          { staleWorld with
            preferences := [⟨str "quiet"⟩, ⟨str "loud"⟩]
            heap := [{ Activity.new (str "Swim") with positive := [⟨str "loud"⟩] }] }) :=
  ⟨by decide, by
    obtain ⟨a, p, text, file, -, hshape, ha, hget, -, -, heq, -, -⟩ :=
      preference_directive_frame true (str " \"LOUD\"\nname")
        { staleWorld with preferences := [⟨str "quiet"⟩, ⟨str "loud"⟩] } (by decide)
    obtain ⟨rfl, rfl⟩ := hshape [0x20] (str "LOUD") (str "\nname") (by decide) (by decide) rfl
    have ha' : some 0 = some a := ha
    have hp : some p = some (⟨str "loud"⟩ : Preference) := hget.symm.trans (by decide)
    cases ha'
    cases hp
    exact heq.trans (by decide)⟩

/-! ## The cursor only moves forward -/

theorem ParseKeyword_suffix (file : IfStream) (em : Str) :
    ∃ consumed, file.rest = consumed ++ (ParseKeyword file em).2.1.rest := by
  obtain ⟨input, eof⟩ := file
  cases eof with
  | true => exact ⟨[], by rw [ParseKeyword_at_eof]; rfl⟩
  | false =>
    rcases split_at_first (fun b => !IsAlphanumeric b) input with
      ⟨h1, -, -⟩ | ⟨pre, c, r, h1, h2, h3, -, -⟩
    · exact ⟨input, by
        rw [ParseKeyword_eof input em (fun x hx => by simpa using h1 x hx)]; simp⟩
    · have hpre : ∀ x ∈ pre, IsAlphanumeric x = false := fun x hx => by simpa using h2 x hx
      have hc : IsAlphanumeric c = true := by simpa using h3
      rcases split_at_first inKeyword r with ⟨g1, -, -⟩ | ⟨run, t, cursor, g1, g2, g3, -, -⟩
      · exact ⟨input, by rw [h1, ParseKeyword_unended pre c r em hpre hc g1]; simp⟩
      · refine ⟨pre ++ c :: (run ++ [t]), ?_⟩
        rw [h1, g1, ParseKeyword_ended pre c run t cursor em hpre hc g2 g3]
        split_ifs <;> simp

theorem ParseString_suffix (file : IfStream) (em : Str) :
    ∃ consumed, file.rest = consumed ++ (ParseString file em).2.1.rest := by
  obtain ⟨input, eof⟩ := file
  cases eof with
  | true => exact ⟨[], by rw [ParseString_at_eof]; rfl⟩
  | false =>
    rcases split_at_first (fun b => !IsAlphanumeric b && b != 0x22) input with
      ⟨h1, -, -⟩ | ⟨pre, c, r, h1, h2, h3, -, -⟩
    · exact ⟨input, by rw [ParseString_eof input em h1]; simp⟩
    · by_cases hc : IsAlphanumeric c = true
      · exact ⟨pre ++ [c], by rw [h1, ParseString_letter pre c r em h2 hc]; simp⟩
      · have hq : c = 0x22 := by
          simp only [Bool.not_eq_true] at hc
          simpa [hc] using h3
        subst hq
        rcases split_at_first inString r with ⟨g1, -, -⟩ | ⟨run, t, cursor, g1, g2, g3, -, -⟩
        · exact ⟨input, by rw [h1, ParseString_unended pre r em h2 g1]; simp⟩
        · refine ⟨pre ++ 0x22 :: (run ++ [t]), ?_⟩
          rw [h1, g1, ParseString_ended pre run t cursor em h2 g2 g3]
          split_ifs <;> simp

theorem HandleKeyword_suffix (kw : Str) (file : IfStream) (em : Str) (w : World) :
    ∃ consumed, file.rest = consumed ++ (HandleKeyword kw file em w).1.rest := by
  have hself : ∃ consumed, file.rest = consumed ++ file.rest := ⟨[], rfl⟩
  rcases hps : ParseString file em with ⟨text, file', em'⟩
  have hparse : ∃ consumed, file.rest = consumed ++ file'.rest := by
    have := ParseString_suffix file em
    rw [hps] at this
    exact this
  rcases keyword_cases kw with rfl | rfl | rfl | rfl | rfl | rfl | ⟨h1, h2, h3, h4, h5, h6⟩
  · rw [HandleKeyword_location _ _ _ _ _ _ hps]
    split_ifs <;> first | exact hself | exact hparse
  · rw [HandleKeyword_activity _ _ _ _ _ _ hps]
    split
    · exact hself
    · split_ifs <;> exact hparse
  · rw [HandleKeyword_positive _ _ _ _ _ _ hps]
    split
    · exact hself
    · split_ifs
      · split <;> exact hparse
      · exact hparse
  · rw [HandleKeyword_negative _ _ _ _ _ _ hps]
    split
    · exact hself
    · split_ifs
      · split <;> exact hparse
      · exact hparse
  · rw [HandleKeyword_add _ _ _ _ _ _ hps]; split_ifs <;> exact hparse
  · rw [HandleKeyword_name _ _ _ _ _ _ hps]; split_ifs <;> exact hparse
  · rw [HandleKeyword_other _ _ _ _ h1 h2 h3 h4 h5 h6]; exact hself

/-- An iteration after which the loop goes on has extracted at least one byte, whatever
message the iteration started with. -/
theorem loadBody_consumes (path : Str) (st st' : LoopState) (console : List ConsoleLine)
    (h : loadBody path st = .next st' console) :
    st'.file.rest.length < st.file.rest.length := by
  obtain ⟨⟨input, eof⟩, em, w⟩ := st
  cases eof with
  | true => simp [loadBody, loadEnd] at h
  | false =>
    rcases ParseKeyword_cases input em with
      hk | ⟨file, kw, hk⟩ | ⟨consumed, kw, cursor, hin, hne, -, hk⟩
    · unfold loadBody at h
      simp only [Bool.false_eq_true, if_false, hk, if_true] at h
      simp [loadEnd] at h
    · unfold loadBody at h
      simp only [Bool.false_eq_true, if_false, hk] at h
      rw [if_neg (keyword_incomplete_ne_EOF kw), keyword_incomplete_head,
        if_neg (by simp [firstChar]), if_pos (by simp)] at h
      simp at h
    · subst hin
      have hpos : 0 < consumed.length := List.length_pos.2 hne
      have hlen : ∀ m, (HandleKeyword kw ⟨cursor, false⟩ m w).1.rest.length <
          (consumed ++ cursor).length := by
        intro m
        obtain ⟨c2, hc2⟩ := HandleKeyword_suffix kw ⟨cursor, false⟩ m w
        have : cursor.length =
            c2.length + (HandleKeyword kw ⟨cursor, false⟩ m w).1.rest.length := by
          have := congrArg List.length hc2
          simpa using this
        simp only [List.length_append]
        omega
      unfold loadBody at h
      simp only [Bool.false_eq_true, if_false, hk cursor em] at h
      split_ifs at h
      · simp [loadEnd] at h
      all_goals
        injection h with h _
        rw [← h]
        first | exact hlen [] | exact hlen em

/-- Claim C17: `Load` terminates on every input: run for one iteration more than the file has
bytes, its loop reaches a `return`, and more iterations allowed do not change what it
returns. Every iteration after which the loop goes on has extracted at least one byte, and
`ParseKeyword`, `ParseString` and `HandleKeyword` leave a stream whose remaining bytes are a
suffix of the bytes they found: no scan moves the cursor backward. -/
theorem load_terminates :
    (∀ (path : Str) (contents : Option Str) (w : World), ∃ r, Load path contents w = some r) ∧
    (∀ (path bytes : Str) (w : World) (fuel : Nat), bytes.length + 1 ≤ fuel →
      loadLoop path fuel (loadStart bytes w) = Load path (some bytes) w) ∧
    (∀ (path : Str) (st st' : LoopState) (console : List ConsoleLine),
      loadBody path st = .next st' console → st'.file.rest.length < st.file.rest.length) ∧
    (∀ (file : IfStream) (em : Str),
      ∃ consumed, file.rest = consumed ++ (ParseKeyword file em).2.1.rest) ∧
    (∀ (file : IfStream) (em : Str),
      ∃ consumed, file.rest = consumed ++ (ParseString file em).2.1.rest) ∧
    (∀ (kw : Str) (file : IfStream) (em : Str) (w : World),
      ∃ consumed, file.rest = consumed ++ (HandleKeyword kw file em w).1.rest) := by
  refine ⟨?_, ?_, loadBody_consumes, ParseKeyword_suffix, ParseString_suffix,
    HandleKeyword_suffix⟩
  · intro path contents w
    cases contents with
    | none => exact ⟨_, rfl⟩
    | some bytes =>
      rw [Load_eq_loadRun]
      exact loadRun_some path _ rfl
  · intro path bytes w fuel hfuel
    obtain ⟨r, hr⟩ := loadRun_some path (loadStart bytes w) rfl
    rw [Load_eq_loadRun, hr]
    exact loadLoop_stable path _ _ r hr fuel hfuel

theorem load_terminates_witness :
    (str "location \"Park\"").length + 1 ≤ 100 ∧
      loadLoop (str "p.txt") 100 (loadStart (str "location \"Park\"") emptyWorld) =
        Load (str "p.txt") (some (str "location \"Park\"")) emptyWorld :=
  ⟨by decide,
    load_terminates.2.1 (str "p.txt") (str "location \"Park\"") emptyWorld 100 (by decide)⟩

/-- Claim C14: the constructor of `Pairing` stores the activity, the preference and the
polarity it is given, and its body makes exactly one call: with the two methods recording
their calls, the calls made are the one call of `UnlockPositiveHint` on that activity with that
preference when the polarity is positive, and the one call of `UnlockNegativeHint` on that
activity with that preference otherwise; whatever the two methods do, the state after the
constructor is the state after that one call. With the methods as the specification
describes them, the heap keeps its size, every other activity is as before, and the activity
keeps its name and both preference sets; the hints of the given polarity gain the preference
and nothing else, and the hints of the other polarity stay as they were. -/
theorem pairing_unlocks_one_hint (activity : Nat) (preference : Preference)
    (isPositive : Bool) (heap : List Activity) :
    (∀ (up un : Nat → Preference → List Activity → List Activity),
      (Pairing.new up un activity preference isPositive heap).1 =
          ⟨activity, preference, isPositive⟩ ∧
        (Pairing.new up un activity preference isPositive heap).2 =
          if isPositive then up activity preference heap else un activity preference heap) ∧
    (∀ calls : List HintCall,
      (Pairing.new recordPositiveHint recordNegativeHint activity preference isPositive
          calls).1 = ⟨activity, preference, isPositive⟩ ∧
        (Pairing.new recordPositiveHint recordNegativeHint activity preference isPositive
          calls).2 =
          calls ++ [if isPositive then HintCall.UnlockPositiveHint activity preference
            else HintCall.UnlockNegativeHint activity preference]) ∧
    (Pairing.new UnlockPositiveHint UnlockNegativeHint activity preference isPositive
      heap).2.length = heap.length ∧
    (∀ m, m ≠ activity →
      (Pairing.new UnlockPositiveHint UnlockNegativeHint activity preference isPositive
        heap).2[m]? = heap[m]?) ∧
    (∀ x, heap[activity]? = some x →
      ∃ y, (Pairing.new UnlockPositiveHint UnlockNegativeHint activity preference isPositive
          heap).2[activity]? = some y ∧
        y.name = x.name ∧ y.positive = x.positive ∧ y.negative = x.negative ∧
        if isPositive then
          (∀ q, q ∈ y.positiveHints ↔ q = preference ∨ q ∈ x.positiveHints) ∧
            y.negativeHints = x.negativeHints
        else
          (∀ q, q ∈ y.negativeHints ↔ q = preference ∨ q ∈ x.negativeHints) ∧
            y.positiveHints = x.positiveHints) := by
  refine ⟨fun up un => ⟨rfl, rfl⟩, fun calls => ⟨rfl, ?_⟩, ?_, ?_, ?_⟩
  · cases isPositive <;> rfl
  · cases isPositive <;>
      simp [Pairing.new, UnlockPositiveHint, UnlockNegativeHint, modifyAt_length]
  · intro m hm
    cases isPositive <;>
      simp [Pairing.new, UnlockPositiveHint, UnlockNegativeHint, modifyAt_other _ _ _ _ hm]
  · intro x hx
    cases isPositive with
    | true =>
      refine ⟨{ x with positiveHints := addToSet preference x.positiveHints }, by
        simp only [Pairing.new, if_true, UnlockPositiveHint]
        exact modifyAt_same _ activity heap x hx, rfl, rfl, rfl, ?_⟩
      simp only [if_true]
      exact ⟨fun q => mem_addToSet_iff q preference x.positiveHints, trivial⟩
    | false =>
      refine ⟨{ x with negativeHints := addToSet preference x.negativeHints }, by
        simp only [Pairing.new, Bool.false_eq_true, if_false, UnlockNegativeHint]
        exact modifyAt_same _ activity heap x hx, rfl, rfl, rfl, ?_⟩
      simp only [Bool.false_eq_true, if_false]
      exact ⟨fun q => mem_addToSet_iff q preference x.negativeHints, trivial⟩

theorem pairing_unlocks_one_hint_witness :
    (∃ y, (Pairing.new UnlockPositiveHint UnlockNegativeHint 0 ⟨str "quiet"⟩ false
          [Activity.new (str "Swim"), Activity.new (str "Row")]).2[0]? = some y ∧
        y.name = str "Swim" ∧ y.positive = [] ∧ y.negative = [] ∧
        (∀ q, q ∈ y.negativeHints ↔ q = ⟨str "quiet"⟩ ∨ q ∈ ([] : List Preference)) ∧
        y.positiveHints = []) ∧
      (Pairing.new UnlockPositiveHint UnlockNegativeHint 0 ⟨str "quiet"⟩ false
          [Activity.new (str "Swim"), Activity.new (str "Row")]).2[1]? =
        some (Activity.new (str "Row")) ∧
      (Pairing.new UnlockPositiveHint UnlockNegativeHint 0 ⟨str "quiet"⟩ false
          [Activity.new (str "Swim"), Activity.new (str "Row")]).2.length = 2 ∧
      (Pairing.new recordPositiveHint recordNegativeHint 0 ⟨str "quiet"⟩ false []).2 =
        [HintCall.UnlockNegativeHint 0 ⟨str "quiet"⟩] :=
  ⟨(pairing_unlocks_one_hint 0 ⟨str "quiet"⟩ false
      [Activity.new (str "Swim"), Activity.new (str "Row")]).2.2.2.2
      (Activity.new (str "Swim")) rfl,
    (pairing_unlocks_one_hint 0 ⟨str "quiet"⟩ false
      [Activity.new (str "Swim"), Activity.new (str "Row")]).2.2.2.1 1 (by decide),
    (pairing_unlocks_one_hint 0 ⟨str "quiet"⟩ false
      [Activity.new (str "Swim"), Activity.new (str "Row")]).2.2.1,
    ((pairing_unlocks_one_hint 0 ⟨str "quiet"⟩ false
      [Activity.new (str "Swim"), Activity.new (str "Row")]).2.1 []).2⟩

/-! ## Filler -/

/-- Non-letters before the input do not change what `ParseKeyword` returns and leaves. -/
theorem ParseKeyword_skip_filler (filler input em : Str) (hf : isFiller filler) :
    ParseKeyword ⟨filler ++ input, false⟩ em = ParseKeyword ⟨input, false⟩ em := by
  rcases split_at_first (fun b => !IsAlphanumeric b) input with
    ⟨h1, -, -⟩ | ⟨pre, c, r, h1, h2, h3, -, -⟩
  · have hi : ∀ x ∈ input, IsAlphanumeric x = false := fun x hx => by simpa using h1 x hx
    rw [ParseKeyword_eof input em hi, ParseKeyword_eof (filler ++ input) em]
    intro x hx
    rcases List.mem_append.1 hx with hx | hx
    · exact hf x hx
    · exact hi x hx
  · have hpre : ∀ x ∈ pre, IsAlphanumeric x = false := fun x hx => by simpa using h2 x hx
    have hpre' : ∀ x ∈ filler ++ pre, IsAlphanumeric x = false := by
      intro x hx
      rcases List.mem_append.1 hx with hx | hx
      · exact hf x hx
      · exact hpre x hx
    have hc : IsAlphanumeric c = true := by simpa using h3
    have happ : filler ++ input = (filler ++ pre) ++ c :: r := by simp [h1]
    rcases split_at_first inKeyword r with ⟨g1, -, -⟩ | ⟨run, t, cursor, g1, g2, g3, -, -⟩
    · rw [happ, ParseKeyword_unended (filler ++ pre) c r em hpre' hc g1, h1,
        ParseKeyword_unended pre c r em hpre hc g1]
    · rw [happ, g1, ParseKeyword_ended (filler ++ pre) c run t cursor em hpre' hc g2 g3, h1,
        g1, ParseKeyword_ended pre c run t cursor em hpre hc g2 g3]

/-- Bytes that are neither letters nor quotes before the input do not change what
`ParseString` returns and leaves. -/
theorem ParseString_skip_gap (gap input em : Str) (hg : isGap gap) :
    ParseString ⟨gap ++ input, false⟩ em = ParseString ⟨input, false⟩ em := by
  rcases split_at_first (fun b => !IsAlphanumeric b && b != 0x22) input with
    ⟨h1, -, -⟩ | ⟨pre, c, r, h1, h2, h3, -, -⟩
  · rw [ParseString_eof input em h1, ParseString_eof (gap ++ input) em]
    intro x hx
    rcases List.mem_append.1 hx with hx | hx
    · exact hg x hx
    · exact h1 x hx
  · have hpre' : ∀ x ∈ gap ++ pre, (!IsAlphanumeric x && x != 0x22) = true := by
      intro x hx
      rcases List.mem_append.1 hx with hx | hx
      · exact hg x hx
      · exact h2 x hx
    have happ : gap ++ input = (gap ++ pre) ++ c :: r := by simp [h1]
    by_cases hc : IsAlphanumeric c = true
    · rw [happ, ParseString_letter (gap ++ pre) c r em hpre' hc, h1,
        ParseString_letter pre c r em h2 hc]
    · have hq : c = 0x22 := by
        simp only [Bool.not_eq_true] at hc
        simpa [hc] using h3
      subst hq
      rcases split_at_first inString r with ⟨g1, -, -⟩ | ⟨run, t, cursor, g1, g2, g3, -, -⟩
      · rw [happ, ParseString_unended (gap ++ pre) r em hpre' g1, h1,
          ParseString_unended pre r em h2 g1]
      · rw [happ, g1, ParseString_ended (gap ++ pre) run t cursor em hpre' g2 g3, h1, g1,
          ParseString_ended pre run t cursor em h2 g2 g3]

/-- Two streams on which `ParseString` does the same make every handler set the same message
and leave the same world, and the same stream unless the message is a fatal one. -/
theorem HandleKeyword_congr (kw : Str) (f1 f2 : IfStream) (w : World)
    (h : ParseString f1 [] = ParseString f2 []) :
    (HandleKeyword kw f1 [] w).2 = (HandleKeyword kw f2 [] w).2 ∧
      ((HandleKeyword kw f1 [] w).2.1 = [] ∨ firstChar (HandleKeyword kw f1 [] w).2.1 = 0x7E →
        (HandleKeyword kw f1 [] w).1 = (HandleKeyword kw f2 [] w).1) := by
  rcases hps : ParseString f2 [] with ⟨text, file', em'⟩
  rw [hps] at h
  rcases keyword_cases kw with rfl | rfl | rfl | rfl | rfl | rfl | ⟨h1, h2, h3, h4, h5, h6⟩
  · rw [HandleKeyword_location _ _ _ _ _ _ h, HandleKeyword_location _ _ _ _ _ _ hps]
    split_ifs
    · exact ⟨rfl, fun hm => by dsimp only at hm; exact absurd hm (by decide)⟩
    · exact ⟨rfl, fun _ => rfl⟩
    · exact ⟨rfl, fun _ => rfl⟩
  · rw [HandleKeyword_activity _ _ _ _ _ _ h, HandleKeyword_activity _ _ _ _ _ _ hps]
    split
    · exact ⟨rfl, fun hm => by dsimp only at hm; exact absurd hm (by decide)⟩
    · split_ifs <;> exact ⟨rfl, fun _ => rfl⟩
  · rw [HandleKeyword_positive _ _ _ _ _ _ h, HandleKeyword_positive _ _ _ _ _ _ hps]
    split
    · exact ⟨rfl, fun hm => by dsimp only at hm; exact absurd hm (by decide)⟩
    · split_ifs
      · split <;> exact ⟨rfl, fun _ => rfl⟩
      · exact ⟨rfl, fun _ => rfl⟩
  · rw [HandleKeyword_negative _ _ _ _ _ _ h, HandleKeyword_negative _ _ _ _ _ _ hps]
    split
    · exact ⟨rfl, fun hm => by dsimp only at hm; exact absurd hm (by decide)⟩
    · split_ifs
      · split <;> exact ⟨rfl, fun _ => rfl⟩
      · exact ⟨rfl, fun _ => rfl⟩
  · rw [HandleKeyword_add _ _ _ _ _ _ h, HandleKeyword_add _ _ _ _ _ _ hps]
    split_ifs <;> exact ⟨rfl, fun _ => rfl⟩
  · rw [HandleKeyword_name _ _ _ _ _ _ h, HandleKeyword_name _ _ _ _ _ _ hps]
    split_ifs <;> exact ⟨rfl, fun _ => rfl⟩
  · rw [HandleKeyword_other _ _ _ _ h1 h2 h3 h4 h5 h6,
      HandleKeyword_other _ _ _ _ h1 h2 h3 h4 h5 h6, unrecognized_head]
    exact ⟨rfl, fun hm => absurd hm (by simp [firstChar])⟩

/-- Non-letters before the input do not change the iteration. -/
theorem loadBody_skip_filler (path filler input em : Str) (w : World) (hf : isFiller filler) :
    loadBody path ⟨⟨filler ++ input, false⟩, em, w⟩ = loadBody path ⟨⟨input, false⟩, em, w⟩ := by
  unfold loadBody
  simp only [Bool.false_eq_true, if_false, ParseKeyword_skip_filler filler input em hf]

/-- The loop does the same from two states whose next iteration does the same. -/
theorem loadRun_congr (path : Str) (a b : LoopState) (ha : a.errorMessage = [])
    (hb : b.errorMessage = []) (h : loadBody path a = loadBody path b) :
    loadRun path a = loadRun path b := by
  cases hstep : loadBody path b with
  | exit result w console =>
    rw [loadRun_exit path b result w console hstep,
      loadRun_exit path a result w console (h.trans hstep)]
  | next st' console =>
    rw [loadRun_next path b st' console hb hstep,
      loadRun_next path a st' console ha (h.trans hstep)]

/-- Bytes that are neither letters nor quotes between the space after a keyword and what
follows do not change the iteration. -/
theorem loadBody_skip_gap (path filler kw gap input : Str) (w : World) (hf : isFiller filler)
    (hk : isToken kw) (hg : isGap gap) :
    loadBody path ⟨⟨filler ++ kw ++ 0x20 :: (gap ++ input), false⟩, [], w⟩ =
      loadBody path ⟨⟨filler ++ kw ++ 0x20 :: input, false⟩, [], w⟩ := by
  rw [loadBody_keyword path _ w kw _ (ParseKeyword_token filler kw (gap ++ input) [] hf hk),
    loadBody_keyword path _ w kw _ (ParseKeyword_token filler kw input [] hf hk)]
  obtain ⟨h1, h2⟩ := HandleKeyword_congr kw ⟨gap ++ input, false⟩ ⟨input, false⟩ w
    (ParseString_skip_gap gap input [] hg)
  have hm : (HandleKeyword kw ⟨gap ++ input, false⟩ [] w).2.1 =
      (HandleKeyword kw ⟨input, false⟩ [] w).2.1 := congrArg Prod.fst h1
  have hw : (HandleKeyword kw ⟨gap ++ input, false⟩ [] w).2.2 =
      (HandleKeyword kw ⟨input, false⟩ [] w).2.2 := congrArg Prod.snd h1
  rw [hm] at h2
  rw [hm, hw]
  split_ifs with c1 c2
  · rw [h2 (Or.inr c1)]
  · rfl
  · rw [h2 (Or.inl (not_not.1 c2))]

/-- What `Load` returns and leaves on a file does not change when the bytes after a state the
loop comes to are replaced by bytes from which the loop does the same. -/
theorem Load_outcome_of_tail (path pre tail tail' : Str) (w : World) (st : LoopState)
    (hreach : Reaches path (loadStart (pre ++ tail) w) st) (hrest : st.file.rest = tail)
    (h : loadBody path ⟨⟨tail', false⟩, [], st.w⟩ = loadBody path ⟨⟨tail, false⟩, [], st.w⟩) :
    outcome (Load path (some (pre ++ tail')) w) = outcome (Load path (some (pre ++ tail)) w) := by
  obtain ⟨consumed, hsplit, hother⟩ := Reaches.local path _ _ hreach rfl rfl
  rw [hrest] at hsplit
  have hpre : pre = consumed := List.append_cancel_right hsplit
  subst hpre
  have h1 : outcome (loadRun path (loadStart (pre ++ tail') w)) =
      outcome (loadRun path ⟨⟨tail', false⟩, [], st.w⟩) :=
    Reaches.outcome_eq path _ _ (hother tail') rfl
  have h2 : outcome (loadRun path (loadStart (pre ++ tail) w)) =
      outcome (loadRun path ⟨⟨tail, false⟩, [], st.w⟩) :=
    Reaches.outcome_eq path _ _ (hother tail) rfl
  rw [Load_eq_loadRun, Load_eq_loadRun, h1, h2, loadRun_congr path _ _ rfl rfl h]

/-- Claim C13, as it is stated, fails: the space is not a letter, position 3 of
`location "A"` is not between two quotes, and with a space inserted there `Load` returns false
and registers nothing, while on the file itself it returns true and registers the location. -/
theorem filler_inside_keyword_counterexample :
    IsAlphanumeric 0x20 = false ∧ betweenQuotes (str "location \"A\"") 3 = false ∧
      insertAt (str "location \"A\"") 3 0x20 = str "loc ation \"A\"" ∧
      outcome (Load (str "p.txt") (some (str "location \"A\"")) emptyWorld) =
        some (true,
          { emptyWorld with
            m_CurrentLocation := some ⟨str "A", []⟩
            locations := [⟨str "A", []⟩] }) ∧
      outcome (Load (str "p.txt") (some (insertAt (str "location \"A\"") 3 0x20)) emptyWorld) =
        some (false, emptyWorld) := by
  refine ⟨by decide, by decide, by decide, by decide, by decide⟩

/-- Claim C13, amended: a byte that is not an ASCII letter is ignorable where a scan skips.
Inserted where the loop of `Load` scans for the next keyword (in the filler before a keyword,
or after the last directive), it leaves what `Load` returns and the world it leaves unchanged;
so does a byte that is neither a letter nor the quote, inserted between the space that ends a
keyword and the opening quote of its argument. -/
theorem filler_is_ignorable :
    (∀ (path pre filler rest : Str) (b : Nat) (w : World) (st : LoopState),
      Reaches path (loadStart (pre ++ (filler ++ rest)) w) st →
      st.file.rest = filler ++ rest → isFiller filler → IsAlphanumeric b = false →
      outcome (Load path (some (pre ++ (filler ++ b :: rest))) w) =
        outcome (Load path (some (pre ++ (filler ++ rest))) w)) ∧
    (∀ (path pre filler kw gap rest : Str) (b : Nat) (w : World) (st : LoopState),
      Reaches path (loadStart (pre ++ (filler ++ kw ++ 0x20 :: (gap ++ rest))) w) st →
      st.file.rest = filler ++ kw ++ 0x20 :: (gap ++ rest) →
      isFiller filler → isToken kw → isGap gap → IsAlphanumeric b = false → b ≠ 0x22 →
      outcome (Load path (some (pre ++ (filler ++ kw ++ 0x20 :: (gap ++ b :: rest)))) w) =
        outcome (Load path (some (pre ++ (filler ++ kw ++ 0x20 :: (gap ++ rest)))) w)) := by
  constructor
  · intro path pre filler rest b w st hreach hrest hf hb
    apply Load_outcome_of_tail path pre _ _ w st hreach hrest
    have hf' : isFiller (filler ++ [b]) := by
      intro x hx
      rcases List.mem_append.1 hx with hx | hx
      · exact hf x hx
      · rw [List.mem_singleton.1 hx]; exact hb
    have h1 := loadBody_skip_filler path (filler ++ [b]) rest [] st.w hf'
    have h2 := loadBody_skip_filler path filler rest [] st.w hf
    simp only [List.append_assoc, List.singleton_append] at h1
    rw [h1, h2]
  · intro path pre filler kw gap rest b w st hreach hrest hf hk hg hb hq
    apply Load_outcome_of_tail path pre _ _ w st hreach hrest
    have hg' : isGap (gap ++ [b]) := by
      intro x hx
      rcases List.mem_append.1 hx with hx | hx
      · exact hg x hx
      · rw [List.mem_singleton.1 hx]; simp [hb, hq]
    have h1 := loadBody_skip_gap path filler kw (gap ++ [b]) rest st.w hf hk hg'
    have h2 := loadBody_skip_gap path filler kw gap rest st.w hf hk hg
    have h3 : gap ++ [b] ++ rest = gap ++ b :: rest := by simp
    rw [h3] at h1
    rw [h1, h2]

theorem filler_is_ignorable_witness :
    IsAlphanumeric 0x23 = false ∧
      outcome (Load (str "p.txt")
          (some (str "location \"L\"" ++ ([0x0A] ++ 0x23 :: str "activity \"A\""))) emptyWorld) =
        outcome (Load (str "p.txt")
          (some (str "location \"L\"" ++ ([0x0A] ++ str "activity \"A\""))) emptyWorld) :=
  ⟨by decide,
    filler_is_ignorable.1 (str "p.txt") (str "location \"L\"") [0x0A] (str "activity \"A\"") 0x23
      emptyWorld
      ⟨⟨[0x0A] ++ str "activity \"A\"", false⟩, [],
        { emptyWorld with m_CurrentLocation := some ⟨str "L", []⟩ }⟩
      (Reaches.later _ _ _ [] (by decide) (Reaches.here _)) (by decide) (by decide)
      (by decide)⟩

/-! ## The loader with explicit outcomes -/

/-- The keyword scan and its reference, side by side. -/
theorem ParseKeyword_reference_cases (input em : Str) :
    (ParseKeyword_reference input = .eof ∧
      ParseKeyword ⟨input, false⟩ em = ([], ⟨[], true⟩, str "EOF")) ∨
    (∃ file run, ParseKeyword_reference input =
        .fatal (str "Keyword (" ++ run ++ str ") is incomplete") ∧
      ParseKeyword ⟨input, false⟩ em =
        ([], file, str "Keyword (" ++ run ++ str ") is incomplete")) ∨
    (∃ kw cursor, ParseKeyword_reference input = .token kw cursor ∧
      ParseKeyword ⟨input, false⟩ em = (kw, ⟨cursor, false⟩, em)) := by
  unfold ParseKeyword_reference
  rw [inKeyword_fun]
  rcases split_at_first (fun b => !isLetter b) input with
    ⟨h1, h2, -⟩ | ⟨pre, c, r, h1, h2, h3, h4, -⟩
  · left
    simp only [h2, if_true, true_and]
    exact ParseKeyword_eof input em (fun x hx => by simpa [isLetter_eq] using h1 x hx)
  · right
    have hpre : ∀ x ∈ pre, IsAlphanumeric x = false := fun x hx => by
      simpa [isLetter_eq] using h2 x hx
    have hc : IsAlphanumeric c = true := by simpa [isLetter_eq] using h3
    have hck := letter_inKeyword c hc
    simp only [h4, List.dropWhile_cons_of_pos hck, List.takeWhile_cons_of_pos hck,
      if_false, reduceCtorEq]
    rcases split_at_first inKeyword r with ⟨g1, g2, g3⟩ | ⟨run, t, cursor, g1, g2, g3, g4, g5⟩
    · left
      refine ⟨⟨[], true⟩, c :: r, ?_, ?_⟩
      · rw [g2, g3]; simp
      · rw [h1, ParseKeyword_unended pre c r em hpre hc g1]
    · rw [g4, g5, h1, g1, ParseKeyword_ended pre c run t cursor em hpre hc g2 g3]
      by_cases h20 : t = 0x20
      · right
        subst h20
        exact ⟨c :: run, cursor, by simp, by simp⟩
      · left
        exact ⟨⟨cursor, false⟩, c :: run, by simp [h20], by simp [h20]⟩

/-- The string scan and its reference, side by side. -/
theorem ParseString_reference_cases (input em : Str) :
    (∃ file m, isStringError m ∧ ParseString_reference input = .fatal m ∧
      ParseString ⟨input, false⟩ em = ([], file, m)) ∨
    (∃ text cursor, ParseString_reference input = .token text cursor ∧
      ParseString ⟨input, false⟩ em = (text, ⟨cursor, false⟩, em)) := by
  unfold ParseString_reference
  rw [inString_fun]
  rcases split_at_first (fun b => !isLetter b && b != 0x22) input with
    ⟨h1, h2, -⟩ | ⟨pre, c, r, h1, h2, h3, h4, -⟩
  · left
    simp only [h2]
    exact ⟨_, _, Or.inl rfl, rfl,
      ParseString_eof input em (fun x hx => by simpa [isLetter_eq] using h1 x hx)⟩
  · have hpre : ∀ x ∈ pre, (!IsAlphanumeric x && x != 0x22) = true := fun x hx => by
      simpa [isLetter_eq] using h2 x hx
    simp only [h4]
    by_cases hc : isLetter c = true
    · left
      simp only [hc, if_true]
      exact ⟨_, _, Or.inr (Or.inl rfl), rfl, by
        rw [h1, ParseString_letter pre c r em hpre (by simpa [isLetter_eq] using hc)]⟩
    · have hq : c = 0x22 := by
        simp only [Bool.not_eq_true] at hc
        simpa [hc] using h3
      subst hq
      simp only [hc, if_false]
      rcases split_at_first inString r with ⟨g1, g2, g3⟩ | ⟨run, t, cursor, g1, g2, g3, g4, g5⟩
      · left
        refine ⟨⟨[], true⟩, _, Or.inr (Or.inr rfl), ?_, ?_⟩
        · rw [g2, g3]; simp
        · rw [h1, ParseString_unended pre r em hpre g1]
      · rw [g4, g5, h1, g1, ParseString_ended pre run t cursor em hpre g2 g3]
        by_cases h22 : t = 0x22
        · right
          subst h22
          exact ⟨run, cursor, by simp, by simp⟩
        · left
          exact ⟨⟨cursor, false⟩, _, Or.inr (Or.inr rfl), by simp [h22], by simp [h22]⟩

/-- What `withArgument` yields, next to what `ParseString` does on the same input. -/
theorem withArgument_cases (input : Str) (w : World) (effect : Str → Outcome × World) :
    (∃ file m, isStringError m ∧ withArgument input w effect = (.fatal m, input, w) ∧
      ParseString ⟨input, false⟩ [] = ([], file, m)) ∨
    (∃ text cursor, withArgument input w effect = ((effect text).1, cursor, (effect text).2) ∧
      ParseString ⟨input, false⟩ [] = (text, ⟨cursor, false⟩, [])) := by
  rcases ParseString_reference_cases input [] with
    ⟨file, m, herr, href, hps⟩ | ⟨text, cursor, href, hps⟩
  · left
    exact ⟨file, m, herr, by simp only [withArgument, href], hps⟩
  · right
    exact ⟨text, cursor, by simp only [withArgument, href], hps⟩

theorem agrees_fatal (f : IfStream) (t : Str) (v w : World) (rest : Str)
    (hf : firstChar t ≠ 0x7E ∧ t ≠ []) : agrees (f, t, v) (.fatal t, rest, v) w := by
  refine ⟨rfl, rfl, fun h => by simp [Outcome.isFatal] at h, ?_, fun t h => by simp at h⟩
  intro t' ht
  injection ht with ht
  subst ht
  exact hf

theorem agrees_success (rest : Str) (v w : World) :
    agrees (⟨rest, false⟩, [], v) (.success, rest, v) w :=
  ⟨rfl, rfl, fun _ => rfl, fun t h => by simp at h, fun t h => by simp at h⟩

theorem agrees_warning (rest p : Str) (w : World) :
    agrees (⟨rest, false⟩, str "~Preference (" ++ p ++ str ") is undefined", w)
      (.warning (str "Preference (" ++ p ++ str ") is undefined"), rest, w) w := by
  refine ⟨rfl, rfl, fun _ => rfl, fun t h => by simp at h, ?_⟩
  intro t ht
  injection ht with ht
  exact ⟨⟨p, ht.symm⟩, rfl⟩

/-- The handler with the string sentinel and the handler with explicit outcomes agree on
every keyword, input and world. -/
theorem HandleKeyword_explicit_spec (kw input : Str) (w : World) :
    agrees (HandleKeyword kw ⟨input, false⟩ [] w) (HandleKeyword_explicit kw input w) w := by
  have hdup : ∀ p : Str,
      firstChar (str "Preference (" ++ p ++ str ") defined more than once") ≠ 0x7E ∧
        str "Preference (" ++ p ++ str ") defined more than once" ≠ [] := by
    intro p
    rw [duplicate_head]
    exact ⟨by simp [firstChar], by simp⟩
  have hne : ¬ (str "preference-" = str "preference+") := by decide
  rcases ParseString_reference_cases input [] with
    ⟨file, m, herr, href, hps⟩ | ⟨text, cursor, href, hps⟩
  · -- the string scan fails
    have hm := isStringError_fatal m herr
    rcases keyword_cases kw with rfl | rfl | rfl | rfl | rfl | rfl | ⟨h1, h2, h3, h4, h5, h6⟩
    · rw [HandleKeyword_explicit, if_pos rfl, HandleKeyword_location _ _ _ _ _ _ hps]
      cases hloc : w.m_CurrentLocation with
      | some l =>
        rw [if_pos (by simp)]
        exact agrees_fatal _ _ _ _ _ ⟨by decide, by decide⟩
      | none =>
        rw [if_neg (by simp), if_neg hm.2]
        simp only [withArgument, href]
        exact agrees_fatal _ _ _ _ _ hm
    · rw [HandleKeyword_explicit, if_neg (by decide), if_pos rfl,
        HandleKeyword_activity _ _ _ _ _ _ hps]
      cases hloc : w.m_CurrentLocation with
      | none => exact agrees_fatal _ _ _ _ _ ⟨by decide, by decide⟩
      | some l =>
        simp only [withArgument, href, if_neg hm.2]
        exact agrees_fatal _ _ _ _ _ hm
    · rw [HandleKeyword_explicit, if_neg (by decide), if_neg (by decide), if_pos (Or.inl rfl),
        HandleKeyword_positive _ _ _ _ _ _ hps]
      cases hact : w.m_CurrentActivity with
      | none => exact agrees_fatal _ _ _ _ _ ⟨by decide, by decide⟩
      | some a =>
        simp only [withArgument, href, if_neg hm.2]
        exact agrees_fatal _ _ _ _ _ hm
    · rw [HandleKeyword_explicit, if_neg (by decide), if_neg (by decide), if_pos (Or.inr rfl),
        HandleKeyword_negative _ _ _ _ _ _ hps]
      cases hact : w.m_CurrentActivity with
      | none => exact agrees_fatal _ _ _ _ _ ⟨by decide, by decide⟩
      | some a =>
        simp only [withArgument, href, if_neg hm.2]
        exact agrees_fatal _ _ _ _ _ hm
    · rw [HandleKeyword_explicit, if_neg (by decide), if_neg (by decide), if_neg (by decide),
        if_pos rfl, HandleKeyword_add _ _ _ _ _ _ hps, if_neg hm.2]
      simp only [withArgument, href]
      exact agrees_fatal _ _ _ _ _ hm
    · rw [HandleKeyword_explicit, if_neg (by decide), if_neg (by decide), if_neg (by decide),
        if_neg (by decide), if_pos rfl, HandleKeyword_name _ _ _ _ _ _ hps, if_neg hm.2]
      simp only [withArgument, href]
      exact agrees_fatal _ _ _ _ _ hm
    · rw [HandleKeyword_explicit, if_neg h1, if_neg h2, if_neg (by simp [h3, h4]), if_neg h5,
        if_neg h6, HandleKeyword_other _ _ _ _ h1 h2 h3 h4 h5 h6]
      refine agrees_fatal _ _ _ _ _ ?_
      rw [unrecognized_head]
      exact ⟨by simp [firstChar], by simp⟩
  · -- the string scan returns `text`
    rcases keyword_cases kw with rfl | rfl | rfl | rfl | rfl | rfl | ⟨h1, h2, h3, h4, h5, h6⟩
    · rw [HandleKeyword_explicit, if_pos rfl, HandleKeyword_location _ _ _ _ _ _ hps]
      cases hloc : w.m_CurrentLocation with
      | some l =>
        rw [if_pos (by simp)]
        exact agrees_fatal _ _ _ _ _ ⟨by decide, by decide⟩
      | none =>
        rw [if_neg (by simp), if_pos rfl]
        simp only [withArgument, href]
        exact agrees_success _ _ _
    · rw [HandleKeyword_explicit, if_neg (by decide), if_pos rfl,
        HandleKeyword_activity _ _ _ _ _ _ hps]
      cases hloc : w.m_CurrentLocation with
      | none => exact agrees_fatal _ _ _ _ _ ⟨by decide, by decide⟩
      | some l =>
        simp only [withArgument, href, if_true]
        exact agrees_success _ _ _
    · rw [HandleKeyword_explicit, if_neg (by decide), if_neg (by decide), if_pos (Or.inl rfl),
        HandleKeyword_positive _ _ _ _ _ _ hps]
      cases hact : w.m_CurrentActivity with
      | none => exact agrees_fatal _ _ _ _ _ ⟨by decide, by decide⟩
      | some a =>
        simp only [withArgument, href, if_true]
        cases hp : GetPreferenceByName w.preferences (text.map tolower) with
        | some p => exact agrees_success _ _ _
        | none => exact agrees_warning _ _ _
    · rw [HandleKeyword_explicit, if_neg (by decide), if_neg (by decide), if_pos (Or.inr rfl),
        HandleKeyword_negative _ _ _ _ _ _ hps]
      cases hact : w.m_CurrentActivity with
      | none => exact agrees_fatal _ _ _ _ _ ⟨by decide, by decide⟩
      | some a =>
        simp only [withArgument, href, if_true, hne, if_false]
        cases hp : GetPreferenceByName w.preferences (text.map tolower) with
        | some p => exact agrees_success _ _ _
        | none => exact agrees_warning _ _ _
    · rw [HandleKeyword_explicit, if_neg (by decide), if_neg (by decide), if_neg (by decide),
        if_pos rfl, HandleKeyword_add _ _ _ _ _ _ hps, if_pos rfl]
      simp only [withArgument, href]
      by_cases hp : (GetPreferenceByName w.preferences (text.map tolower)).isSome = true
      · simp only [hp, if_true]
        exact agrees_fatal _ _ _ _ _ (hdup _)
      · simp only [hp, if_false]
        exact agrees_success _ _ _
    · rw [HandleKeyword_explicit, if_neg (by decide), if_neg (by decide), if_neg (by decide),
        if_neg (by decide), if_pos rfl, HandleKeyword_name _ _ _ _ _ _ hps, if_pos rfl]
      simp only [withArgument, href]
      exact agrees_success _ _ _
    · rw [HandleKeyword_explicit, if_neg h1, if_neg h2, if_neg (by simp [h3, h4]), if_neg h5,
        if_neg h6, HandleKeyword_other _ _ _ _ h1 h2 h3 h4 h5 h6]
      refine agrees_fatal _ _ _ _ _ ?_
      rw [unrecognized_head]
      exact ⟨by simp [firstChar], by simp⟩

/-- The loop of `Load` and the loop with explicit outcomes return the same, for every number
of iterations allowed. -/
theorem loadLoop_eq_explicit (path : Str) :
    ∀ (fuel : Nat) (input : Str) (w : World),
      loadLoop path fuel ⟨⟨input, false⟩, [], w⟩ = loadLoop_explicit path fuel input w := by
  intro fuel
  induction fuel with
  | zero => intro input w; rfl
  | succ n ih =>
    intro input w
    rw [loadLoop, loadLoop_explicit]
    rcases ParseKeyword_reference_cases input [] with
      ⟨href, hpk⟩ | ⟨file, run, href, hpk⟩ | ⟨kw, cursor, href, hpk⟩
    · have hb : loadBody path ⟨⟨input, false⟩, [], w⟩ = loadEnd path w := by
        unfold loadBody
        simp only [Bool.false_eq_true, if_false, hpk, if_true]
      rw [hb, href]
      rfl
    · have hb : loadBody path ⟨⟨input, false⟩, [], w⟩ = .exit false w
          [.error (errorOutput path ++ (str "Keyword (" ++ run ++ str ") is incomplete"))] := by
        unfold loadBody
        simp only [Bool.false_eq_true, if_false, hpk]
        rw [if_neg (keyword_incomplete_ne_EOF run), keyword_incomplete_head,
          if_neg (by simp [firstChar]), if_pos (by simp)]
      rw [hb, href]
    · rw [loadBody_keyword path input w kw _ hpk, href]
      have hspec := HandleKeyword_explicit_spec kw cursor w
      rcases he : HandleKeyword_explicit kw cursor w with ⟨o, rest, v⟩
      rw [he] at hspec
      obtain ⟨hm, hw, hf, hfat, -⟩ := hspec
      simp only at hm hw hf hfat
      cases o with
      | success =>
        have hfile := hf rfl
        simp only [Outcome.message] at hm
        rw [hm, hw, hfile, if_neg (by decide), if_neg (by simp)]
        simp only [ih, he]
      | warning t =>
        have hfile := hf rfl
        simp only [Outcome.message] at hm
        rw [hm, hw, hfile, if_pos (by simp [firstChar])]
        simp only [ih, List.tail_cons, he]
      | fatal t =>
        obtain ⟨ht1, ht2⟩ := hfat t rfl
        simp only [Outcome.message] at hm
        rw [hm, hw, if_neg ht1, if_pos ht2]
        simp only [he]

/-- Claim C19: the classification of `Load` by the string sentinel is exact. A message
`ParseKeyword` sets is `"EOF"` or a text that is not empty, does not begin with `~` and is not
`"EOF"`; a message `ParseString` sets is not empty and does not begin with `~`; every handler
call agrees with the handler with explicit outcomes (its fatal texts are not empty and do not
begin with `~`, whatever bytes the keyword or the argument holds, and its one warning is the
undefined preference); an `"EOF"` that a handler call sets ends the load with an error; and
`Load` returns the same value, leaves the same world and writes the same console lines as the
loader with explicit outcomes. -/
theorem sentinel_classification_exact :
    (∀ (file : IfStream) (em : Str),
      (ParseKeyword file em).2.2 = em ∨ (ParseKeyword file em).2.2 = str "EOF" ∨
        (firstChar (ParseKeyword file em).2.2 ≠ 0x7E ∧ (ParseKeyword file em).2.2 ≠ [] ∧
          (ParseKeyword file em).2.2 ≠ str "EOF")) ∧
    (∀ (file : IfStream) (em : Str),
      (ParseString file em).2.2 = em ∨
        (firstChar (ParseString file em).2.2 ≠ 0x7E ∧ (ParseString file em).2.2 ≠ [])) ∧
    (∀ (kw input : Str) (w : World),
      agrees (HandleKeyword kw ⟨input, false⟩ [] w) (HandleKeyword_explicit kw input w) w) ∧
    (∀ (path input : Str) (w : World) (kw : Str) (file : IfStream),
      ParseKeyword ⟨input, false⟩ [] = (kw, file, []) →
      (HandleKeyword kw file [] w).2.1 = str "EOF" →
      loadBody path ⟨⟨input, false⟩, [], w⟩ =
        .exit false (HandleKeyword kw file [] w).2.2
          [.error (errorOutput path ++ str "EOF")]) ∧
    (∀ (path : Str) (contents : Option Str) (w : World),
      Load path contents w = Load_explicit path contents w) := by
  refine ⟨?_, ?_, HandleKeyword_explicit_spec, ?_, ?_⟩
  · intro file em
    obtain ⟨input, eof⟩ := file
    cases eof with
    | true => rw [ParseKeyword_at_eof]; exact Or.inr (Or.inl rfl)
    | false =>
      rcases ParseKeyword_cases input em with
        hk | ⟨file, kw, hk⟩ | ⟨consumed, kw, cursor, hin, -, -, hk⟩
      · rw [hk]; exact Or.inr (Or.inl rfl)
      · rw [hk]
        refine Or.inr (Or.inr ⟨?_, ?_, keyword_incomplete_ne_EOF kw⟩)
        · rw [keyword_incomplete_head]; simp [firstChar]
        · rw [keyword_incomplete_head]; simp
      · rw [hin, hk cursor em]; exact Or.inl rfl
  · intro file em
    obtain ⟨input, eof⟩ := file
    cases eof with
    | true =>
      rw [ParseString_at_eof]
      exact Or.inr (isStringError_fatal _ (Or.inl rfl))
    | false =>
      rcases ParseString_cases input em with
        ⟨file, m, hps, herr, -⟩ | ⟨consumed, text, cursor, hin, -, -, hps⟩
      · rw [hps]; exact Or.inr (isStringError_fatal m herr)
      · rw [hin, hps cursor em]; exact Or.inl rfl
  · intro path input w kw file hk hm
    rw [loadBody_keyword path input w kw file hk, hm, if_neg (by decide), if_pos (by decide)]
  · intro path contents w
    cases contents with
    | none => rfl
    | some bytes => exact loadLoop_eq_explicit path _ bytes _

theorem sentinel_classification_exact_witness :
    ParseKeyword ⟨str "name ", false⟩ [] = (str "name", ⟨[], false⟩, []) ∧
      loadBody (str "p.txt") ⟨⟨str "name ", false⟩, [], emptyWorld⟩ =
        .exit false (HandleKeyword (str "name") ⟨[], false⟩ [] emptyWorld).2.2
          [.error (errorOutput (str "p.txt") ++ str "EOF")] :=
  ⟨by decide,
    sentinel_classification_exact.2.2.2.1 (str "p.txt") (str "name ") emptyWorld (str "name")
      ⟨[], false⟩ (by decide) (by decide)⟩

/-! ## The reads of the sentinel -/

/-- Without its reads, the traced iteration is the iteration. -/
theorem loadBodyTraced_fst (path : Str) (st : LoopState) :
    (loadBodyTraced path st).1 = loadBody path st := by
  unfold loadBodyTraced loadBody
  rcases ParseKeyword st.file st.errorMessage with ⟨keyword, file, errorMessage⟩
  rcases h1 : HandleKeyword keyword file [] st.w with ⟨f1, m1, w1⟩
  rcases h2 : HandleKeyword keyword file errorMessage st.w with ⟨f2, m2, w2⟩
  simp only [h1, h2]
  split_ifs <;> rfl

/-- The reads of an iteration that starts without a message and whose keyword scan returns a
keyword: the empty message, then the message the handler call left. -/
theorem loadBodyTraced_reads (path : Str) (st : LoopState) (kw : Str) (file : IfStream)
    (heof : st.file.eof = false) (hem : st.errorMessage = [])
    (hk : ParseKeyword st.file [] = (kw, file, [])) :
    (loadBodyTraced path st).2 = [[], (HandleKeyword kw file [] st.w).2.1] := by
  unfold loadBodyTraced
  rw [hem]
  simp only [heof, Bool.false_eq_true, if_false, hk]
  rw [if_neg (by decide), if_neg (by decide), if_neg (by simp)]
  rcases HandleKeyword kw file [] st.w with ⟨f1, m1, w1⟩
  simp only
  split_ifs <;> rfl

/-- Without its reads, the traced loop is the loop. -/
theorem loadLoopTraced_fst (path : Str) :
    ∀ (fuel : Nat) (st : LoopState),
      (loadLoopTraced path fuel st).map Prod.fst = loadLoop path fuel st := by
  intro fuel
  induction fuel with
  | zero => intro st; rfl
  | succ n ih =>
    intro st
    rw [loadLoopTraced, loadLoop, ← loadBodyTraced_fst path st]
    rcases loadBodyTraced path st with ⟨step, reads⟩
    cases step with
    | exit result w console => rfl
    | next st' console =>
      simp only [← ih st', Option.map_map]
      rfl

/-- Without its reads, the traced `Load` is `Load`. -/
theorem LoadTraced_fst (path : Str) (contents : Option Str) (w : World) :
    (LoadTraced path contents w).map Prod.fst = Load path contents w := by
  cases contents with
  | none => rfl
  | some bytes => exact loadLoopTraced_fst path _ _

/-- The reads of every iteration the loop comes to are among the reads of the run, in one
piece. -/
theorem Reaches.reads (path : Str) (st st' : LoopState) (h : Reaches path st st')
    (hem : st.errorMessage = []) :
    ∀ fuel, st.file.rest.length < fuel →
      ∃ r before after, loadLoopTraced path fuel st =
        some (r, before ++ (loadBodyTraced path st').2 ++ after) := by
  induction h with
  | here st =>
    intro fuel hfuel
    obtain ⟨n, rfl⟩ : ∃ n, fuel = n + 1 := ⟨fuel - 1, by omega⟩
    rw [loadLoopTraced]
    have hfst := loadBodyTraced_fst path st
    rcases hb : loadBodyTraced path st with ⟨step, reads⟩
    rw [hb] at hfst
    simp only at hfst
    cases step with
    | exit result w console =>
      exact ⟨(result, w, console), [], [], by simp⟩
    | next mid console =>
      obtain ⟨-, hem', -, hlt, -⟩ := loadBody_next path st mid console hem hfst.symm
      obtain ⟨r, hr⟩ := loadLoop_enough path n mid hem' (by omega)
      have hsome := loadLoopTraced_fst path n mid
      rw [hr] at hsome
      rcases ht : loadLoopTraced path n mid with _ | ⟨r', reads'⟩
      · rw [ht] at hsome; simp at hsome
      · exact ⟨(r'.1, r'.2.1, console ++ r'.2.2), [], reads', by simp [ht]⟩
  | later st mid st' console hb _ ih =>
    intro fuel hfuel
    obtain ⟨n, rfl⟩ : ∃ n, fuel = n + 1 := ⟨fuel - 1, by omega⟩
    obtain ⟨-, hem', -, hlt, -⟩ := loadBody_next path st mid console hem hb
    obtain ⟨r, before, after, hr⟩ := ih hem' n (by omega)
    rw [loadLoopTraced]
    have hfst := loadBodyTraced_fst path st
    rw [hb] at hfst
    rcases hbt : loadBodyTraced path st with ⟨step, reads⟩
    rw [hbt] at hfst
    simp only at hfst
    subst hfst
    simp only [hr, Option.map_some']
    exact ⟨(r.1, r.2.1, console ++ r.2.2), reads ++ before, after, by simp⟩

/-- Claim C18: `Load` evaluates `errorMessage[0]` while `errorMessage` is empty, so that the
index 0 equals the length. `LoadTraced` is `Load` with these evaluations recorded: without the
record, its body is `loadBody` and its result is the result of `Load`. On the
file `location "Park"` the call returns true after two evaluations, both on the empty
message. For every file and every iteration the loop of `Load` comes to in which the keyword
scan returns a keyword, the evaluations of the call hold, one after the other, the empty
message and the message the handler call left; when the handler call set no message, both
are evaluations on the empty message. -/
theorem sentinel_read_of_empty_message :
    ((∀ (path : Str) (st : LoopState), (loadBodyTraced path st).1 = loadBody path st) ∧
      ∀ (path : Str) (contents : Option Str) (w : World),
        (LoadTraced path contents w).map Prod.fst = Load path contents w) ∧
    (LoadTraced (str "p.txt") (some (str "location \"Park\"")) emptyWorld =
        some ((true,
          { emptyWorld with
            m_CurrentLocation := some ⟨str "Park", []⟩
            locations := [⟨str "Park", []⟩] },
          [.message (str "File p.txt loaded successfully")]), [[], []]) ∧
      ∀ m ∈ [([] : Str), []], m.length = 0) ∧
    (∀ (path bytes : Str) (w : World) (st : LoopState) (kw : Str) (file : IfStream),
      Reaches path (loadStart bytes w) st → ParseKeyword st.file [] = (kw, file, []) →
      ∃ r before after, Load path (some bytes) w = some r ∧
        LoadTraced path (some bytes) w =
          some (r, before ++ [[], (HandleKeyword kw file [] st.w).2.1] ++ after)) ∧
    (∀ (path bytes : Str) (w : World) (st : LoopState) (kw : Str) (file : IfStream),
      Reaches path (loadStart bytes w) st → ParseKeyword st.file [] = (kw, file, []) →
      (HandleKeyword kw file [] st.w).2.1 = [] →
      ∃ r before after, Load path (some bytes) w = some r ∧
        LoadTraced path (some bytes) w = some (r, before ++ [[], []] ++ after)) := by
  have hmain : ∀ (path bytes : Str) (w : World) (st : LoopState) (kw : Str) (file : IfStream),
      Reaches path (loadStart bytes w) st → ParseKeyword st.file [] = (kw, file, []) →
      ∃ r before after, Load path (some bytes) w = some r ∧
        LoadTraced path (some bytes) w =
          some (r, before ++ [[], (HandleKeyword kw file [] st.w).2.1] ++ after) := by
    intro path bytes w st kw file hreach hk
    obtain ⟨hem, heof⟩ := Reaches.head path _ _ hreach rfl rfl
    obtain ⟨r, before, after, hr⟩ := Reaches.reads path _ st hreach rfl (bytes.length + 1)
      (Nat.lt_succ_self _)
    rw [loadBodyTraced_reads path st kw file heof hem hk] at hr
    have ht : LoadTraced path (some bytes) w =
        some (r, before ++ [[], (HandleKeyword kw file [] st.w).2.1] ++ after) := hr
    refine ⟨r, before, after, ?_, ht⟩
    rw [← LoadTraced_fst, ht]
    rfl
  refine ⟨⟨loadBodyTraced_fst, LoadTraced_fst⟩, ⟨by decide, by decide⟩, hmain, ?_⟩
  intro path bytes w st kw file hreach hk hh
  have := hmain path bytes w st kw file hreach hk
  rw [hh] at this
  exact this

theorem sentinel_read_of_empty_message_witness :
    ParseKeyword ⟨str "\nname \"Bob\"", false⟩ [] =
        (str "name", ⟨str "\"Bob\"", false⟩, []) ∧
      (HandleKeyword (str "name") ⟨str "\"Bob\"", false⟩ []
        { emptyWorld with m_CurrentLocation := some ⟨str "Park", []⟩ }).2.1 = [] ∧
      ∃ r before after,
        Load (str "p.txt") (some (str "location \"Park\"\nname \"Bob\"")) emptyWorld =
          some r ∧
        LoadTraced (str "p.txt") (some (str "location \"Park\"\nname \"Bob\"")) emptyWorld =
          some (r, before ++ [[], []] ++ after) :=
  ⟨by decide, by decide,
    sentinel_read_of_empty_message.2.2.2 (str "p.txt")
      (str "location \"Park\"\nname \"Bob\"") emptyWorld
      ⟨⟨str "\nname \"Bob\"", false⟩, [],
        { emptyWorld with m_CurrentLocation := some ⟨str "Park", []⟩ }⟩
      (str "name") ⟨str "\"Bob\"", false⟩
      (Reaches.later _ _ _ [] (by decide) (Reaches.here _)) (by decide) (by decide)⟩

end Imagelyn
